import Mathlib

/-!
# jdep.c: Java class file dependency analyzer

A shallow embedding of `src/jdep.c` and theorems about it.

Conventions of the embedding.

* A byte is a natural number below 256 and a `word` a number below `2 ^ 16`.  A
  `longword` is an `unsigned long`: it has 4 or 8 bytes, which the `Host` says, although
  the comment at its typedef calls it a 32-bit number.  A conversion to `int` keeps the
  low 32 bits.
* Storage that was never written holds indeterminate bytes.  A `FILE` carries them as a
  stream `junk`, which the reads consume where `fread` leaves a buffer unwritten; the
  statements hold for every such stream.
* `CStr` is the content of a NUL-terminated string: the bytes in front of the
  terminator.  A buffer that was read from a file is turned into the string the C
  library functions see by `cstr`.
* A pointer to a pool entry is an `Option cp_info`; `none` is `NULL`.
* The singly linked lists of the source (`PackageInfo`, `attribute_info`) are Lean
  lists whose head is the head of the chain.
* `deps` / `depCount` is a list of names: `depCount` is its length.  The caller
  supplies the storage (`analyzeClassFile` has room for 10000 names) and the
  embedding assumes it is large enough.
* Undefined behaviour and `exit(1)` are results `Except.error` of type `Fault`.
-/

namespace Jdep

/-! ## Strings -/

/-- Content of a NUL-terminated C string, as the list of its bytes. -/
abbrev CStr := List Nat

/-- Bytes of a string literal. -/
def bytesOf (s : String) : CStr := s.toList.map Char.toNat

/-- The C string that starts at the beginning of a buffer: everything in front of the
first NUL byte. -/
def cstr (buf : List Nat) : CStr := buf.takeWhile (fun b => b != 0)

/-- Position of the first occurrence of character `c`, the offset of the pointer that
`index(s, c)` returns; `none` is `NULL`. -/
def index : CStr → Nat → Option Nat
  | [], _ => none
  | x :: xs, c => if x = c then some 0 else (index xs c).map (fun k => k + 1)

/-- Truth of `strncmp(a, b, n) == 0`: the two strings agree on their first `n`
characters, where a comparison stops at a terminator. -/
def strncmpEq : CStr → CStr → Nat → Bool
  | _, _, 0 => true
  | [], [], _ + 1 => true
  | [], _ :: _, _ + 1 => false
  | _ :: _, [], _ + 1 => false
  | a :: as, b :: bs, n + 1 => a == b && strncmpEq as bs n

/-! ## Faults -/

/-- Ways in which a run of the program stops without a result. -/
inductive Fault where
  /-- A `NULL` pointer is read through. -/
  | nullDereference
  /-- An array or buffer is accessed outside its allocation. -/
  | outOfBounds
  /-- The fatal exit of `readConstantPoolInfo` for an unknown tag: the message names
  the tag and the file. -/
  | invalidConstantTag (tag : Nat) (filename : CStr)
  /-- The fatal exit of `findDeps` when the class file cannot be opened. -/
  | classNotFound (name : CStr)
  /-- The recursion bound of the embedding is exhausted. -/
  | outOfFuel
  deriving DecidableEq, Repr

/-- Reading through a pointer that may be `NULL`. -/
def deref {α : Type} : Option α → Except Fault α
  | none => .error .nullDereference
  | some a => .ok a

/-! ## Package rules -/

/-- One package rule: the slash-separated name and its length. -/
structure PackageInfo where
  name : CStr
  nameLength : Nat
  deriving DecidableEq, Repr

/-- The copy loop of `buildPackageInfo`: every `.` becomes `/`; the flag tells whether
the last character copied was a `.`. -/
def copyPackageName : CStr → Bool → CStr × Bool
  | [], slashFlag => ([], slashFlag)
  | c :: rest, _ =>
    if c = '.'.toNat then
      let r := copyPackageName rest true
      ('/'.toNat :: r.1, r.2)
    else
      let r := copyPackageName rest false
      (c :: r.1, r.2)

/-- Rule for package `name`, put in front of the chain `next`. -/
def buildPackageInfo (name : CStr) (next : List PackageInfo) : List PackageInfo :=
  let r := copyPackageName name false
  let pathName := if !r.2 then r.1 ++ ['/'.toNat] else r.1
  { name := pathName, nameLength := pathName.length } :: next

/-- The global rule lists. -/
structure Globals where
  ExcludedPackages : List PackageInfo
  IncludedPackages : List PackageInfo
  deriving DecidableEq, Repr

/-- Adds a rule to the excluded list. -/
def excludePackage (name : CStr) (g : Globals) : Globals :=
  { g with ExcludedPackages := buildPackageInfo name g.ExcludedPackages }

/-- Adds a rule to the included list. -/
def includePackage (name : CStr) (g : Globals) : Globals :=
  { g with IncludedPackages := buildPackageInfo name g.IncludedPackages }

/-- Some rule of the chain matches the first `nameLength` characters of `name`. -/
def matchPackage (name : CStr) : List PackageInfo → Bool
  | [] => false
  | p :: packages =>
    if strncmpEq name p.name p.nameLength then true else matchPackage name packages

/-- The package filter. -/
def isIncludedClass (g : Globals) (name : CStr) : Bool :=
  if matchPackage name g.ExcludedPackages then false
  else if !g.IncludedPackages.isEmpty then matchPackage name g.IncludedPackages
  else true

/-! ## Dependency list -/

/-- Appends `name` unless an equal string is already present; the result stands for the
array together with the returned count. -/
def addDep (name : CStr) (deps : List CStr) : List CStr :=
  if name ∈ deps then deps else deps ++ [name]

/-! ## Parsed class files -/

/-- A constant pool entry that the parser keeps: a class reference or a string.  The
string is the buffer `readByteArray` returned, terminator included. -/
inductive cp_info where
  | constant_class_info (name_index : Nat)
  | constant_utf8_info (str : List Nat)
  deriving DecidableEq, Repr

/-- One attribute: the index of its name, its declared length and the buffer that
`readByteArray` returned for it. -/
structure attribute_info where
  attribute_name_index : Nat
  attribute_length : Nat
  info : List Nat
  deriving DecidableEq, Repr

/-- Result of parsing one class file.  `constant_pool` is the allocated array: an
access beyond its end is out of bounds. -/
structure classFile where
  constant_pool_count : Nat
  constant_pool : List (Option cp_info)
  attributes : List attribute_info
  deriving DecidableEq, Repr

/-- Evaluation of `cf->constant_pool[index]`. -/
def poolAt (cf : classFile) (index : Nat) : Except Fault (Option cp_info) :=
  match cf.constant_pool[index]? with
  | none => .error .outOfBounds
  | some cp => .ok cp

/-- String of a `CONSTANT_Utf8` slot; `none` (`NULL`) for another tag.  The slot is
read through without a `NULL` test. -/
def getString (cf : classFile) (index : Nat) : Except Fault (Option CStr) := do
  let cp ← poolAt cf index
  let cp ← deref cp
  match cp with
  | .constant_utf8_info str => pure (some (cstr str))
  | .constant_class_info _ => pure none

/-- Plain class name for a slot: the name of a `CONSTANT_Class`, or the inside of a
descriptor `L...;` held by a `CONSTANT_Utf8`; `none` (`NULL`) otherwise. -/
def getClassName (cf : classFile) (index : Nat) : Except Fault (Option CStr) := do
  let cp ← poolAt cf index
  match cp with
  | none => pure none
  | some (.constant_class_info name_index) => getString cf name_index
  | some (.constant_utf8_info str) =>
    let name := cstr str
    if name.head? = some 'L'.toNat then
      pure (some (name.tail.takeWhile (fun b => b != ';'.toNat)))
    else
      pure none

/-! ## Decoding an attribute buffer -/

/-- Reads `buf[0]` and advances the cursor by one. -/
def decodeByte : List Nat → Except Fault (Nat × List Nat)
  | [] => .error .outOfBounds
  | b :: rest => .ok (b, rest)

/-- Reads `(buf[0] << 8) | buf[1]` as a `word` and advances the cursor by two. -/
def decodeWord : List Nat → Except Fault (Nat × List Nat)
  | b0 :: b1 :: rest => .ok (((b0 <<< 8) ||| b1) % 2 ^ 16, rest)
  | _ => .error .outOfBounds

/-! ## Annotations -/

/-- State of a scan: the cursor into the attribute buffer and the dependency list. -/
abbrev ScanState := List Nat × List CStr

/-- The loop over the element-value pairs of an annotation, `sev` being the scanner
for one element value. -/
def scanPairs (sev : List Nat → List CStr → Except Fault ScanState) :
    Nat → List Nat → List CStr → Except Fault ScanState
  | 0, buf, deps => .ok (buf, deps)
  | n + 1, buf, deps => do
    let r ← decodeWord buf -- element_name_index
    let s ← sev r.2 deps
    scanPairs sev n s.1 s.2

/-- The loop over the values of an array element value. -/
def scanValues (sev : List Nat → List CStr → Except Fault ScanState) :
    Nat → List Nat → List CStr → Except Fault ScanState
  | 0, buf, deps => .ok (buf, deps)
  | n + 1, buf, deps => do
    let s ← sev buf deps
    scanValues sev n s.1 s.2

/-- Scans one annotation; `sev` scans its element values. -/
def scanAnnotation (sev : List Nat → List CStr → Except Fault ScanState) (g : Globals)
    (cf : classFile) (buf : List Nat) (deps : List CStr) : Except Fault ScanState := do
  let t ← decodeWord buf -- type_index
  let name ← getClassName cf t.1
  let name ← deref name
  let deps := if isIncludedClass g name then addDep name deps else deps
  let n ← decodeWord t.2 -- num_element_value_pairs
  scanPairs sev n.1 n.2 deps

/-- Tags whose body is one constant index: `B C D F I J S Z`. -/
def isConstTag (tag : Nat) : Bool :=
  tag ∈ ['B'.toNat, 'C'.toNat, 'D'.toNat, 'F'.toNat, 'I'.toNat, 'J'.toNat, 'S'.toNat,
    'Z'.toNat]

/-- Scans one element value.  The first argument bounds the nesting depth. -/
def scanElementValue (g : Globals) (cf : classFile) :
    Nat → List Nat → List CStr → Except Fault ScanState
  | 0, _, _ => .error .outOfFuel
  | fuel + 1, buf, deps => do
    let t ← decodeByte buf
    let tag := t.1
    let buf := t.2
    if isConstTag tag then
      let r ← decodeWord buf -- const_value_index
      pure (r.2, deps)
    else if tag = 's'.toNat then
      let r ← decodeWord buf -- const_value_index
      pure (r.2, deps)
    else if tag = 'c'.toNat then
      let r ← decodeWord buf -- class_info_index
      pure (r.2, deps)
    else if tag = 'e'.toNat then
      let r ← decodeWord buf -- type_name_index
      let name ← getClassName cf r.1
      let c ← decodeWord r.2 -- const_name_index
      let name ← deref name
      if isIncludedClass g name then pure (c.2, addDep name deps) else pure (c.2, deps)
    else if tag = '@'.toNat then
      scanAnnotation (scanElementValue g cf fuel) g cf buf deps
    else if tag = '['.toNat then
      let r ← decodeWord buf -- num_values
      scanValues (scanElementValue g cf fuel) r.1 r.2 deps
    else
      pure (buf, deps)

/-- The loop over the annotations of one `RuntimeVisibleAnnotations` attribute. -/
def scanAnnotations (sev : List Nat → List CStr → Except Fault ScanState) (g : Globals)
    (cf : classFile) : Nat → List Nat → List CStr → Except Fault ScanState
  | 0, buf, deps => .ok (buf, deps)
  | n + 1, buf, deps => do
    let s ← scanAnnotation sev g cf buf deps
    scanAnnotations sev g cf n s.1 s.2

/-- Name of the attribute that is scanned. -/
def RuntimeVisibleAnnotations : CStr := bytesOf "RuntimeVisibleAnnotations"

/-- Body of the attribute loop of `findDepsInFile`.  An element value cannot nest
deeper than the buffer is long, which bounds the depth. -/
def scanAttribute (g : Globals) (cf : classFile) (att : attribute_info)
    (deps : List CStr) : Except Fault (List CStr) := do
  let name ← getString cf att.attribute_name_index
  let name ← deref name
  if name = RuntimeVisibleAnnotations then
    let n ← decodeWord att.info -- num_annotations
    let s ← scanAnnotations (scanElementValue g cf att.info.length) g cf n.1 n.2 deps
    pure s.2
  else
    pure deps

/-- The attribute loop of `findDepsInFile`. -/
def scanAttributes (g : Globals) (cf : classFile) :
    List attribute_info → List CStr → Except Fault (List CStr)
  | [], deps => .ok deps
  | att :: rest, deps => do
    let deps ← scanAttribute g cf att deps
    scanAttributes g cf rest deps

/-! ## Dependencies of one parsed class -/

/-- Body of the pool loop of `findDepsInFile` for slot `i`; `findDeps` is the
extraction that is run for a nested class of the target. -/
def scanPoolSlot (findDeps : CStr → List CStr → Except Fault (List CStr)) (g : Globals)
    (target : CStr) (cf : classFile) (i : Nat) (deps : List CStr) :
    Except Fault (List CStr) := do
  let cp ← poolAt cf i
  match cp with
  | some (.constant_class_info _) =>
    let name ← getClassName cf i
    let name ← deref name
    if isIncludedClass g name then
      if name.head? ≠ some '['.toNat then
        match index name '$'.toNat with
        | some dollar =>
          if strncmpEq name target dollar then
            let oldDeps := deps
            let deps := addDep name deps
            if oldDeps.length ≠ deps.length then findDeps name deps else pure deps
          else
            pure (addDep (name.take dollar) deps)
        | none => pure (addDep name deps)
      else pure deps
    else pure deps
  | _ => pure deps

/-- The pool loop of `findDepsInFile`: `n` slots starting with slot `i`. -/
def scanPool (findDeps : CStr → List CStr → Except Fault (List CStr)) (g : Globals)
    (target : CStr) (cf : classFile) : Nat → Nat → List CStr → Except Fault (List CStr)
  | 0, _, deps => .ok deps
  | n + 1, i, deps => do
    let deps ← scanPoolSlot findDeps g target cf i deps
    scanPool findDeps g target cf n (i + 1) deps

/-- Dependencies of the parsed class `cf` of `target`, added to `deps`. -/
def findDepsInFile (findDeps : CStr → List CStr → Except Fault (List CStr))
    (g : Globals) (target : CStr) (cf : classFile) (deps : List CStr) :
    Except Fault (List CStr) := do
  let deps ← scanPool findDeps g target cf cf.constant_pool_count 0 deps
  scanAttributes g cf cf.attributes deps

/-! ## Reading a class file -/

/-- The machine the program runs on. -/
structure Host where
  /-- The least significant byte of an integer object has the lowest address. -/
  littleEndian : Bool
  /-- An `unsigned long` has 8 bytes, as on LP64 machines; otherwise it has 4. -/
  long64 : Bool
  deriving DecidableEq, Repr

/-- Number of bytes of an `unsigned long`, the type of `longword`. -/
def sizeofLong (h : Host) : Nat := if h.long64 then 8 else 4

/-- Indeterminate bytes: what a run finds in storage that was never written (a local
variable without initialiser, memory from `malloc`), byte by byte in the order in which
the run comes to look at them.  Nothing is assumed of the stream; what is proved for
every stream holds for the streams of numbers below 256, which are the bytes a machine
can hold. -/
abbrev Junk := Nat → Nat

/-- The next `n` indeterminate bytes. -/
def Junk.take (j : Junk) (n : Nat) : List Nat := (List.range n).map j

/-- The indeterminate bytes after the next `n`. -/
def Junk.drop (j : Junk) (n : Nat) : Junk := fun i => j (i + n)

/-- Storage that holds zeros wherever it was never written. -/
def zeros : Junk := fun _ => 0

/-- An open file: the bytes not yet read, together with the indeterminate bytes that
the reads to come find where they write nothing (the source does not look at what
`fread` returns). -/
structure FILE where
  data : List Nat
  junk : Junk

/-- Call `fread(buffer, size, nmemb, fyle)` on a buffer that was never written: the
buffer afterwards and the file afterwards.  The elements that the file still has in
full are read; the rest of the buffer, a partly read element included, is
indeterminate; the file is `size * nmemb` bytes further, or at its end. -/
def fread (size nmemb : Nat) (fyle : FILE) : List Nat × FILE :=
  let whole := min nmemb (fyle.data.length / size) * size
  let missing := size * nmemb - whole
  (fyle.data.take whole ++ Junk.take fyle.junk missing,
    { data := fyle.data.drop (size * nmemb), junk := Junk.drop fyle.junk missing })

/-- Value of an unsigned integer object with the given bytes, most significant first. -/
def bigEndianValue (mem : List Nat) : Nat :=
  mem.foldl (fun acc b => acc * 256 + b) 0

/-- Value of an unsigned integer object of the host whose bytes in memory, by
increasing address, are `mem`. -/
def hostValue (h : Host) (mem : List Nat) : Nat :=
  if h.littleEndian then bigEndianValue mem.reverse else bigEndianValue mem

/-- Bytes in memory, by increasing address, of the `word` with value `v`. -/
def hostWordBytes (h : Host) (v : Nat) : List Nat :=
  if h.littleEndian then [v % 256, v / 256 % 256] else [v / 256 % 256, v % 256]

/-- Sets the flag `LittleEndian`: stores 1 in a `word` and looks at its first byte. -/
def testEndianism (h : Host) : Bool :=
  (hostWordBytes h 1).head? = some 1

/-- Value of the global `LittleEndian` once `main` has called `testEndianism`, which
it does before anything is read. -/
def LittleEndian (h : Host) : Bool := testEndianism h

/-- The swap loop of `reverseBytes`: `k` more rounds, starting with position `i`. -/
def reverseBytesLoop (length : Nat) : Nat → Nat → List Nat → List Nat
  | 0, _, data => data
  | k + 1, i, data =>
    let temp := data.getD i 0
    let data := data.set i (data.getD (length - 1 - i) 0)
    let data := data.set (length - 1 - i) temp
    reverseBytesLoop length k (i + 1) data

/-- Reverses the first `length` bytes of `data` in place. -/
def reverseBytes (data : List Nat) (length : Nat) : List Nat :=
  reverseBytesLoop length (length / 2) 0 data

/-- Reads one byte. -/
def readByte (fyle : FILE) : Nat × FILE :=
  let r := fread 1 1 fyle
  (r.1.getD 0 0, r.2)

/-- Reads `length` bytes into a fresh buffer of `length + 1` bytes and terminates it
with a NUL. -/
def readByteArray (fyle : FILE) (length : Nat) : List Nat × FILE :=
  let r := fread 1 length fyle
  (r.1 ++ [0], r.2)

/-- Reads a number of 4 bytes into a `longword`, which is an `unsigned long`: where that
has 8 bytes, the 4 bytes that `fread` does not reach stay indeterminate. -/
def readLong (h : Host) (fyle : FILE) : Nat × FILE :=
  let r := fread 4 1 fyle
  let rest := sizeofLong h - 4
  let mem := r.1 ++ Junk.take r.2.junk rest
  let fyle : FILE := { data := r.2.data, junk := Junk.drop r.2.junk rest }
  let result := if LittleEndian h then reverseBytes mem 4 else mem
  (hostValue h result, fyle)

/-- Reads a 16-bit number. -/
def readWord (h : Host) (fyle : FILE) : Nat × FILE :=
  let r := fread 2 1 fyle
  let result := if LittleEndian h then reverseBytes r.1 2 else r.1
  (hostValue h result, r.2)

/-- Skips `length` words. -/
def skipWordArray (h : Host) : FILE → Nat → FILE
  | fyle, 0 => fyle
  | fyle, n + 1 => skipWordArray h (readWord h fyle).2 n

abbrev CONSTANT_Class : Nat := 7
abbrev CONSTANT_Double : Nat := 6
abbrev CONSTANT_Fieldref : Nat := 9
abbrev CONSTANT_Float : Nat := 4
abbrev CONSTANT_Integer : Nat := 3
abbrev CONSTANT_InterfaceMethodref : Nat := 11
abbrev CONSTANT_Long : Nat := 5
abbrev CONSTANT_Methodref : Nat := 10
abbrev CONSTANT_NameAndType : Nat := 12
abbrev CONSTANT_String : Nat := 8
abbrev CONSTANT_Utf8 : Nat := 1

/-- Pointer that `readConstantPoolInfo` returns. -/
inductive CpPtr where
  /-- The pointer `NULL`: an entry that is not kept. -/
  | null
  /-- The marker `LONG_TAG` of an entry that takes two slots. -/
  | LONG_TAG
  /-- A freshly built entry. -/
  | obj (cp : cp_info)
  deriving DecidableEq, Repr

/-- Reads one constant pool entry. -/
def readConstantPoolInfo (h : Host) (fyle : FILE) (filename : CStr) :
    Except Fault (CpPtr × FILE) :=
  let t := readByte fyle
  let tag := t.1
  let fyle := t.2
  if tag = CONSTANT_Class then
    let r := readWord h fyle -- name_index
    .ok (.obj (.constant_class_info r.1), r.2)
  else if tag = CONSTANT_Fieldref then
    .ok (.null, (readWord h (readWord h fyle).2).2)
  else if tag = CONSTANT_Methodref then
    .ok (.null, (readWord h (readWord h fyle).2).2)
  else if tag = CONSTANT_InterfaceMethodref then
    .ok (.null, (readWord h (readWord h fyle).2).2)
  else if tag = CONSTANT_String then
    .ok (.null, (readWord h fyle).2)
  else if tag = CONSTANT_Integer then
    .ok (.null, (readLong h fyle).2)
  else if tag = CONSTANT_Float then
    .ok (.null, (readLong h fyle).2)
  else if tag = CONSTANT_Long then
    .ok (.LONG_TAG, (readLong h (readLong h fyle).2).2)
  else if tag = CONSTANT_Double then
    .ok (.LONG_TAG, (readLong h (readLong h fyle).2).2)
  else if tag = CONSTANT_NameAndType then
    .ok (.null, (readWord h (readWord h fyle).2).2)
  else if tag = CONSTANT_Utf8 then
    let l := readWord h fyle -- length
    let r := readByteArray l.2 l.1
    .ok (.obj (.constant_utf8_info r.1), r.2)
  else
    .error (.invalidConstantTag tag filename)

/-- Assignment `a[i] = v` to an allocated array. -/
def store {α : Type} (a : List α) (i : Nat) (v : α) : Except Fault (List α) :=
  if i < a.length then .ok (a.set i v) else .error .outOfBounds

/-- The loop of `readConstantPool` from slot `i` on.  The first argument bounds the
number of rounds; `count` rounds are never exceeded, as `i` starts at 1 and grows. -/
def readConstantPoolLoop (h : Host) (filename : CStr) (count : Nat) :
    Nat → Nat → FILE → List (Option cp_info) → Except Fault (List (Option cp_info) × FILE)
  | 0, i, fyle, result => if i < count then .error .outOfFuel else .ok (result, fyle)
  | k + 1, i, fyle, result =>
    if i < count then do
      let r ← readConstantPoolInfo h fyle filename
      match r.1 with
      | .LONG_TAG =>
        let result ← store result i none
        let result ← store result (i + 1) none
        readConstantPoolLoop h filename count k (i + 2) r.2 result
      | .null =>
        let result ← store result i none
        readConstantPoolLoop h filename count k (i + 1) r.2 result
      | .obj cp =>
        let result ← store result i (some cp)
        readConstantPoolLoop h filename count k (i + 1) r.2 result
    else .ok (result, fyle)

/-- Reads the constant pool: an array of `count` slots.  The slots of the fresh array
have no defined content; each of them is assigned before the function returns. -/
def readConstantPool (h : Host) (fyle : FILE) (filename : CStr) (count : Nat) :
    Except Fault (List (Option cp_info) × FILE) := do
  let result : List (Option cp_info) := List.replicate count none
  let result ← store result 0 none
  readConstantPoolLoop h filename count count 1 fyle result

/-- Reads one attribute and puts it in front of the chain `atts`.  The length, a
`long`, is passed on as an `int`: the conversion keeps the low 32 bits, and the buffer
of `length + 1` bytes exists when `length + 1` is an `int` and `length` is not
negative. -/
def readAttributeInfo (h : Host) (fyle : FILE) (atts : List attribute_info) :
    Except Fault (List attribute_info × FILE) :=
  let n := readWord h fyle -- attribute_name_index
  let l := readLong h n.2 -- attribute_length
  let length := l.1 % 2 ^ 32
  if length + 1 < 2 ^ 31 then
    let r := readByteArray l.2 length
    .ok ({ attribute_name_index := n.1, attribute_length := l.1, info := r.1 } :: atts, r.2)
  else .error .outOfBounds

/-- Reads `count` attributes. -/
def readAttributes (h : Host) :
    FILE → Nat → List attribute_info → Except Fault (List attribute_info × FILE)
  | fyle, 0, atts => .ok (atts, fyle)
  | fyle, n + 1, atts => do
    let r ← readAttributeInfo h fyle atts
    readAttributes h r.2 n r.1

/-- Reads one field: three words that are dropped, then its attributes. -/
def readFieldInfo (h : Host) (fyle : FILE) (atts : List attribute_info) :
    Except Fault (List attribute_info × FILE) :=
  let fyle := (readWord h fyle).2 -- access_flags
  let fyle := (readWord h fyle).2 -- name_index
  let fyle := (readWord h fyle).2 -- descriptor_index
  let c := readWord h fyle -- attributes_count
  readAttributes h c.2 c.1 atts

/-- Reads `count` fields. -/
def readFields (h : Host) :
    FILE → Nat → List attribute_info → Except Fault (List attribute_info × FILE)
  | fyle, 0, atts => .ok (atts, fyle)
  | fyle, n + 1, atts => do
    let r ← readFieldInfo h fyle atts
    readFields h r.2 n r.1

/-- Reads one method: three words that are dropped, then its attributes. -/
def readMethodInfo (h : Host) (fyle : FILE) (atts : List attribute_info) :
    Except Fault (List attribute_info × FILE) :=
  let fyle := (readWord h fyle).2 -- access_flags
  let fyle := (readWord h fyle).2 -- name_index
  let fyle := (readWord h fyle).2 -- descriptor_index
  let c := readWord h fyle -- attributes_count
  readAttributes h c.2 c.1 atts

/-- Reads `count` methods. -/
def readMethods (h : Host) :
    FILE → Nat → List attribute_info → Except Fault (List attribute_info × FILE)
  | fyle, 0, atts => .ok (atts, fyle)
  | fyle, n + 1, atts => do
    let r ← readMethodInfo h fyle atts
    readMethods h r.2 n r.1

/-- Reads a whole class file. -/
def readClassFile (h : Host) (fyle : FILE) (filename : CStr) : Except Fault classFile := do
  let fyle := (readLong h fyle).2 -- magic
  let fyle := (readWord h fyle).2 -- minor_version
  let fyle := (readWord h fyle).2 -- major_version
  let c := readWord h fyle -- constant_pool_count
  let p ← readConstantPool h c.2 filename c.1
  let fyle := (readWord h p.2).2 -- access_flags
  let fyle := (readWord h fyle).2 -- this_class
  let fyle := (readWord h fyle).2 -- super_class
  let ic := readWord h fyle -- interfaces_count
  let fyle := skipWordArray h ic.2 ic.1
  let fc := readWord h fyle -- fields_count
  let a ← readFields h fc.2 fc.1 []
  let mc := readWord h a.2 -- methods_count
  let a ← readMethods h mc.2 mc.1 a.1
  let ac := readWord h a.2 -- attributes_count
  let a ← readAttributes h ac.2 ac.1 a.1
  pure { constant_pool_count := c.1, constant_pool := p.1, attributes := a.1 }

/-! ## Dependencies of a class -/

/-- What a run of the program is given: the machine, the rule lists, and the class
files below `ClassRoot`, each under the name `findDeps` is called with (the file of
`name` is `ClassRoot ++ name ++ ".class"`; names are taken to fit the path buffer). -/
structure Env where
  host : Host
  /-- The indeterminate bytes that the reads of a class file find, by the name of the
  class. -/
  junk : CStr → Junk
  classFiles : List (CStr × List Nat)
  globals : Globals
  /-- The global `ClassRoot`; it is the empty string unless option `-c` sets it. -/
  ClassRoot : CStr := []

/-- The file name that `findDeps` builds in its buffer of 1000 characters:
`snprintf(infilename, sizeof(infilename), "%s%s.class", ClassRoot, name)`. -/
def infilename (ClassRoot name : CStr) : CStr :=
  (ClassRoot ++ name ++ bytesOf ".class").take 999

/-- Opens the class file of `name`; `none` when there is no such file. -/
def fopen (env : Env) (name : CStr) : Option FILE :=
  (env.classFiles.lookup name).map (fun d => { data := d, junk := env.junk name })

/-- Dependencies of class `name`, added to `deps`.  The first argument bounds the depth
of the recursion through nested classes. -/
def findDeps (env : Env) : Nat → CStr → List CStr → Except Fault (List CStr)
  | 0, name, _ =>
    match fopen env name with
    | some _ => .error .outOfFuel
    | none => .error (.classNotFound name)
  | fuel + 1, name, deps =>
    match fopen env name with
    | some infyle => do
      let cf ← readClassFile env.host infyle (infilename env.ClassRoot name)
      findDepsInFile (findDeps env fuel) env.globals name cf deps
    | none => .error (.classNotFound name)

/-! ## Notions used in the statements -/

/-- Rules whose recorded length is the length of their name, as `buildPackageInfo`
makes them. -/
def RulesOk (ps : List PackageInfo) : Prop := ∀ p ∈ ps, p.nameLength = p.name.length

/-- A property of dependency lists that every insertion of the scan keeps: the
insertion of a name the filter accepts, and the insertion of the part in front of the
first `$` of such a name. -/
structure Kept (g : Globals) (P : List CStr → Prop) : Prop where
  whole : ∀ name deps, isIncludedClass g name = true → P deps → P (addDep name deps)
  outer : ∀ name dollar deps, isIncludedClass g name = true →
    index name '$'.toNat = some dollar → P deps → P (addDep (name.take dollar) deps)

/-- Name that slot `i` stands for when it is tagged `Class`: the text of the string
slot its name index points to.  Other slots stand for no name. -/
def resolvedClassName (cf : classFile) (i : Nat) : Option CStr :=
  match cf.constant_pool[i]? with
  | some (some (.constant_class_info name_index)) =>
    match cf.constant_pool[name_index]? with
    | some (some (.constant_utf8_info str)) => some (cstr str)
    | _ => none
  | _ => none

/-- Resolved names of the slots tagged `Class`, by increasing slot index. -/
def classSlotNames (cf : classFile) : List CStr :=
  (List.range cf.constant_pool_count).filterMap (resolvedClassName cf)

/-- A name that the pool scan lets through: it does not begin with `[` and the package
filter accepts it. -/
def passesScan (g : Globals) (name : CStr) : Bool :=
  decide (name.head? ≠ some '['.toNat) && isIncludedClass g name

/-- Part of a class name in front of its first `$`: the name of the enclosing class. -/
def outerName (name : CStr) : CStr := name.takeWhile (fun b => b != '$'.toNat)

/-- What the scan does with a type reference: the class name that the pool index
resolves to is added to the list when the package filter accepts it. -/
def offer (g : Globals) (cf : classFile) (deps : List CStr) (idx : Nat) : List CStr :=
  match getClassName cf idx with
  | .ok (some name) => if isIncludedClass g name then addDep name deps else deps
  | _ => deps

/-- Number of class files whose name is not in the list. -/
def unvisited (env : Env) (deps : List CStr) : Nat :=
  (env.classFiles.filter (fun e => decide (e.1 ∉ deps))).length

/-! ## The class file format, as an encoder

The layout of a class record as the parser expects it: what a compiler writes.  The
encoder is used to state what the parser does on well-formed input. -/

/-- Two bytes of a 16-bit number, most significant first. -/
def word16 (v : Nat) : List Nat := [v / 256 % 256, v % 256]

/-- Four bytes of a 32-bit number, most significant first. -/
def long32 (v : Nat) : List Nat :=
  [v / 2 ^ 24 % 256, v / 2 ^ 16 % 256, v / 2 ^ 8 % 256, v % 256]

/-- A constant pool entry of a class file. -/
inductive CpEntry where
  | Class (name_index : Nat)
  | Fieldref (class_index name_and_type_index : Nat)
  | Methodref (class_index name_and_type_index : Nat)
  | InterfaceMethodref (class_index name_and_type_index : Nat)
  | String (string_index : Nat)
  | Integer (bytes : Nat)
  | Float (bytes : Nat)
  | Long (high_bytes low_bytes : Nat)
  | Double (high_bytes low_bytes : Nat)
  | NameAndType (name_index descriptor_index : Nat)
  | Utf8 (text : List Nat)
  deriving DecidableEq, Repr

/-- Bytes of an entry: the tag and the payload of the tag. -/
def CpEntry.encode : CpEntry → List Nat
  | .Class n => CONSTANT_Class :: word16 n
  | .Fieldref c n => CONSTANT_Fieldref :: (word16 c ++ word16 n)
  | .Methodref c n => CONSTANT_Methodref :: (word16 c ++ word16 n)
  | .InterfaceMethodref c n => CONSTANT_InterfaceMethodref :: (word16 c ++ word16 n)
  | .String s => CONSTANT_String :: word16 s
  | .Integer b => CONSTANT_Integer :: long32 b
  | .Float b => CONSTANT_Float :: long32 b
  | .Long hi lo => CONSTANT_Long :: (long32 hi ++ long32 lo)
  | .Double hi lo => CONSTANT_Double :: (long32 hi ++ long32 lo)
  | .NameAndType n d => CONSTANT_NameAndType :: (word16 n ++ word16 d)
  | .Utf8 text => CONSTANT_Utf8 :: (word16 text.length ++ text)

/-- Number of pool slots an entry takes: two for `Long` and `Double`. -/
def CpEntry.slots : CpEntry → Nat
  | .Long _ _ => 2
  | .Double _ _ => 2
  | _ => 1

/-- The entries that take two slots: `Long` and `Double`. -/
def CpEntry.isWide : CpEntry → Bool
  | .Long _ _ => true
  | .Double _ _ => true
  | _ => false

/-- An entry whose numbers fit their fields. -/
def CpEntry.WellFormed : CpEntry → Prop
  | .Class n => n < 2 ^ 16
  | .Utf8 text => text.length < 2 ^ 16
  | _ => True

/-- What the parser is to keep in the slot of an entry: a class reference with its
index, a string with its text and a terminator, nothing for the other kinds. -/
def CpEntry.kept : CpEntry → Option cp_info
  | .Class n => some (.constant_class_info n)
  | .Utf8 text => some (.constant_utf8_info (text ++ [0]))
  | _ => none

/-- Pointer that the parser is to return for an entry. -/
def CpEntry.pointer : CpEntry → CpPtr
  | .Class n => .obj (.constant_class_info n)
  | .Utf8 text => .obj (.constant_utf8_info (text ++ [0]))
  | .Long _ _ => .LONG_TAG
  | .Double _ _ => .LONG_TAG
  | _ => .null

/-- Bytes of a list of entries. -/
def encodePool : List CpEntry → List Nat
  | [] => []
  | e :: es => e.encode ++ encodePool es

/-- Number of slots a list of entries takes. -/
def poolSlots : List CpEntry → Nat
  | [] => 0
  | e :: es => e.slots + poolSlots es

/-- Slots of the pool array from slot 1 on, for a list of entries: an entry fills one
slot, and a `Long` or `Double` is followed by an empty slot. -/
def poolLayout : List CpEntry → List (Option cp_info)
  | [] => []
  | e :: es => e.kept :: ((if e.isWide then [none] else []) ++ poolLayout es)

/-- Slot index of entry number `k`: one, plus the number of entries in front of it,
plus the number of `Long` and `Double` entries in front of it. -/
def slotIndex (es : List CpEntry) (k : Nat) : Nat :=
  1 + k + (es.take k).countP CpEntry.isWide

/-- An attribute of a class file: the index of its name and its payload. -/
structure AttributeSpec where
  name_index : Nat
  payload : List Nat
  deriving DecidableEq, Repr

/-- Bytes of an attribute: name index, length, payload. -/
def AttributeSpec.encode (a : AttributeSpec) : List Nat :=
  word16 a.name_index ++ long32 a.payload.length ++ a.payload

/-- Bytes of a list of attributes, in front of it their number. -/
def encodeAttributes (as : List AttributeSpec) : List Nat :=
  word16 as.length ++ (as.map AttributeSpec.encode).flatten

/-- A field or a method of a class file. -/
structure MemberSpec where
  access_flags : Nat
  name_index : Nat
  descriptor_index : Nat
  attributes : List AttributeSpec
  deriving DecidableEq, Repr

/-- Bytes of a field or method. -/
def MemberSpec.encode (m : MemberSpec) : List Nat :=
  word16 m.access_flags ++ word16 m.name_index ++ word16 m.descriptor_index ++
    encodeAttributes m.attributes

/-- Bytes of a list of fields or methods, in front of it their number. -/
def encodeMembers (ms : List MemberSpec) : List Nat :=
  word16 ms.length ++ (ms.map MemberSpec.encode).flatten

/-- A class file. -/
structure ClassSpec where
  magic : Nat
  minor_version : Nat
  major_version : Nat
  pool : List CpEntry
  access_flags : Nat
  this_class : Nat
  super_class : Nat
  interfaces : List Nat
  fields : List MemberSpec
  methods : List MemberSpec
  attributes : List AttributeSpec
  deriving DecidableEq, Repr

/-- Bytes of a class file. -/
def ClassSpec.encode (c : ClassSpec) : List Nat :=
  long32 c.magic ++ word16 c.minor_version ++ word16 c.major_version ++
    word16 (1 + poolSlots c.pool) ++ encodePool c.pool ++
    word16 c.access_flags ++ word16 c.this_class ++ word16 c.super_class ++
    word16 c.interfaces.length ++ (c.interfaces.map word16).flatten ++
    encodeMembers c.fields ++ encodeMembers c.methods ++ encodeAttributes c.attributes

/-! ## The annotation format, as an encoder -/

mutual
/-- An element value of an annotation. -/
inductive ElementValue where
  /-- A value with one constant index: tags `B C D F I J S Z`, `s` and `c`. -/
  | const (tag : Nat) (const_value_index : Nat)
  /-- An enum constant, tag `e`. -/
  | enum (type_name_index const_name_index : Nat)
  /-- A nested annotation, tag `@`. -/
  | nested (a : Annot)
  /-- An array of values, tag `[`. -/
  | array (values : ValueList)
/-- An annotation: the index of its type and its element-value pairs. -/
inductive Annot where
  | mk (type_index : Nat) (pairs : PairList)
/-- The element-value pairs of an annotation. -/
inductive PairList where
  | nil
  | cons (element_name_index : Nat) (value : ElementValue) (rest : PairList)
/-- The values of an array. -/
inductive ValueList where
  | nil
  | cons (value : ElementValue) (rest : ValueList)
end

mutual
/-- Bytes of an element value. -/
def ElementValue.encode : ElementValue → List Nat
  | .const tag i => tag :: word16 i
  | .enum t c => 'e'.toNat :: (word16 t ++ word16 c)
  | .nested a => '@'.toNat :: a.encode
  | .array vs => '['.toNat :: (word16 vs.length ++ vs.encode)
/-- Bytes of an annotation. -/
def Annot.encode : Annot → List Nat
  | .mk t ps => word16 t ++ (word16 ps.length ++ ps.encode)
/-- Bytes of the pairs of an annotation. -/
def PairList.encode : PairList → List Nat
  | .nil => []
  | .cons k v rest => word16 k ++ (v.encode ++ rest.encode)
/-- Number of pairs. -/
def PairList.length : PairList → Nat
  | .nil => 0
  | .cons _ _ rest => rest.length + 1
/-- Bytes of the values of an array. -/
def ValueList.encode : ValueList → List Nat
  | .nil => []
  | .cons v rest => v.encode ++ rest.encode
/-- Number of values. -/
def ValueList.length : ValueList → Nat
  | .nil => 0
  | .cons _ rest => rest.length + 1
end

mutual
/-- Pool indices of the types an element value refers to, in the order of the bytes:
the type of every annotation and of every enum constant in it. -/
def ElementValue.typeRefs : ElementValue → List Nat
  | .const _ _ => []
  | .enum t _ => [t]
  | .nested a => a.typeRefs
  | .array vs => vs.typeRefs
/-- Pool indices of the types an annotation refers to: its own type first. -/
def Annot.typeRefs : Annot → List Nat
  | .mk t ps => t :: ps.typeRefs
/-- Pool indices of the types the pairs of an annotation refer to. -/
def PairList.typeRefs : PairList → List Nat
  | .nil => []
  | .cons _ v rest => v.typeRefs ++ rest.typeRefs
/-- Pool indices of the types the values of an array refer to. -/
def ValueList.typeRefs : ValueList → List Nat
  | .nil => []
  | .cons v rest => v.typeRefs ++ rest.typeRefs
end

mutual
/-- An element value whose numbers fit their fields and whose tag is known. -/
def ElementValue.WellFormed : ElementValue → Prop
  | .const tag i => (isConstTag tag = true ∨ tag = 's'.toNat ∨ tag = 'c'.toNat) ∧ i < 2 ^ 16
  | .enum t c => t < 2 ^ 16 ∧ c < 2 ^ 16
  | .nested a => a.WellFormed
  | .array vs => vs.length < 2 ^ 16 ∧ vs.WellFormed
/-- An annotation whose numbers fit their fields. -/
def Annot.WellFormed : Annot → Prop
  | .mk t ps => t < 2 ^ 16 ∧ ps.length < 2 ^ 16 ∧ ps.WellFormed
/-- Pairs whose numbers fit their fields. -/
def PairList.WellFormed : PairList → Prop
  | .nil => True
  | .cons k v rest => k < 2 ^ 16 ∧ v.WellFormed ∧ rest.WellFormed
/-- Values whose numbers fit their fields. -/
def ValueList.WellFormed : ValueList → Prop
  | .nil => True
  | .cons v rest => v.WellFormed ∧ rest.WellFormed
end

/-- Payload of a `RuntimeVisibleAnnotations` attribute: the number of annotations and
the annotations. -/
def encodeAnnotations (as : List Annot) : List Nat :=
  word16 as.length ++ (as.map Annot.encode).flatten

/-! ## The extraction with a record of its runs

The functions below are the pool scan and `findDeps` once more, with a second list that
is handed through: the names `findDeps` was run on, in the order of the runs.  They are
used to state how often a class is extracted. -/

/-- The dependency list together with the record of the runs of `findDeps`. -/
abbrev Logged := List CStr × List CStr

/-- The body of the pool loop, with the record handed through. -/
def scanPoolSlotLogged (findDeps : CStr → Logged → Except Fault Logged) (g : Globals)
    (target : CStr) (cf : classFile) (i : Nat) (st : Logged) : Except Fault Logged := do
  let cp ← poolAt cf i
  match cp with
  | some (.constant_class_info _) =>
    let name ← getClassName cf i
    let name ← deref name
    if isIncludedClass g name then
      if name.head? ≠ some '['.toNat then
        match index name '$'.toNat with
        | some dollar =>
          if strncmpEq name target dollar then
            let deps := addDep name st.1
            if st.1.length ≠ deps.length then findDeps name (deps, st.2)
            else pure (deps, st.2)
          else
            pure (addDep (name.take dollar) st.1, st.2)
        | none => pure (addDep name st.1, st.2)
      else pure st
    else pure st
  | _ => pure st

/-- The pool loop, with the record handed through. -/
def scanPoolLogged (findDeps : CStr → Logged → Except Fault Logged) (g : Globals)
    (target : CStr) (cf : classFile) : Nat → Nat → Logged → Except Fault Logged
  | 0, _, st => .ok st
  | n + 1, i, st => do
    let st ← scanPoolSlotLogged findDeps g target cf i st
    scanPoolLogged findDeps g target cf n (i + 1) st

/-- Dependencies of a parsed class, with the record handed through. -/
def findDepsInFileLogged (findDeps : CStr → Logged → Except Fault Logged) (g : Globals)
    (target : CStr) (cf : classFile) (st : Logged) : Except Fault Logged := do
  let st ← scanPoolLogged findDeps g target cf cf.constant_pool_count 0 st
  let deps ← scanAttributes g cf cf.attributes st.1
  pure (deps, st.2)

/-- Dependencies of class `name`; each run that gets as far as its class file puts
`name` at the end of the record. -/
def findDepsLogged (env : Env) : Nat → CStr → Logged → Except Fault Logged
  | 0, name, _ =>
    match fopen env name with
    | some _ => .error .outOfFuel
    | none => .error (.classNotFound name)
  | fuel + 1, name, st =>
    match fopen env name with
    | some infyle => do
      let cf ← readClassFile env.host infyle (infilename env.ClassRoot name)
      findDepsInFileLogged (findDepsLogged env fuel) env.globals name cf
        (st.1, st.2 ++ [name])
    | none => .error (.classNotFound name)

/-- One stretch of a recorded extraction, from list `d` and record `l` to list `d'` and
record `l'`: the record grew by names that are pairwise different, were not in `d` and
are in `d'`, and no name left the list. -/
def LogStep (d l d' l' : List CStr) : Prop :=
  ∃ rs, l' = l ++ rs ∧ rs.Nodup ∧ (∀ x ∈ rs, x ∉ d ∧ x ∈ d') ∧ ∀ x ∈ d, x ∈ d'

/-! ## Class files and rule lists used to instantiate the statements -/

/-- Rule lists as `main` builds them with its default: `java`, `javax` and `com.sun`
excluded, nothing included. -/
def defaultGlobals : Globals :=
  excludePackage (bytesOf "com.sun") (excludePackage (bytesOf "javax")
    (excludePackage (bytesOf "java") { ExcludedPackages := [], IncludedPackages := [] }))

/-- Rule lists with `java` excluded and `com.acme` included. -/
def acmeGlobals : Globals :=
  includePackage (bytesOf "com.acme")
    (excludePackage (bytesOf "java") { ExcludedPackages := [], IncludedPackages := [] })

/-- Rule lists with one included package whose name contains a `$`. -/
def dollarGlobals : Globals :=
  includePackage (bytesOf "com.acme$gen") { ExcludedPackages := [], IncludedPackages := [] }

/-- Class file skeleton: no interfaces, fields or methods. -/
def plainClass (pool : List CpEntry) (attributes : List AttributeSpec) : ClassSpec :=
  { magic := 0xCAFEBABE, minor_version := 0, major_version := 49, pool := pool,
    access_flags := 33, this_class := 2, super_class := 0, interfaces := [],
    fields := [], methods := [], attributes := attributes }

/-- Annotation `@Marker(value = @Nested(value = {Kind.A, Kind.B}))` over the pool of
`barClass`. -/
def barAnnot : Annot :=
  .mk 12 (.cons 15 (.nested (.mk 14 (.cons 15
    (.array (.cons (.enum 13 15) (.cons (.enum 13 15) .nil))) .nil))) .nil)

/-- Class `com/foo/Bar`: it refers to itself, to its nested class `Inner`, to
`java/lang/Object`, to a nested class of `org/baz/Other`, to an array class, and has
an annotation. -/
def barClass : ClassSpec :=
  plainClass
    [ .Utf8 (bytesOf "com/foo/Bar"), .Class 1,
      .Utf8 (bytesOf "com/foo/Bar$Inner"), .Class 3,
      .Utf8 (bytesOf "java/lang/Object"), .Class 5,
      .Utf8 (bytesOf "org/baz/Other$Inner"), .Class 7,
      .Long 0 7,
      .Utf8 (bytesOf "RuntimeVisibleAnnotations"),
      .Utf8 (bytesOf "Lcom/foo/Marker;"),
      .Utf8 (bytesOf "Lcom/foo/Kind;"),
      .Utf8 (bytesOf "Lcom/foo/Nested;"),
      .Utf8 (bytesOf "value"),
      .Utf8 (bytesOf "[Lcom/foo/Baz;"), .Class 16 ]
    [ { name_index := 11, payload := encodeAnnotations [barAnnot] } ]

/-- The parsed form of `barClass`. -/
def barCf : classFile :=
  { constant_pool_count := 18,
    constant_pool :=
      [ none,
        some (.constant_utf8_info (bytesOf "com/foo/Bar" ++ [0])),
        some (.constant_class_info 1),
        some (.constant_utf8_info (bytesOf "com/foo/Bar$Inner" ++ [0])),
        some (.constant_class_info 3),
        some (.constant_utf8_info (bytesOf "java/lang/Object" ++ [0])),
        some (.constant_class_info 5),
        some (.constant_utf8_info (bytesOf "org/baz/Other$Inner" ++ [0])),
        some (.constant_class_info 7),
        none,
        none,
        some (.constant_utf8_info (bytesOf "RuntimeVisibleAnnotations" ++ [0])),
        some (.constant_utf8_info (bytesOf "Lcom/foo/Marker;" ++ [0])),
        some (.constant_utf8_info (bytesOf "Lcom/foo/Kind;" ++ [0])),
        some (.constant_utf8_info (bytesOf "Lcom/foo/Nested;" ++ [0])),
        some (.constant_utf8_info (bytesOf "value" ++ [0])),
        some (.constant_utf8_info (bytesOf "[Lcom/foo/Baz;" ++ [0])),
        some (.constant_class_info 16) ],
    attributes :=
      [ { attribute_name_index := 11, attribute_length := (encodeAnnotations [barAnnot]).length,
          info := encodeAnnotations [barAnnot] ++ [0] } ] }

/-- Class `com/foo/Bar$Inner`: it refers to itself, to its sibling `Other` and to
`com/foo/Dep`. -/
def innerClass : ClassSpec :=
  plainClass
    [ .Utf8 (bytesOf "com/foo/Bar$Inner"), .Class 1,
      .Utf8 (bytesOf "com/foo/Bar$Other"), .Class 3,
      .Utf8 (bytesOf "com/foo/Dep"), .Class 5 ]
    []

/-- Class `com/foo/Bar$Other`: it refers to itself, back to its sibling `Inner`, and to
`com/foo/Bar`. -/
def otherClass : ClassSpec :=
  plainClass
    [ .Utf8 (bytesOf "com/foo/Bar$Other"), .Class 1,
      .Utf8 (bytesOf "com/foo/Bar$Inner"), .Class 3,
      .Utf8 (bytesOf "com/foo/Bar"), .Class 5 ]
    []

/-- A run on a little-endian machine with the three class files and the default
rules. -/
def fooEnv : Env :=
  { host := { littleEndian := true, long64 := true }, junk := fun _ => zeros,
    classFiles :=
      [ (bytesOf "com/foo/Bar", barClass.encode),
        (bytesOf "com/foo/Bar$Inner", innerClass.encode),
        (bytesOf "com/foo/Bar$Other", otherClass.encode) ],
    globals := defaultGlobals }

/-- Class `com/foo/Bar$Inner` of the second hierarchy: it refers to its sibling
`com/foo/Bar$Other`. -/
def nestInnerClass : ClassSpec :=
  plainClass [ .Utf8 (bytesOf "com/foo/Bar$Other"), .Class 1 ] []

/-- The parsed form of `nestInnerClass`. -/
def nestInnerCf : classFile :=
  { constant_pool_count := 3,
    constant_pool :=
      [ none,
        some (.constant_utf8_info (bytesOf "com/foo/Bar$Other" ++ [0])),
        some (.constant_class_info 1) ],
    attributes := [] }

/-- Class `com/foo/Bar$Other` of the second hierarchy: it refers to `com/foo/Dep`. -/
def nestOtherClass : ClassSpec :=
  plainClass [ .Utf8 (bytesOf "com/foo/Dep"), .Class 1 ] []

/-- A run with the two class files of the second hierarchy and no rules. -/
def nestEnv : Env :=
  { host := { littleEndian := true, long64 := true }, junk := fun _ => zeros,
    classFiles :=
      [ (bytesOf "com/foo/Bar$Inner", nestInnerClass.encode),
        (bytesOf "com/foo/Bar$Other", nestOtherClass.encode) ],
    globals := { ExcludedPackages := [], IncludedPackages := [] } }

/-- Class `com/foo/User`: it refers to itself and to `com/acme$gen/Widget`. -/
def userClass : ClassSpec :=
  plainClass
    [ .Utf8 (bytesOf "com/foo/User"), .Class 1,
      .Utf8 (bytesOf "com/acme$gen/Widget"), .Class 3 ]
    []

/-- A run with the class file of `com/foo/User` and the rules `dollarGlobals`. -/
def dollarEnv : Env :=
  { host := { littleEndian := true, long64 := true }, junk := fun _ => zeros,
    classFiles := [ (bytesOf "com/foo/User", userClass.encode) ],
    globals := dollarGlobals }

/-- Class `com/acme/App`: it refers to itself, to a nested class of
`com/acme/util/Tool`, to `org/other/Lib` and to `java/util/List`. -/
def appClass : ClassSpec :=
  plainClass
    [ .Utf8 (bytesOf "com/acme/App"), .Class 1,
      .Utf8 (bytesOf "com/acme/util/Tool$Helper"), .Class 3,
      .Utf8 (bytesOf "org/other/Lib"), .Class 5,
      .Utf8 (bytesOf "java/util/List"), .Class 7 ]
    []

/-- A run on a big-endian machine with the class file of `com/acme/App` and the rules
`acmeGlobals`. -/
def acmeEnv : Env :=
  { host := { littleEndian := false, long64 := false }, junk := fun _ => zeros,
    classFiles := [ (bytesOf "com/acme/App", appClass.encode) ],
    globals := acmeGlobals }

/-- Class `com/foo/A`: it refers to itself twice, to an array class and to
`java/lang/Object`, and has one attribute, named `SourceFile`. -/
def plainSpec : ClassSpec :=
  plainClass
    [ .Utf8 (bytesOf "com/foo/A"), .Class 1,
      .Utf8 (bytesOf "[Lcom/foo/B;"), .Class 3,
      .Utf8 (bytesOf "java/lang/Object"), .Class 5,
      .Utf8 (bytesOf "com/foo/C"), .Class 7,
      .Class 1,
      .Utf8 (bytesOf "SourceFile") ]
    [ { name_index := 10, payload := [0, 11] } ]

/-- The parsed form of `plainSpec`. -/
def plainCf : classFile :=
  { constant_pool_count := 11,
    constant_pool :=
      [ none,
        some (.constant_utf8_info (bytesOf "com/foo/A" ++ [0])),
        some (.constant_class_info 1),
        some (.constant_utf8_info (bytesOf "[Lcom/foo/B;" ++ [0])),
        some (.constant_class_info 3),
        some (.constant_utf8_info (bytesOf "java/lang/Object" ++ [0])),
        some (.constant_class_info 5),
        some (.constant_utf8_info (bytesOf "com/foo/C" ++ [0])),
        some (.constant_class_info 7),
        some (.constant_class_info 1),
        some (.constant_utf8_info (bytesOf "SourceFile" ++ [0])) ],
    attributes := [ { attribute_name_index := 10, attribute_length := 2, info := [0, 11, 0] } ] }

/-! ## Notions and class files for the statements about annotations, second part -/

/-- Pool of class `com/foo/Tagged`: the class itself, the attribute name, the type
descriptors of a nested annotation type of another class, of a class literal, of a
nested annotation type of the class itself, and an array class. -/
def taggedPool : List CpEntry :=
  [ .Utf8 (bytesOf "com/foo/Tagged"), .Class 1,
    .Utf8 (bytesOf "RuntimeVisibleAnnotations"),
    .Utf8 (bytesOf "Lorg/baz/Other$Anno;"),
    .Utf8 (bytesOf "Lcom/foo/Lit;"),
    .Utf8 (bytesOf "[Lcom/foo/Baz;"), .Class 6,
    .Utf8 (bytesOf "Lcom/foo/Tagged$Mark;"),
    .Utf8 (bytesOf "value") ]

/-- Class `com/foo/Tagged` with the given annotations. -/
def taggedClass (as : List Annot) : ClassSpec :=
  plainClass taggedPool [ { name_index := 3, payload := encodeAnnotations as } ]

/-- The parsed form of `taggedClass as`. -/
def taggedCf (as : List Annot) : classFile :=
  { constant_pool_count := 10,
    constant_pool :=
      [ none,
        some (.constant_utf8_info (bytesOf "com/foo/Tagged" ++ [0])),
        some (.constant_class_info 1),
        some (.constant_utf8_info (bytesOf "RuntimeVisibleAnnotations" ++ [0])),
        some (.constant_utf8_info (bytesOf "Lorg/baz/Other$Anno;" ++ [0])),
        some (.constant_utf8_info (bytesOf "Lcom/foo/Lit;" ++ [0])),
        some (.constant_utf8_info (bytesOf "[Lcom/foo/Baz;" ++ [0])),
        some (.constant_class_info 6),
        some (.constant_utf8_info (bytesOf "Lcom/foo/Tagged$Mark;" ++ [0])),
        some (.constant_utf8_info (bytesOf "value" ++ [0])) ],
    attributes :=
      [ { attribute_name_index := 3, attribute_length := (encodeAnnotations as).length,
          info := encodeAnnotations as ++ [0] } ] }

/-- A run with the class file of `com/foo/Tagged` alone and the default rules. -/
def taggedEnv (as : List Annot) : Env :=
  { host := { littleEndian := true, long64 := true }, junk := fun _ => zeros,
    classFiles := [ (bytesOf "com/foo/Tagged", (taggedClass as).encode) ],
    globals := defaultGlobals }

/-- Annotation `@Other.Anno(value = Lit.class)`: its type is a nested class of another
class, its one element is a class literal. -/
def litAnnot : Annot := .mk 4 (.cons 9 (.const 'c'.toNat 5) .nil)

/-- Annotations `@Other.Anno` and `@Tagged.Mark`: the type of the first is a nested
class of another class, the type of the second a nested class of the target. -/
def nestedAnnots : List Annot := [ .mk 4 .nil, .mk 8 .nil ]

/-- The element-value tags that `scanElementValue` knows: `B C D F I J S Z s c e @ [`. -/
def knownTags : List Nat :=
  ['B'.toNat, 'C'.toNat, 'D'.toNat, 'F'.toNat, 'I'.toNat, 'J'.toNat, 'S'.toNat, 'Z'.toNat,
    's'.toNat, 'c'.toNat, 'e'.toNat, '@'.toNat, '['.toNat]

/-! ## Notions for the statements about reading -/

/-- The constant pool tags that `readConstantPoolInfo` knows. -/
def validTags : List Nat := [1, 3, 4, 5, 6, 7, 8, 9, 10, 11, 12]

/-- Number of bytes that follow the tag of an entry: 2 for `Class` and `String`, 4 for
the three kinds of reference, `NameAndType`, `Integer` and `Float`, 8 for `Long` and
`Double`, 2 and the length of the text for `Utf8`. -/
def CpEntry.payloadSize : CpEntry → Nat
  | .Class _ => 2
  | .String _ => 2
  | .Fieldref _ _ => 4
  | .Methodref _ _ => 4
  | .InterfaceMethodref _ _ => 4
  | .NameAndType _ _ => 4
  | .Integer _ => 4
  | .Float _ => 4
  | .Long _ _ => 8
  | .Double _ _ => 8
  | .Utf8 text => 2 + text.length

/-- The tag byte of an entry. -/
def CpEntry.tag : CpEntry → Nat
  | .Class _ => CONSTANT_Class
  | .String _ => CONSTANT_String
  | .Fieldref _ _ => CONSTANT_Fieldref
  | .Methodref _ _ => CONSTANT_Methodref
  | .InterfaceMethodref _ _ => CONSTANT_InterfaceMethodref
  | .NameAndType _ _ => CONSTANT_NameAndType
  | .Integer _ => CONSTANT_Integer
  | .Float _ => CONSTANT_Float
  | .Long _ _ => CONSTANT_Long
  | .Double _ _ => CONSTANT_Double
  | .Utf8 _ => CONSTANT_Utf8

/-- The first ten bytes of a class file: magic number, minor and major version, and the
number of pool slots. -/
def classHeader (magic minor major count : Nat) : List Nat :=
  long32 magic ++ word16 minor ++ word16 major ++ word16 count

/-! ## Notions for the statements about package rules -/

/-- A package name with every `.` replaced by `/`. -/
def slashed (p : CStr) : CStr := p.map (fun c => if c = '.'.toNat then '/'.toNat else c)


/-- The rule string for package name `p`: every `.` replaced by `/`, and one more `/`
unless the last character of `p` is a `.`. -/
def ruleOf (p : CStr) : CStr :=
  slashed p ++ (if p.getLast? = some '.'.toNat then [] else ['/'.toNat])

/-! ## Notions and class files for the statements about whole class files -/

/-- The record that the parser is to build for an attribute: the name index, the
declared length, and the payload with a terminator. -/
def AttributeSpec.parsed (a : AttributeSpec) : attribute_info :=
  { attribute_name_index := a.name_index, attribute_length := a.payload.length,
    info := a.payload ++ [0] }

/-- The attributes of a class file in file order: those of every field, those of every
method, then those of the class. -/
def ClassSpec.allAttributes (c : ClassSpec) : List AttributeSpec :=
  (c.fields.map MemberSpec.attributes).flatten ++
    (c.methods.map MemberSpec.attributes).flatten ++ c.attributes

/-- An attribute whose numbers fit their fields, the length with one added also the
`int` that the size of the buffer is computed in. -/
def AttributeSpec.WellFormed (a : AttributeSpec) : Prop :=
  a.name_index < 2 ^ 16 ∧ a.payload.length + 1 < 2 ^ 31

/-- A field or method whose numbers fit their fields. -/
def MemberSpec.WellFormed (m : MemberSpec) : Prop :=
  m.attributes.length < 2 ^ 16 ∧ ∀ a ∈ m.attributes, a.WellFormed

/-- A class file whose numbers fit their fields. -/
structure ClassSpec.WellFormed (c : ClassSpec) : Prop where
  pool : ∀ e ∈ c.pool, e.WellFormed
  poolCount : 1 + poolSlots c.pool < 2 ^ 16
  interfaces : c.interfaces.length < 2 ^ 16
  fieldCount : c.fields.length < 2 ^ 16
  fields : ∀ m ∈ c.fields, m.WellFormed
  methodCount : c.methods.length < 2 ^ 16
  methods : ∀ m ∈ c.methods, m.WellFormed
  attributeCount : c.attributes.length < 2 ^ 16
  attributes : ∀ a ∈ c.attributes, a.WellFormed

/-- Class `com/foo/Tagged` with the annotation `@Other.Anno` on a field, an annotation
of type `com/foo/Lit` on a method and the annotation `@Tagged.Mark` on the class. -/
def memberClass : ClassSpec :=
  { plainClass taggedPool [ { name_index := 3, payload := encodeAnnotations [ .mk 8 .nil ] } ]
    with
    fields := [ { access_flags := 2, name_index := 9, descriptor_index := 5,
                  attributes :=
                    [ { name_index := 3, payload := encodeAnnotations [ .mk 4 .nil ] } ] } ],
    methods := [ { access_flags := 1, name_index := 9, descriptor_index := 5,
                   attributes :=
                     [ { name_index := 3, payload := encodeAnnotations [ .mk 5 .nil ] } ] } ] }

/-- A run with the class file `memberClass` alone and the default rules. -/
def memberEnv : Env :=
  { host := { littleEndian := true, long64 := true }, junk := fun _ => zeros,
    classFiles := [ (bytesOf "com/foo/Tagged", memberClass.encode) ],
    globals := defaultGlobals }

/-- Class `com/foo/Hollow`, whose `Class` entry at slot 1 has the name index 2, the slot
of an `Integer` entry. -/
def hollowClass : ClassSpec := plainClass [ .Class 2, .Integer 7 ] []

/-- The parsed form of `hollowClass`. -/
def hollowCf : classFile :=
  { constant_pool_count := 3,
    constant_pool := [ none, some (.constant_class_info 2), none ],
    attributes := [] }

/-- A run with the class file `hollowClass` alone and the default rules. -/
def hollowEnv : Env :=
  { host := { littleEndian := true, long64 := true }, junk := fun _ => zeros,
    classFiles := [ (bytesOf "com/foo/Hollow", hollowClass.encode) ],
    globals := defaultGlobals }

/-- A class file with an empty pool and nothing else, of minor version 3. -/
def versionClass : ClassSpec :=
  { magic := 0xCAFEBABE, minor_version := 3, major_version := 49, pool := [],
    access_flags := 33, this_class := 0, super_class := 0, interfaces := [],
    fields := [], methods := [], attributes := [] }

/-! ## Notions for the statements about numbers of 4 bytes -/

/-- Number of bytes of a `longword` that a read of 4 bytes does not reach. -/
def longPad (h : Host) : Nat := sizeofLong h - 4

/-- The indeterminate bytes that are left after `k` reads of a `longword`. -/
def afterLongs (h : Host) (k : Nat) (junk : Junk) : Junk := Junk.drop junk (k * longPad h)

/-- Value of a `longword` that got the number `v` of 4 bytes from the file: where the
object has 8 bytes, the other 4 are the next indeterminate bytes; they are the upper
half on a little-endian machine and the lower half on a big-endian one. -/
def longValue (h : Host) (v : Nat) (junk : Junk) : Nat :=
  if h.long64 then
    if h.littleEndian then v + 2 ^ 32 * bigEndianValue (Junk.take junk 4).reverse
    else v * 2 ^ 32 + bigEndianValue (Junk.take junk 4)
  else v

/-- Number of times `readLong` is called for an entry. -/
def CpEntry.longs : CpEntry → Nat
  | .Integer _ => 1
  | .Float _ => 1
  | .Long _ _ => 2
  | .Double _ _ => 2
  | _ => 0

/-- Number of times `readLong` is called for a list of entries. -/
def poolLongs : List CpEntry → Nat
  | [] => 0
  | e :: es => e.longs + poolLongs es

/-! ## Notions for the statements about names of array classes -/

/-- The record that the parser builds for an attribute on host `h`, `junk` being the
indeterminate bytes at the time: the name index, the payload with a terminator, and as
the length the `longword` that `readLong` makes of the declared length. -/
def AttributeSpec.parsedOn (h : Host) (junk : Junk) (a : AttributeSpec) : attribute_info :=
  { attribute_name_index := a.name_index,
    attribute_length := longValue h a.payload.length junk,
    info := a.payload ++ [0] }

/-- The records that the parser builds for a list of attributes, in file order: every
attribute takes one read of a `longword`. -/
def parsedAttributes (h : Host) : Junk → List AttributeSpec → List attribute_info
  | _, [] => []
  | junk, a :: as => a.parsedOn h junk :: parsedAttributes h (afterLongs h 1 junk) as

/-- What the claim says of a record: the name index and the payload. -/
def attribute_info.content (a : attribute_info) : Nat × List Nat :=
  (a.attribute_name_index, a.info)

/-- A host whose `unsigned long` has 8 bytes and whose byte order is big-endian. -/
def Host.bigLong (h : Host) : Prop := h.long64 = true ∧ h.littleEndian = false

/-! ## Notions and a class file for the statements about short files -/

/-- The ways in which the reading of a class file stops without a class: a fault of the
memory, or the exit on a tag that is no constant pool tag. -/
def ReadFault (filename : CStr) (e : Fault) : Prop :=
  e = .outOfBounds ∨ ∃ t, e = .invalidConstantTag t filename

/-- The class file of `com/foo/Tagged` with the annotation
`@Other.Anno(value = Lit.class)`, without its last 4 bytes: it ends inside the payload
of its attribute, which is declared with 11 bytes. -/
def cutFile : List Nat :=
  (taggedClass [litAnnot]).encode.take ((taggedClass [litAnnot]).encode.length - 4)
set_option maxRecDepth 100000

/-! ## Strings and package rules -/

theorem strncmpEq_length (p name : CStr) :
    strncmpEq name p p.length = true ↔ p <+: name := by
  induction p generalizing name with
  | nil => simp [strncmpEq]
  | cons b bs ih =>
    cases name with
    | nil => simp [strncmpEq]
    | cons a as =>
      simp only [List.length_cons, strncmpEq, Bool.and_eq_true, beq_iff_eq, ih,
        List.cons_prefix_cons]
      constructor
      · rintro ⟨h1, h2⟩; exact ⟨h1.symm, h2⟩
      · rintro ⟨h1, h2⟩; exact ⟨h1.symm, h2⟩

theorem matchPackage_iff (name : CStr) (ps : List PackageInfo) (h : RulesOk ps) :
    matchPackage name ps = true ↔ ∃ p ∈ ps, p.name <+: name := by
  induction ps with
  | nil => simp [matchPackage]
  | cons p ps ih =>
    have hp : p.nameLength = p.name.length := h p (List.mem_cons_self _ _)
    have ih2 := ih (fun q hq => h q (List.mem_cons_of_mem _ hq))
    simp only [matchPackage, hp, List.mem_cons, exists_eq_or_imp]
    by_cases hc : strncmpEq name p.name p.name.length = true
    · simp [hc, (strncmpEq_length _ _).1 hc]
    · have : ¬ p.name <+: name := fun hh => hc ((strncmpEq_length _ _).2 hh)
      simp [hc, this, ih2]

theorem rulesOk_buildPackageInfo (name : CStr) (next : List PackageInfo)
    (h : RulesOk next) : RulesOk (buildPackageInfo name next) := by
  intro p hp
  simp only [buildPackageInfo, List.mem_cons] at hp
  rcases hp with rfl | hp
  · rfl
  · exact h p hp

/-- C7: `matchPackage` is the test "some rule of the list is a literal string prefix
of the name"; `isIncludedClass` is false when an excluded rule is a prefix of the name,
otherwise true when the included list is empty, otherwise true exactly when an included
rule is a prefix of the name. -/
theorem isIncludedClass_spec (g : Globals) (name : CStr)
    (hex : RulesOk g.ExcludedPackages) (hin : RulesOk g.IncludedPackages) :
    (matchPackage name g.ExcludedPackages = true ↔
        ∃ p ∈ g.ExcludedPackages, p.name <+: name) ∧
    (matchPackage name g.IncludedPackages = true ↔
        ∃ p ∈ g.IncludedPackages, p.name <+: name) ∧
    ((∃ p ∈ g.ExcludedPackages, p.name <+: name) → isIncludedClass g name = false) ∧
    ((¬ ∃ p ∈ g.ExcludedPackages, p.name <+: name) → g.IncludedPackages = [] →
        isIncludedClass g name = true) ∧
    ((¬ ∃ p ∈ g.ExcludedPackages, p.name <+: name) → g.IncludedPackages ≠ [] →
        (isIncludedClass g name = true ↔ ∃ p ∈ g.IncludedPackages, p.name <+: name)) := by
  have hE := matchPackage_iff name g.ExcludedPackages hex
  have hI := matchPackage_iff name g.IncludedPackages hin
  refine ⟨hE, hI, ?_, ?_, ?_⟩
  · intro h
    simp [isIncludedClass, hE.2 h]
  · intro h hnil
    have : matchPackage name g.ExcludedPackages = false := by
      cases hm : matchPackage name g.ExcludedPackages
      · rfl
      · exact absurd (hE.1 hm) h
    simp [isIncludedClass, this, hnil]
  · intro h hne
    have : matchPackage name g.ExcludedPackages = false := by
      cases hm : matchPackage name g.ExcludedPackages
      · rfl
      · exact absurd (hE.1 hm) h
    have hemp : g.IncludedPackages.isEmpty = false := by
      cases hl : g.IncludedPackages with
      | nil => exact absurd hl hne
      | cons a l => rfl
    simp only [isIncludedClass, this, hemp]
    simpa using hI

theorem isIncludedClass_spec_witness :
    RulesOk acmeGlobals.ExcludedPackages ∧ RulesOk acmeGlobals.IncludedPackages ∧
    isIncludedClass acmeGlobals (bytesOf "java/util/List") = false ∧
    isIncludedClass acmeGlobals (bytesOf "com/acme/Foo") = true ∧
    isIncludedClass acmeGlobals (bytesOf "org/other/Foo") = false := by
  have hex : RulesOk acmeGlobals.ExcludedPackages :=
    rulesOk_buildPackageInfo _ _ (fun _ h => absurd h (List.not_mem_nil _))
  have hin : RulesOk acmeGlobals.IncludedPackages :=
    rulesOk_buildPackageInfo _ _ (fun _ h => absurd h (List.not_mem_nil _))
  have h1 := isIncludedClass_spec acmeGlobals (bytesOf "java/util/List") hex hin
  exact ⟨hex, hin, h1.2.2.1 ((h1.1).1 (by decide)), by decide, by decide⟩

/-! ## Sequencing of fallible steps -/

theorem bind_ok_iff {α β : Type} {x : Except Fault α} {f : α → Except Fault β} {b : β} :
    (x >>= f) = .ok b ↔ ∃ a, x = .ok a ∧ f a = .ok b := by
  cases x <;> simp [bind, Except.bind]

theorem pure_ok_iff {α : Type} {a b : α} : (pure a : Except Fault α) = .ok b ↔ a = b := by
  simp [pure, Except.pure]

theorem deref_ok_iff {α : Type} {o : Option α} {a : α} : deref o = .ok a ↔ o = some a := by
  cases o <;> simp [deref]

/-! ## Properties that every insertion keeps -/

theorem scanPairs_kept {P : List CStr → Prop}
    {sev : List Nat → List CStr → Except Fault ScanState}
    (hsev : ∀ b d s, sev b d = .ok s → P d → P s.2) :
    ∀ n b d s, scanPairs sev n b d = .ok s → P d → P s.2 := by
  intro n
  induction n with
  | zero =>
    intro b d s h hd
    simp only [scanPairs, Except.ok.injEq] at h
    subst h; exact hd
  | succ n ih =>
    intro b d s h hd
    simp only [scanPairs, bind_ok_iff] at h
    obtain ⟨r, -, s1, hs1, h⟩ := h
    exact ih _ _ _ h (hsev _ _ _ hs1 hd)

theorem scanValues_kept {P : List CStr → Prop}
    {sev : List Nat → List CStr → Except Fault ScanState}
    (hsev : ∀ b d s, sev b d = .ok s → P d → P s.2) :
    ∀ n b d s, scanValues sev n b d = .ok s → P d → P s.2 := by
  intro n
  induction n with
  | zero =>
    intro b d s h hd
    simp only [scanValues, Except.ok.injEq] at h
    subst h; exact hd
  | succ n ih =>
    intro b d s h hd
    simp only [scanValues, bind_ok_iff] at h
    obtain ⟨s1, hs1, h⟩ := h
    exact ih _ _ _ h (hsev _ _ _ hs1 hd)

theorem scanAnnotation_kept {g : Globals} {P : List CStr → Prop} (hP : Kept g P)
    {sev : List Nat → List CStr → Except Fault ScanState}
    (hsev : ∀ b d s, sev b d = .ok s → P d → P s.2) (cf : classFile) :
    ∀ b d s, scanAnnotation sev g cf b d = .ok s → P d → P s.2 := by
  intro b d s h hd
  simp only [ scanAnnotation, bind_ok_iff] at h
  obtain ⟨t, -, name?, -, name, -, n, -, h⟩ := h
  refine scanPairs_kept hsev _ _ _ _ h ?_
  by_cases hi : isIncludedClass g name = true
  · simp only [hi, if_true]; exact hP.whole _ _ hi hd
  · simp only [hi]; exact hd

theorem scanElementValue_kept {g : Globals} {P : List CStr → Prop} (hP : Kept g P)
    (cf : classFile) :
    ∀ fuel b d s, scanElementValue g cf fuel b d = .ok s → P d → P s.2 := by
  intro fuel
  induction fuel with
  | zero => intro b d s h; simp [scanElementValue] at h
  | succ fuel ih =>
    intro b d s h hd
    simp only [scanElementValue, bind_ok_iff] at h
    obtain ⟨t, -, h⟩ := h
    split_ifs at h with h1 h2 h3 h4 h5 h6
    · simp only [bind_ok_iff, pure_ok_iff] at h
      obtain ⟨r, -, rfl⟩ := h; exact hd
    · simp only [bind_ok_iff, pure_ok_iff] at h
      obtain ⟨r, -, rfl⟩ := h; exact hd
    · simp only [bind_ok_iff, pure_ok_iff] at h
      obtain ⟨r, -, rfl⟩ := h; exact hd
    · simp only [bind_ok_iff] at h
      obtain ⟨r, -, name?, -, c, -, name, -, h⟩ := h
      split_ifs at h with hi
      · rw [pure_ok_iff] at h; subst h; exact hP.whole _ _ hi hd
      · rw [pure_ok_iff] at h; subst h; exact hd
    · exact scanAnnotation_kept hP ih cf _ _ _ h hd
    · simp only [bind_ok_iff] at h
      obtain ⟨r, -, h⟩ := h
      exact scanValues_kept ih _ _ _ _ h hd
    · rw [pure_ok_iff] at h; subst h; exact hd

theorem scanAnnotations_kept {g : Globals} {P : List CStr → Prop} (hP : Kept g P)
    {sev : List Nat → List CStr → Except Fault ScanState}
    (hsev : ∀ b d s, sev b d = .ok s → P d → P s.2) (cf : classFile) :
    ∀ n b d s, scanAnnotations sev g cf n b d = .ok s → P d → P s.2 := by
  intro n
  induction n with
  | zero =>
    intro b d s h hd
    simp only [scanAnnotations, Except.ok.injEq] at h
    subst h; exact hd
  | succ n ih =>
    intro b d s h hd
    simp only [scanAnnotations, bind_ok_iff] at h
    obtain ⟨s1, hs1, h⟩ := h
    exact ih _ _ _ h ( scanAnnotation_kept hP hsev cf _ _ _ hs1 hd)

theorem scanAttribute_kept {g : Globals} {P : List CStr → Prop} (hP : Kept g P)
    (cf : classFile) (att : attribute_info) :
    ∀ d d', scanAttribute g cf att d = .ok d' → P d → P d' := by
  intro d d' h hd
  simp only [scanAttribute, bind_ok_iff] at h
  obtain ⟨name?, -, name, -, h⟩ := h
  split_ifs at h with hn
  · simp only [bind_ok_iff, pure_ok_iff] at h
    obtain ⟨n, -, s, hs, rfl⟩ := h
    exact scanAnnotations_kept hP (scanElementValue_kept hP cf _) cf _ _ _ _ hs hd
  · rw [pure_ok_iff] at h; subst h; exact hd

theorem scanAttributes_kept {g : Globals} {P : List CStr → Prop} (hP : Kept g P)
    (cf : classFile) :
    ∀ atts d d', scanAttributes g cf atts d = .ok d' → P d → P d' := by
  intro atts
  induction atts with
  | nil =>
    intro d d' h hd
    simp only [scanAttributes, Except.ok.injEq] at h
    subst h; exact hd
  | cons att rest ih =>
    intro d d' h hd
    simp only [scanAttributes, bind_ok_iff] at h
    obtain ⟨d1, hd1, h⟩ := h
    exact ih _ _ h (scanAttribute_kept hP cf att _ _ hd1 hd)

theorem scanPoolSlot_kept {g : Globals} {P : List CStr → Prop} (hP : Kept g P)
    {findDeps : CStr → List CStr → Except Fault (List CStr)}
    (hrec : ∀ n d d', findDeps n d = .ok d' → P d → P d')
    (target : CStr) (cf : classFile) (i : Nat) :
    ∀ d d', scanPoolSlot findDeps g target cf i d = .ok d' → P d → P d' := by
  intro d d' h hd
  simp only [scanPoolSlot, bind_ok_iff] at h
  obtain ⟨cp, -, h⟩ := h
  split at h
  · simp only [bind_ok_iff] at h
    obtain ⟨name?, -, name, -, h⟩ := h
    by_cases hi : isIncludedClass g name = true
    · rw [if_pos hi] at h
      by_cases ha : name.head? ≠ some '['.toNat
      · rw [if_pos ha] at h
        cases hx : index name '$'.toNat with
        | none =>
          rw [hx] at h
          simp only [pure_ok_iff] at h
          subst h; exact hP.whole _ _ hi hd
        | some dollar =>
          rw [hx] at h
          simp only at h
          by_cases hs : strncmpEq name target dollar = true
          · rw [if_pos hs] at h
            by_cases hl : d.length ≠ (addDep name d).length
            · rw [if_pos hl] at h
              exact hrec _ _ _ h (hP.whole _ _ hi hd)
            · rw [if_neg hl, pure_ok_iff] at h
              subst h; exact hP.whole _ _ hi hd
          · rw [if_neg hs, pure_ok_iff] at h
            subst h; exact hP.outer _ _ _ hi hx hd
      · rw [if_neg ha, pure_ok_iff] at h
        subst h; exact hd
    · rw [if_neg hi, pure_ok_iff] at h
      subst h; exact hd
  · rw [pure_ok_iff] at h; subst h; exact hd

theorem scanPool_kept {g : Globals} {P : List CStr → Prop} (hP : Kept g P)
    {findDeps : CStr → List CStr → Except Fault (List CStr)}
    (hrec : ∀ n d d', findDeps n d = .ok d' → P d → P d')
    (target : CStr) (cf : classFile) :
    ∀ n i d d', scanPool findDeps g target cf n i d = .ok d' → P d → P d' := by
  intro n
  induction n with
  | zero =>
    intro i d d' h hd
    simp only [scanPool, Except.ok.injEq] at h
    subst h; exact hd
  | succ n ih =>
    intro i d d' h hd
    simp only [scanPool, bind_ok_iff] at h
    obtain ⟨d1, hd1, h⟩ := h
    exact ih _ _ _ h (scanPoolSlot_kept hP hrec target cf i _ _ hd1 hd)

theorem findDepsInFile_kept {g : Globals} {P : List CStr → Prop} (hP : Kept g P)
    {findDeps : CStr → List CStr → Except Fault (List CStr)}
    (hrec : ∀ n d d', findDeps n d = .ok d' → P d → P d')
    (target : CStr) (cf : classFile) :
    ∀ d d', findDepsInFile findDeps g target cf d = .ok d' → P d → P d' := by
  intro d d' h hd
  simp only [findDepsInFile, bind_ok_iff] at h
  obtain ⟨d1, hd1, h⟩ := h
  exact scanAttributes_kept hP cf _ _ _ h (scanPool_kept hP hrec target cf _ _ _ _ hd1 hd)

theorem findDeps_kept (env : Env) {P : List CStr → Prop} (hP : Kept env.globals P) :
    ∀ fuel name d d', findDeps env fuel name d = .ok d' → P d → P d' := by
  intro fuel
  induction fuel with
  | zero =>
    intro name d d' h
    simp only [findDeps] at h
    split at h <;> simp at h
  | succ fuel ih =>
    intro name d d' h hd
    simp only [findDeps] at h
    split at h
    · simp only [bind_ok_iff] at h
      obtain ⟨cf, -, h⟩ := h
      exact findDepsInFile_kept hP ih name cf _ _ h hd
    · simp at h

/-! ## The dependency list -/

theorem mem_addDep {name x : CStr} {deps : List CStr} :
    x ∈ addDep name deps ↔ x ∈ deps ∨ x = name := by
  unfold addDep
  split_ifs with h
  · constructor
    · exact Or.inl
    · rintro (h1 | rfl)
      · exact h1
      · exact h
  · simp

theorem addDep_nodup {name : CStr} {deps : List CStr} (h : deps.Nodup) :
    (addDep name deps).Nodup := by
  unfold addDep
  split_ifs with hm
  · exact h
  · rw [List.nodup_append]
    refine ⟨h, List.nodup_singleton _, ?_⟩
    intro a ha hb
    rw [List.mem_singleton] at hb
    subst hb
    exact hm ha

theorem kept_nodup (g : Globals) : Kept g List.Nodup :=
  ⟨fun _ _ _ h => addDep_nodup h, fun _ _ _ _ _ h => addDep_nodup h⟩

theorem not_excluded_of_included {g : Globals} {name : CStr}
    (hex : RulesOk g.ExcludedPackages) (h : isIncludedClass g name = true) :
    ¬ ∃ p ∈ g.ExcludedPackages, p.name <+: name := by
  intro hp
  have hm := (matchPackage_iff name _ hex).2 hp
  simp [isIncludedClass, hm] at h

theorem included_of_included {g : Globals} {name : CStr}
    (hin : RulesOk g.IncludedPackages) (hne : g.IncludedPackages ≠ [])
    (h : isIncludedClass g name = true) :
    ∃ p ∈ g.IncludedPackages, p.name <+: name := by
  apply (matchPackage_iff name _ hin).1
  have hemp : g.IncludedPackages.isEmpty = false := by
    cases hl : g.IncludedPackages with
    | nil => exact absurd hl hne
    | cons a l => rfl
  unfold isIncludedClass at h
  split_ifs at h with h1 h2
  · exact h
  · simp [hemp] at h2

theorem kept_not_excluded (g : Globals) (hex : RulesOk g.ExcludedPackages) :
    Kept g (fun deps => ∀ n ∈ deps, ¬ ∃ p ∈ g.ExcludedPackages, p.name <+: n) := by
  constructor
  · intro name deps hi hd n hn
    rcases mem_addDep.1 hn with h | rfl
    · exact hd n h
    · exact not_excluded_of_included hex hi
  · intro name dollar deps hi _ hd n hn
    rcases mem_addDep.1 hn with h | rfl
    · exact hd n h
    · rintro ⟨p, hp, hpre⟩
      exact not_excluded_of_included hex hi ⟨p, hp, hpre.trans (List.take_prefix _ _)⟩

theorem prefix_take_index {c : Nat} :
    ∀ (name q : CStr) (k : Nat), index name c = some k → q <+: name → c ∉ q →
      q <+: name.take k := by
  intro name
  induction name with
  | nil =>
    intro q k h
    simp [index] at h
  | cons x xs ih =>
    intro q k h hq hc
    cases q with
    | nil => exact List.nil_prefix
    | cons y ys =>
      rw [List.cons_prefix_cons] at hq
      obtain ⟨rfl, hq⟩ := hq
      have hyc : y ≠ c := fun e => hc (e ▸ List.mem_cons_self _ _)
      have hcs : c ∉ ys := fun e => hc (List.mem_cons_of_mem _ e)
      simp only [index, hyc, if_false, Option.map_eq_some'] at h
      obtain ⟨k', hk', rfl⟩ := h
      rw [List.take_succ_cons, List.cons_prefix_cons]
      exact ⟨rfl, ih ys k' hk' hq hcs⟩

theorem kept_included (g : Globals) (hin : RulesOk g.IncludedPackages)
    (hne : g.IncludedPackages ≠ [])
    (hdollar : ∀ p ∈ g.IncludedPackages, '$'.toNat ∉ p.name) :
    Kept g (fun deps => ∀ n ∈ deps, ∃ p ∈ g.IncludedPackages, p.name <+: n) := by
  constructor
  · intro name deps hi hd n hn
    rcases mem_addDep.1 hn with h | rfl
    · exact hd n h
    · exact included_of_included hin hne hi
  · intro name dollar deps hi hx hd n hn
    rcases mem_addDep.1 hn with h | rfl
    · exact hd n h
    · obtain ⟨p, hp, hpre⟩ := included_of_included hin hne hi
      exact ⟨p, hp, prefix_take_index _ _ _ hx hpre (hdollar p hp)⟩

theorem rulesOk_nil : RulesOk [] := fun _ h => absurd h (List.not_mem_nil _)

theorem rulesOk_default : RulesOk defaultGlobals.ExcludedPackages :=
  rulesOk_buildPackageInfo _ _ (rulesOk_buildPackageInfo _ _
    (rulesOk_buildPackageInfo _ _ rulesOk_nil))

theorem fooEnv_run :
    findDeps fooEnv 3 (bytesOf "com/foo/Bar") [] =
      .ok [bytesOf "com/foo/Bar", bytesOf "com/foo/Bar$Inner", bytesOf "com/foo/Bar$Other",
        bytesOf "com/foo/Dep", bytesOf "org/baz/Other", bytesOf "com/foo/Marker",
        bytesOf "com/foo/Nested", bytesOf "com/foo/Kind"] := by
  rfl

theorem acmeEnv_run :
    findDeps acmeEnv 1 (bytesOf "com/acme/App") [] =
      .ok [bytesOf "com/acme/App", bytesOf "com/acme/util/Tool"] := by
  rfl

/-! ## Invariants of the dependency list -/

/-- C2: the list `findDeps` returns has no two equal names when it is started from
the empty list, and more generally whenever the list it is started from has none. -/
theorem findDeps_nodup (env : Env) (fuel : Nat) (name : CStr) (deps final : List CStr)
    (h : findDeps env fuel name deps = .ok final) :
    (deps = [] → final.Nodup) ∧ (deps.Nodup → final.Nodup) := by
  have key : deps.Nodup → final.Nodup :=
    findDeps_kept env (kept_nodup env.globals) fuel name deps final h
  exact ⟨fun h0 => key (h0 ▸ List.nodup_nil), key⟩

theorem findDeps_nodup_witness :
    findDeps fooEnv 3 (bytesOf "com/foo/Bar") [] =
      .ok [bytesOf "com/foo/Bar", bytesOf "com/foo/Bar$Inner", bytesOf "com/foo/Bar$Other",
        bytesOf "com/foo/Dep", bytesOf "org/baz/Other", bytesOf "com/foo/Marker",
        bytesOf "com/foo/Nested", bytesOf "com/foo/Kind"] ∧
    [bytesOf "com/foo/Bar", bytesOf "com/foo/Bar$Inner", bytesOf "com/foo/Bar$Other",
        bytesOf "com/foo/Dep", bytesOf "org/baz/Other", bytesOf "com/foo/Marker",
        bytesOf "com/foo/Nested", bytesOf "com/foo/Kind"].Nodup :=
  ⟨fooEnv_run, (findDeps_nodup fooEnv 3 (bytesOf "com/foo/Bar") [] _ fooEnv_run).1 rfl⟩

/-- C8: no name in the list that an extraction started from the empty list returns
has an excluded rule as a string prefix. -/
theorem findDeps_not_excluded (env : Env) (hex : RulesOk env.globals.ExcludedPackages)
    (fuel : Nat) (name : CStr) (final : List CStr)
    (h : findDeps env fuel name [] = .ok final) :
    ∀ n ∈ final, ¬ ∃ p ∈ env.globals.ExcludedPackages, p.name <+: n :=
  findDeps_kept env (kept_not_excluded env.globals hex) fuel name [] final h
    (fun _ hn => absurd hn (List.not_mem_nil _))

theorem findDeps_not_excluded_witness :
    RulesOk fooEnv.globals.ExcludedPackages ∧
    findDeps fooEnv 3 (bytesOf "com/foo/Bar") [] =
      .ok [bytesOf "com/foo/Bar", bytesOf "com/foo/Bar$Inner", bytesOf "com/foo/Bar$Other",
        bytesOf "com/foo/Dep", bytesOf "org/baz/Other", bytesOf "com/foo/Marker",
        bytesOf "com/foo/Nested", bytesOf "com/foo/Kind"] ∧
    ∀ n ∈ [bytesOf "com/foo/Bar", bytesOf "com/foo/Bar$Inner", bytesOf "com/foo/Bar$Other",
        bytesOf "com/foo/Dep", bytesOf "org/baz/Other", bytesOf "com/foo/Marker",
        bytesOf "com/foo/Nested", bytesOf "com/foo/Kind"],
      ¬ ∃ p ∈ fooEnv.globals.ExcludedPackages, p.name <+: n :=
  ⟨rulesOk_default, fooEnv_run,
    findDeps_not_excluded fooEnv rulesOk_default 3 (bytesOf "com/foo/Bar") _ fooEnv_run⟩

/-- C9, as stated, fails: with the included package `com.acme$gen`, the class
`com/foo/User` that refers to `com/acme$gen/Widget` gets the dependency `com/acme`,
which no included rule is a prefix of. -/
theorem findDeps_included_counterexample :
    dollarEnv.globals.IncludedPackages ≠ [] ∧
    RulesOk dollarEnv.globals.IncludedPackages ∧
    findDeps dollarEnv 1 (bytesOf "com/foo/User") [] = .ok [bytesOf "com/acme"] ∧
    ¬ ∀ n ∈ [bytesOf "com/acme"],
        ∃ p ∈ dollarEnv.globals.IncludedPackages, p.name <+: n := by
  refine ⟨by decide, rulesOk_buildPackageInfo _ _ rulesOk_nil, by rfl, by decide⟩

/-- C9, amended: when the included list is not empty and none of its rules contains a
`$`, every name in the list that an extraction started from the empty list returns has
an included rule as a string prefix. -/
theorem findDeps_included (env : Env) (hin : RulesOk env.globals.IncludedPackages)
    (hne : env.globals.IncludedPackages ≠ [])
    (hdollar : ∀ p ∈ env.globals.IncludedPackages, '$'.toNat ∉ p.name)
    (fuel : Nat) (name : CStr) (final : List CStr)
    (h : findDeps env fuel name [] = .ok final) :
    ∀ n ∈ final, ∃ p ∈ env.globals.IncludedPackages, p.name <+: n :=
  findDeps_kept env (kept_included env.globals hin hne hdollar) fuel name [] final h
    (fun _ hn => absurd hn (List.not_mem_nil _))

theorem findDeps_included_witness :
    RulesOk acmeEnv.globals.IncludedPackages ∧
    acmeEnv.globals.IncludedPackages ≠ [] ∧
    (∀ p ∈ acmeEnv.globals.IncludedPackages, '$'.toNat ∉ p.name) ∧
    findDeps acmeEnv 1 (bytesOf "com/acme/App") [] =
      .ok [bytesOf "com/acme/App", bytesOf "com/acme/util/Tool"] ∧
    ∀ n ∈ [bytesOf "com/acme/App", bytesOf "com/acme/util/Tool"],
      ∃ p ∈ acmeEnv.globals.IncludedPackages, p.name <+: n :=
  ⟨rulesOk_buildPackageInfo _ _ rulesOk_nil, by decide, by decide, acmeEnv_run,
    findDeps_included acmeEnv (rulesOk_buildPackageInfo _ _ rulesOk_nil) (by decide)
      (by decide) 1 (bytesOf "com/acme/App") _ acmeEnv_run⟩

/-! ## The pool scan on names without `$` -/

theorem index_eq_none_of_not_mem {c : Nat} : ∀ s : CStr, c ∉ s → index s c = none := by
  intro s
  induction s with
  | nil => intro _; rfl
  | cons x xs ih =>
    intro h
    have hx : x ≠ c := fun e => h (e ▸ List.mem_cons_self _ _)
    have hxs : c ∉ xs := fun e => h (List.mem_cons_of_mem _ e)
    simp [index, hx, ih hxs]

theorem poolAt_of_getElem {cf : classFile} {i : Nat} {cp : Option cp_info}
    (h : cf.constant_pool[i]? = some cp) : poolAt cf i = .ok cp := by
  simp [poolAt, h]

theorem getString_utf8 {cf : classFile} {i : Nat} {str : List Nat}
    (h : cf.constant_pool[i]? = some (some (.constant_utf8_info str))) :
    getString cf i = .ok (some (cstr str)) := by
  simp [getString, poolAt_of_getElem h, deref, bind, Except.bind, pure, Except.pure]

theorem getClassName_class {cf : classFile} {i ni : Nat}
    (h : cf.constant_pool[i]? = some (some (.constant_class_info ni))) :
    getClassName cf i = getString cf ni := by
  simp [getClassName, poolAt_of_getElem h, bind, Except.bind]

theorem scanPoolSlot_plain (findDeps : CStr → List CStr → Except Fault (List CStr))
    (g : Globals) (target : CStr) (cf : classFile) (i : Nat) (deps : List CStr)
    (hi : i < cf.constant_pool.length)
    (hres : ∀ ni, cf.constant_pool[i]? = some (some (.constant_class_info ni)) →
      ∃ s, resolvedClassName cf i = some s ∧ '$'.toNat ∉ s) :
    scanPoolSlot findDeps g target cf i deps =
      .ok (((resolvedClassName cf i).toList.filter (passesScan g)).foldl
        (fun d s => addDep s d) deps) := by
  obtain ⟨cp, hcp⟩ : ∃ cp, cf.constant_pool[i]? = some cp :=
    ⟨_, List.getElem?_eq_getElem hi⟩
  rcases cp with _ | ⟨ni⟩ | ⟨str⟩
  · simp [scanPoolSlot, poolAt_of_getElem hcp, resolvedClassName, hcp, bind, Except.bind,
      pure, Except.pure]
  · obtain ⟨s, hs, hd⟩ := hres ni hcp
    have hs' := hs
    simp only [resolvedClassName, hcp] at hs'
    split at hs'
    · rename_i str hstr
      simp only [Option.some.injEq] at hs'
      have hname : getClassName cf i = .ok (some s) := by
        rw [getClassName_class hcp, getString_utf8 hstr, hs']
      simp only [scanPoolSlot, poolAt_of_getElem hcp, hname, hs, deref,
        index_eq_none_of_not_mem s hd, bind, Except.bind, pure, Except.pure,
        Option.toList, List.filter, passesScan]
      by_cases h1 : isIncludedClass g s = true
      · by_cases h2 : s.head? = some 91
        · simp [h1, h2]
        · simp [h1, h2]
      · simp [h1]
    · simp at hs'
  · simp [scanPoolSlot, poolAt_of_getElem hcp, resolvedClassName, hcp, bind, Except.bind,
      pure, Except.pure]

theorem scanPool_plain (findDeps : CStr → List CStr → Except Fault (List CStr))
    (g : Globals) (target : CStr) (cf : classFile)
    (hres : ∀ i ni, cf.constant_pool[i]? = some (some (.constant_class_info ni)) →
      ∃ s, resolvedClassName cf i = some s ∧ '$'.toNat ∉ s) :
    ∀ n i deps, i + n ≤ cf.constant_pool.length →
      scanPool findDeps g target cf n i deps =
        .ok ((((List.range' i n).filterMap (resolvedClassName cf)).filter
          (passesScan g)).foldl (fun d s => addDep s d) deps) := by
  intro n
  induction n with
  | zero => intro i deps _; rfl
  | succ n ih =>
    intro i deps hle
    have hstep := scanPoolSlot_plain findDeps g target cf i deps (by omega) (hres i)
    simp only [scanPool, hstep, bind, Except.bind]
    rw [ih (i + 1) _ (by omega)]
    rw [List.range'_succ, List.filterMap_cons]
    cases hr : resolvedClassName cf i with
    | none => simp
    | some s =>
      by_cases hp : passesScan g s = true
      · simp [hp]
      · simp [hp]

theorem scanAttributes_plain (g : Globals) (cf : classFile) :
    ∀ (atts : List attribute_info) (deps : List CStr),
      (∀ att ∈ atts, ∃ str,
        cf.constant_pool[att.attribute_name_index]? = some (some (.constant_utf8_info str)) ∧
        cstr str ≠ RuntimeVisibleAnnotations) →
      scanAttributes g cf atts deps = .ok deps := by
  intro atts
  induction atts with
  | nil => intro deps _; rfl
  | cons att rest ih =>
    intro deps h
    obtain ⟨str, hstr, hne⟩ := h att (List.mem_cons_self _ _)
    have hrest := ih deps (fun a ha => h a (List.mem_cons_of_mem _ ha))
    simp [scanAttributes, scanAttribute, getString_utf8 hstr, deref, hne, hrest, bind,
      Except.bind, pure, Except.pure]

theorem foldl_addDep_eq_loop :
    ∀ (names : List CStr) (deps : List CStr),
      names.foldl (fun d s => addDep s d) deps = List.eraseDups.loop names deps.reverse := by
  intro names
  induction names with
  | nil => intro deps; simp [List.eraseDups.loop]
  | cons x xs ih =>
    intro deps
    rw [List.foldl_cons, ih, List.eraseDups.loop]
    by_cases hx : x ∈ deps
    · have : List.elem x deps.reverse = true := by simp [hx]
      simp [this, addDep, hx]
    · have : List.elem x deps.reverse = false := by simp [hx]
      simp [this, addDep, hx]

/-- C1: for a parsed class whose `Class` slots all resolve to names without `$` and
none of whose attributes is named `RuntimeVisibleAnnotations`, `findDepsInFile` started
with the empty list returns the resolved names of the `Class` slots in increasing slot
order, without the names that begin with `[`, without the names the package filter
rejects, and without every later repetition of a name. -/
theorem findDepsInFile_plain (findDeps : CStr → List CStr → Except Fault (List CStr))
    (g : Globals) (target : CStr) (cf : classFile)
    (hcount : cf.constant_pool_count ≤ cf.constant_pool.length)
    (hres : ∀ i ni, cf.constant_pool[i]? = some (some (.constant_class_info ni)) →
      ∃ s, resolvedClassName cf i = some s ∧ '$'.toNat ∉ s)
    (hatt : ∀ att ∈ cf.attributes, ∃ str,
      cf.constant_pool[att.attribute_name_index]? = some (some (.constant_utf8_info str)) ∧
      cstr str ≠ RuntimeVisibleAnnotations) :
    findDepsInFile findDeps g target cf [] =
      .ok ((classSlotNames cf).filter (passesScan g)).eraseDups := by
  have h1 := scanPool_plain findDeps g target cf hres cf.constant_pool_count 0 []
    (by omega)
  simp only [findDepsInFile, h1, bind, Except.bind]
  rw [scanAttributes_plain g cf _ _ hatt, foldl_addDep_eq_loop]
  simp [classSlotNames, List.eraseDups, List.range_eq_range']

theorem plainCf_resolves :
    ∀ i ni, plainCf.constant_pool[i]? = some (some (.constant_class_info ni)) →
      ∃ s, resolvedClassName plainCf i = some s ∧ '$'.toNat ∉ s := by
  intro i ni h
  have hi : i < 11 := by
    by_contra hc
    rw [List.getElem?_eq_none (by simpa [plainCf] using hc)] at h
    exact absurd h (by simp)
  interval_cases i
  · simp [plainCf] at h
  · simp [plainCf] at h
  · exact ⟨bytesOf "com/foo/A", by rfl, by decide⟩
  · simp [plainCf] at h
  · exact ⟨bytesOf "[Lcom/foo/B;", by rfl, by decide⟩
  · simp [plainCf] at h
  · exact ⟨bytesOf "java/lang/Object", by rfl, by decide⟩
  · simp [plainCf] at h
  · exact ⟨bytesOf "com/foo/C", by rfl, by decide⟩
  · exact ⟨bytesOf "com/foo/A", by rfl, by decide⟩
  · simp [plainCf] at h

theorem findDepsInFile_plain_witness :
    readClassFile { littleEndian := true, long64 := true } { data := plainSpec.encode, junk := zeros }
        (bytesOf "com/foo/A.class") =
      .ok plainCf ∧
    plainCf.constant_pool_count ≤ plainCf.constant_pool.length ∧
    (∀ i ni, plainCf.constant_pool[i]? = some (some (.constant_class_info ni)) →
      ∃ s, resolvedClassName plainCf i = some s ∧ '$'.toNat ∉ s) ∧
    (∀ att ∈ plainCf.attributes, ∃ str,
      plainCf.constant_pool[att.attribute_name_index]? =
        some (some (.constant_utf8_info str)) ∧
      cstr str ≠ RuntimeVisibleAnnotations) ∧
    findDepsInFile (findDeps fooEnv 0) defaultGlobals (bytesOf "com/foo/A") plainCf [] =
      .ok [bytesOf "com/foo/A", bytesOf "com/foo/C"] := by
  have hatt : ∀ att ∈ plainCf.attributes, ∃ str,
      plainCf.constant_pool[att.attribute_name_index]? =
        some (some (.constant_utf8_info str)) ∧
      cstr str ≠ RuntimeVisibleAnnotations := by
    intro att h
    simp only [plainCf, List.mem_singleton] at h
    subst h
    exact ⟨bytesOf "SourceFile" ++ [0], by rfl, by decide⟩
  refine ⟨by rfl, by decide, plainCf_resolves, hatt, ?_⟩
  rw [findDepsInFile_plain (findDeps fooEnv 0) defaultGlobals (bytesOf "com/foo/A") plainCf
    (by decide) plainCf_resolves hatt]
  rfl

/-! ## The pool scan on nested class names -/

theorem index_spec {c : Nat} :
    ∀ (s : CStr) (k : Nat), index s c = some k →
      s.take k = s.takeWhile (fun b => b != c) ∧ k ≤ s.length := by
  intro s
  induction s with
  | nil => intro k h; simp [index] at h
  | cons x xs ih =>
    intro k h
    by_cases hx : x = c
    · simp only [index, hx, if_true, Option.some.injEq] at h
      subst h
      simp [hx]
    · simp only [index, hx, if_false, Option.map_eq_some'] at h
      obtain ⟨k', hk', rfl⟩ := h
      obtain ⟨h1, h2⟩ := ih k' hk'
      simp [List.takeWhile_cons, hx, h1, h2]

theorem index_isSome_of_mem {c : Nat} : ∀ s : CStr, c ∈ s → ∃ k, index s c = some k := by
  intro s
  induction s with
  | nil => intro h; exact absurd h (List.not_mem_nil _)
  | cons x xs ih =>
    intro h
    by_cases hx : x = c
    · exact ⟨0, by simp [index, hx]⟩
    · rcases List.mem_cons.1 h with e | e
      · exact absurd e.symm hx
      · obtain ⟨k, hk⟩ := ih e
        exact ⟨k + 1, by simp [index, hx, hk]⟩

theorem strncmpEq_take :
    ∀ (k : Nat) (name target : CStr), k ≤ name.length →
      (strncmpEq name target k = true ↔ name.take k <+: target) := by
  intro k
  induction k with
  | zero => intro name target _; simp [strncmpEq]
  | succ k ih =>
    intro name target hk
    cases name with
    | nil => simp at hk
    | cons a as =>
      cases target with
      | nil => simp [strncmpEq]
      | cons b bs =>
        have hk' : k ≤ as.length := by simpa using hk
        simp only [strncmpEq, Bool.and_eq_true, beq_iff_eq, ih as bs hk', List.take_succ_cons,
          List.cons_prefix_cons]

theorem addDep_length_ne {name : CStr} {deps : List CStr} :
    deps.length ≠ (addDep name deps).length ↔ name ∉ deps := by
  unfold addDep
  split_ifs with h
  · simp [h]
  · simp [h]

theorem addDep_of_not_mem {name : CStr} {deps : List CStr} (h : name ∉ deps) :
    addDep name deps = deps ++ [name] := by
  simp [addDep, h]

theorem getClassName_of_resolved {cf : classFile} {i : Nat} {name : CStr}
    (h : resolvedClassName cf i = some name) : getClassName cf i = .ok (some name) := by
  unfold resolvedClassName at h
  split at h
  · rename_i ni hcp
    split at h
    · rename_i str hstr
      simp only [Option.some.injEq] at h
      rw [getClassName_class hcp, getString_utf8 hstr, h]
    · simp at h
  · simp at h

theorem isClass_of_resolved {cf : classFile} {i : Nat} {name : CStr}
    (h : resolvedClassName cf i = some name) :
    ∃ ni, cf.constant_pool[i]? = some (some (.constant_class_info ni)) := by
  unfold resolvedClassName at h
  split at h
  · rename_i ni hcp
    exact ⟨ni, hcp⟩
  · simp at h

theorem scanPoolSlot_nested (findDeps : CStr → List CStr → Except Fault (List CStr))
    (g : Globals) (target : CStr) (cf : classFile) (i : Nat) (deps : List CStr)
    (name : CStr) (hname : resolvedClassName cf i = some name)
    (hinc : isIncludedClass g name = true) (harr : name.head? ≠ some '['.toNat)
    (hdollar : '$'.toNat ∈ name) :
    scanPoolSlot findDeps g target cf i deps =
      if outerName name <+: target then
        (if name ∈ deps then .ok deps else findDeps name (deps ++ [name]))
      else .ok (addDep (outerName name) deps) := by
  obtain ⟨ni, hcp⟩ := isClass_of_resolved hname
  obtain ⟨k, hk⟩ := index_isSome_of_mem name hdollar
  obtain ⟨htake, hle⟩ := index_spec name k hk
  have hcmp := strncmpEq_take k name target hle
  rw [htake] at hcmp
  simp only [scanPoolSlot, poolAt_of_getElem hcp, getClassName_of_resolved hname, deref,
    hinc, hk, bind, Except.bind, pure, Except.pure, if_true]
  rw [if_pos harr]
  simp only [htake]
  by_cases hp : outerName name <+: target
  · have hs : strncmpEq name target k = true := hcmp.2 hp
    rw [if_pos hp, if_pos hs]
    by_cases hm : name ∈ deps
    · rw [if_pos hm, if_neg (fun hh => (addDep_length_ne.1 hh) hm)]
      simp [addDep, hm]
    · rw [if_neg hm, if_pos (addDep_length_ne.2 hm), addDep_of_not_mem hm]
  · have hs : ¬ strncmpEq name target k = true := fun hh => hp (hcmp.1 hh)
    rw [if_neg hp, if_neg hs]
    rfl

theorem kept_superset (g : Globals) (base : List CStr) :
    Kept g (fun deps => ∀ x ∈ base, x ∈ deps) :=
  ⟨fun _ _ _ h x hx => mem_addDep.2 (Or.inl (h x hx)),
    fun _ _ _ _ _ h x hx => mem_addDep.2 (Or.inl (h x hx))⟩

theorem scanPool_add (findDeps : CStr → List CStr → Except Fault (List CStr))
    (g : Globals) (target : CStr) (cf : classFile) :
    ∀ (a b i : Nat) (deps : List CStr),
      scanPool findDeps g target cf (a + b) i deps =
        (scanPool findDeps g target cf a i deps >>= fun d =>
          scanPool findDeps g target cf b (i + a) d) := by
  intro a
  induction a with
  | zero => intro b i deps; simp [scanPool, bind, Except.bind]
  | succ a ih =>
    intro b i deps
    rw [show a + 1 + b = (a + b) + 1 by omega]
    simp only [scanPool]
    cases hs : scanPoolSlot findDeps g target cf i deps with
    | error e => simp [bind, Except.bind]
    | ok d =>
      simp only [bind, Except.bind]
      have := ih b (i + 1) d
      simp only [bind, Except.bind] at this
      rw [this, show i + 1 + a = i + (a + 1) by omega]

/-- C5: when slot `i` of the target's pool is a class reference whose name `N` the
filter accepts, which does not begin with `[`, contains `$` and whose part in front of
the first `$` is the target, the scan of that slot leaves the list unchanged if `N` is
in it and otherwise runs `findDeps` on `N` with `N` appended; `N` is in the list that
`findDepsInFile` returns, and so is every name of the list that the recursive
extraction returned. -/
theorem findDepsInFile_own_nested (env : Env) (fuel : Nat) (target : CStr) (cf : classFile)
    (deps final : List CStr) (i : Nat) (N : CStr)
    (hi : i < cf.constant_pool_count)
    (hname : resolvedClassName cf i = some N)
    (hinc : isIncludedClass env.globals N = true)
    (harr : N.head? ≠ some '['.toNat)
    (hdollar : '$'.toNat ∈ N)
    (houter : outerName N = target)
    (hrun : findDepsInFile (findDeps env fuel) env.globals target cf deps = .ok final) :
    (∀ d, scanPoolSlot (findDeps env fuel) env.globals target cf i d =
        if N ∈ d then .ok d else findDeps env fuel N (d ++ [N])) ∧
    N ∈ final ∧
    ∃ before, scanPool (findDeps env fuel) env.globals target cf i 0 deps = .ok before ∧
      (N ∉ before → ∃ sub, findDeps env fuel N (before ++ [N]) = .ok sub ∧
        ∀ x ∈ sub, x ∈ final) := by
  have hstep : ∀ d, scanPoolSlot (findDeps env fuel) env.globals target cf i d =
      if N ∈ d then .ok d else findDeps env fuel N (d ++ [N]) := by
    intro d
    rw [scanPoolSlot_nested _ _ _ _ _ _ N hname hinc harr hdollar, houter,
      if_pos (List.prefix_refl _)]
  simp only [findDepsInFile, bind_ok_iff] at hrun
  obtain ⟨d1, hd1, hatt⟩ := hrun
  obtain ⟨r, hr⟩ : ∃ r, cf.constant_pool_count = i + (1 + r) :=
    ⟨cf.constant_pool_count - i - 1, by omega⟩
  rw [hr, scanPool_add, bind_ok_iff] at hd1
  obtain ⟨before, hbefore, hd1⟩ := hd1
  rw [scanPool_add, bind_ok_iff] at hd1
  obtain ⟨after, hafter, hd1⟩ := hd1
  simp only [scanPool, bind_ok_iff, Except.ok.injEq, exists_eq_right] at hafter
  rw [Nat.zero_add, hstep] at hafter
  have hmono : ∀ base : List CStr, (∀ x ∈ base, x ∈ after) → ∀ x ∈ base, x ∈ final := by
    intro base hb
    have h1 := scanPool_kept (kept_superset env.globals base)
      (findDeps_kept env (kept_superset env.globals base) fuel) target cf _ _ _ _ hd1 hb
    exact scanAttributes_kept (kept_superset env.globals base) cf _ _ _ hatt h1
  refine ⟨hstep, ?_, before, hbefore, ?_⟩
  · by_cases hm : N ∈ before
    · rw [if_pos hm, Except.ok.injEq] at hafter
      exact hmono [N] (by simpa [← hafter] using hm) N (List.mem_singleton_self _)
    · rw [if_neg hm] at hafter
      have h2 := findDeps_kept env (kept_superset env.globals [N]) fuel N _ _ hafter
        (by simp)
      exact hmono [N] h2 N (List.mem_singleton_self _)
  · intro hm
    rw [if_neg hm] at hafter
    exact ⟨after, hafter, hmono after (fun x hx => hx)⟩

theorem fooEnv_bar_run :
    findDepsInFile (findDeps fooEnv 2) fooEnv.globals (bytesOf "com/foo/Bar") barCf [] =
      .ok [bytesOf "com/foo/Bar", bytesOf "com/foo/Bar$Inner", bytesOf "com/foo/Bar$Other",
        bytesOf "com/foo/Dep", bytesOf "org/baz/Other", bytesOf "com/foo/Marker",
        bytesOf "com/foo/Nested", bytesOf "com/foo/Kind"] := by
  rfl

theorem findDepsInFile_own_nested_witness :
    4 < barCf.constant_pool_count ∧
    resolvedClassName barCf 4 = some (bytesOf "com/foo/Bar$Inner") ∧
    isIncludedClass fooEnv.globals (bytesOf "com/foo/Bar$Inner") = true ∧
    (bytesOf "com/foo/Bar$Inner").head? ≠ some '['.toNat ∧
    '$'.toNat ∈ bytesOf "com/foo/Bar$Inner" ∧
    outerName (bytesOf "com/foo/Bar$Inner") = bytesOf "com/foo/Bar" ∧
    bytesOf "com/foo/Bar$Inner" ∈
      [bytesOf "com/foo/Bar", bytesOf "com/foo/Bar$Inner", bytesOf "com/foo/Bar$Other",
        bytesOf "com/foo/Dep", bytesOf "org/baz/Other", bytesOf "com/foo/Marker",
        bytesOf "com/foo/Nested", bytesOf "com/foo/Kind"] ∧
    ∃ before, scanPool (findDeps fooEnv 2) fooEnv.globals (bytesOf "com/foo/Bar") barCf 4 0 [] =
        .ok before ∧
      (bytesOf "com/foo/Bar$Inner" ∉ before →
        ∃ sub, findDeps fooEnv 2 (bytesOf "com/foo/Bar$Inner")
            (before ++ [bytesOf "com/foo/Bar$Inner"]) = .ok sub ∧
          ∀ x ∈ sub, x ∈
            [bytesOf "com/foo/Bar", bytesOf "com/foo/Bar$Inner", bytesOf "com/foo/Bar$Other",
              bytesOf "com/foo/Dep", bytesOf "org/baz/Other", bytesOf "com/foo/Marker",
              bytesOf "com/foo/Nested", bytesOf "com/foo/Kind"]) :=
  ⟨by decide, by rfl, by rfl, by decide, by decide, by rfl,
    (findDepsInFile_own_nested fooEnv 2 (bytesOf "com/foo/Bar") barCf [] _ 4
      (bytesOf "com/foo/Bar$Inner") (by decide) (by rfl) (by rfl) (by decide) (by decide)
      (by rfl) fooEnv_bar_run).2⟩

theorem not_mem_outerName (name : CStr) : '$'.toNat ∉ outerName name := by
  intro h
  have := List.mem_takeWhile_imp h
  simp at this

/-- C6, as stated, fails: during the extraction of `com/foo/Bar$Inner` the reference to
`com/foo/Bar$Other`, whose part in front of the `$` is `com/foo/Bar` and so differs
from the target, is inserted itself and extracted recursively (`com/foo/Dep` comes
from its class file), and `com/foo/Bar` is not inserted. -/
theorem scanPoolSlot_foreign_counterexample :
    resolvedClassName nestInnerCf 2 = some (bytesOf "com/foo/Bar$Other") ∧
    isIncludedClass nestEnv.globals (bytesOf "com/foo/Bar$Other") = true ∧
    (bytesOf "com/foo/Bar$Other").head? ≠ some '['.toNat ∧
    '$'.toNat ∈ bytesOf "com/foo/Bar$Other" ∧
    outerName (bytesOf "com/foo/Bar$Other") = bytesOf "com/foo/Bar" ∧
    bytesOf "com/foo/Bar" ≠ bytesOf "com/foo/Bar$Inner" ∧
    readClassFile nestEnv.host { data := nestInnerClass.encode, junk := zeros }
        (bytesOf "com/foo/Bar$Inner.class") = .ok nestInnerCf ∧
    scanPoolSlot (findDeps nestEnv 1) nestEnv.globals (bytesOf "com/foo/Bar$Inner")
      nestInnerCf 2 [] = .ok [bytesOf "com/foo/Bar$Other", bytesOf "com/foo/Dep"] ∧
    findDeps nestEnv 1 (bytesOf "com/foo/Bar$Other") [bytesOf "com/foo/Bar$Other"] =
      .ok [bytesOf "com/foo/Bar$Other", bytesOf "com/foo/Dep"] ∧
    findDeps nestEnv 2 (bytesOf "com/foo/Bar$Inner") [] =
      .ok [bytesOf "com/foo/Bar$Other", bytesOf "com/foo/Dep"] ∧
    bytesOf "com/foo/Bar" ∉ [bytesOf "com/foo/Bar$Other", bytesOf "com/foo/Dep"] := by
  refine ⟨by rfl, by rfl, by decide, by decide, by rfl, by decide, by rfl, by rfl, by rfl,
    by rfl, by decide⟩

/-- C6, amended: when slot `i` is a class reference whose name `N` the filter accepts,
which does not begin with `[`, contains `$`, and whose part `P` in front of the first
`$` is not a prefix of the target name, the scan of that slot inserts exactly `P` if it
is not yet present, whatever the extraction for nested classes is (it is not run): `N`
is in the list afterwards only if it was before. -/
theorem scanPoolSlot_foreign_nested (g : Globals) (target : CStr) (cf : classFile)
    (i : Nat) (deps : List CStr) (N : CStr)
    (hname : resolvedClassName cf i = some N)
    (hinc : isIncludedClass g N = true)
    (harr : N.head? ≠ some '['.toNat)
    (hdollar : '$'.toNat ∈ N)
    (hpre : ¬ outerName N <+: target) :
    (∀ findDeps, scanPoolSlot findDeps g target cf i deps =
        .ok (if outerName N ∈ deps then deps else deps ++ [outerName N])) ∧
    (N ∈ (if outerName N ∈ deps then deps else deps ++ [outerName N]) ↔ N ∈ deps) := by
  constructor
  · intro findDeps
    rw [scanPoolSlot_nested _ _ _ _ _ _ N hname hinc harr hdollar, if_neg hpre]
    rfl
  · have hne : N ≠ outerName N := fun e => not_mem_outerName N (e ▸ hdollar)
    split_ifs with h
    · rfl
    · simp [hne]

theorem scanPoolSlot_foreign_nested_witness :
    resolvedClassName barCf 8 = some (bytesOf "org/baz/Other$Inner") ∧
    isIncludedClass fooEnv.globals (bytesOf "org/baz/Other$Inner") = true ∧
    (bytesOf "org/baz/Other$Inner").head? ≠ some '['.toNat ∧
    '$'.toNat ∈ bytesOf "org/baz/Other$Inner" ∧
    ¬ outerName (bytesOf "org/baz/Other$Inner") <+: bytesOf "com/foo/Bar" ∧
    scanPoolSlot (findDeps fooEnv 0) fooEnv.globals (bytesOf "com/foo/Bar") barCf 8
      [bytesOf "com/foo/Bar"] = .ok [bytesOf "com/foo/Bar", bytesOf "org/baz/Other"] :=
  ⟨by rfl, by rfl, by decide, by decide, by decide,
    ((scanPoolSlot_foreign_nested fooEnv.globals (bytesOf "com/foo/Bar") barCf 8
      [bytesOf "com/foo/Bar"] (bytesOf "org/baz/Other$Inner") (by rfl) (by rfl) (by decide)
      (by decide) (by decide)).1 (findDeps fooEnv 0)).trans (by rfl)⟩

/-! ## Reading numbers and pool entries -/

theorem Junk.drop_zero (j : Junk) : Junk.drop j 0 = j := rfl

theorem Junk.drop_drop (j : Junk) (a b : Nat) :
    Junk.drop (Junk.drop j a) b = Junk.drop j (a + b) := by
  funext i
  simp only [Junk.drop, Nat.add_assoc, Nat.add_comm b a]

theorem Junk.take_zero (j : Junk) : Junk.take j 0 = [] := rfl

theorem Junk.take_four (j : Junk) : Junk.take j 4 = [j 0, j 1, j 2, j 3] := rfl

theorem Junk.length_take (j : Junk) (n : Nat) : (Junk.take j n).length = n := by
  simp [Junk.take]

theorem afterLongs_zero (h : Host) (junk : Junk) : afterLongs h 0 junk = junk := by
  simp only [afterLongs, Nat.zero_mul, Junk.drop_zero]

theorem afterLongs_afterLongs (h : Host) (a b : Nat) (junk : Junk) :
    afterLongs h b (afterLongs h a junk) = afterLongs h (a + b) junk := by
  simp only [afterLongs, Junk.drop_drop, Nat.add_mul]

theorem fread_whole (size nmemb : Nat) (f : FILE) (hsize : 0 < size)
    (hlen : size * nmemb ≤ f.data.length) :
    fread size nmemb f =
      (f.data.take (size * nmemb), { data := f.data.drop (size * nmemb), junk := f.junk }) := by
  have hle : nmemb ≤ f.data.length / size := by
    rw [Nat.le_div_iff_mul_le hsize, Nat.mul_comm]
    exact hlen
  simp only [fread, Nat.min_eq_left hle, Nat.mul_comm nmemb size, Nat.sub_self,
    Junk.take_zero, List.append_nil, Junk.drop_zero]

theorem fread_append (bytes rest : List Nat) (junk : Junk) :
    fread 1 bytes.length { data := bytes ++ rest, junk := junk } =
      (bytes, { data := rest, junk := junk }) := by
  rw [fread_whole 1 bytes.length _ Nat.one_pos (by simp)]
  simp

theorem readByte_cons (b : Nat) (rest : List Nat) (junk : Junk) :
    readByte { data := b :: rest, junk := junk } = (b, { data := rest, junk := junk }) := by
  simp [readByte, fread_whole 1 1 { data := b :: rest, junk := junk } Nat.one_pos (by simp)]

theorem readWord_cons (h : Host) (b0 b1 : Nat) (rest : List Nat) (junk : Junk) :
    readWord h { data := b0 :: b1 :: rest, junk := junk } =
      (b0 * 256 + b1, { data := rest, junk := junk }) := by
  have hf := fread_whole 2 1 { data := b0 :: b1 :: rest, junk := junk } (by decide)
    (by simp)
  rcases h with ⟨_ | _, _⟩ <;>
    simp [readWord, hf, LittleEndian, testEndianism, hostWordBytes, reverseBytes,
      reverseBytesLoop, hostValue, bigEndianValue]

theorem readLong_cons (h : Host) (b0 b1 b2 b3 : Nat) (rest : List Nat) (junk : Junk) :
    readLong h { data := b0 :: b1 :: b2 :: b3 :: rest, junk := junk } =
      (longValue h (((b0 * 256 + b1) * 256 + b2) * 256 + b3) junk,
        { data := rest, junk := afterLongs h 1 junk }) := by
  have hf := fread_whole 4 1 { data := b0 :: b1 :: b2 :: b3 :: rest, junk := junk }
    (by decide) (by simp)
  rcases h with ⟨_ | _, _ | _⟩ <;>
    simp [readLong, hf, LittleEndian, testEndianism, hostWordBytes, reverseBytes,
      reverseBytesLoop, hostValue, bigEndianValue, longValue, afterLongs, longPad,
      sizeofLong, Junk.take_four, Junk.take_zero, Junk.drop_zero] <;> ring

theorem longValue_mod (h : Host) (hgood : h.long64 = false ∨ h.littleEndian = true)
    (v : Nat) (hv : v < 2 ^ 32) (junk : Junk) : longValue h v junk % 2 ^ 32 = v := by
  unfold longValue
  rcases hgood with hg | hg
  · simp only [hg, Bool.false_eq_true, if_false]
    exact Nat.mod_eq_of_lt hv
  · by_cases hl : h.long64 = true
    · simp only [hl, hg, if_true]
      rw [Nat.add_mul_mod_self_left]
      exact Nat.mod_eq_of_lt hv
    · simp only [hl, if_false]
      exact Nat.mod_eq_of_lt hv

theorem longValue_short (h : Host) (hshort : h.long64 = false) (v : Nat) (junk : Junk) :
    longValue h v junk = v := by
  simp [longValue, hshort]

theorem afterLongs_short (h : Host) (hshort : h.long64 = false) (k : Nat) (junk : Junk) :
    afterLongs h k junk = junk := by
  simp [afterLongs, longPad, sizeofLong, hshort, Junk.drop_zero]

theorem readWord_word16 (h : Host) (v : Nat) (hv : v < 2 ^ 16) (rest : List Nat)
    (junk : Junk) :
    readWord h { data := word16 v ++ rest, junk := junk } =
      (v, { data := rest, junk := junk }) := by
  have : v / 256 % 256 * 256 + v % 256 = v := by omega
  simp only [word16, List.cons_append, List.nil_append, readWord_cons, this]

theorem readWord_word16_file (h : Host) (v : Nat) (rest : List Nat) (junk : Junk) :
    (readWord h { data := word16 v ++ rest, junk := junk }).2 =
      { data := rest, junk := junk } := by
  simp only [word16, List.cons_append, List.nil_append, readWord_cons]

theorem readLong_long32_file (h : Host) (v : Nat) (rest : List Nat) (junk : Junk) :
    (readLong h { data := long32 v ++ rest, junk := junk }).2 =
      { data := rest, junk := afterLongs h 1 junk } := by
  simp only [long32, List.cons_append, List.nil_append, readLong_cons]

theorem readByteArray_append (bytes rest : List Nat) (junk : Junk) :
    readByteArray { data := bytes ++ rest, junk := junk } bytes.length =
      (bytes ++ [0], { data := rest, junk := junk }) := by
  simp only [readByteArray, fread_append]

theorem readConstantPoolInfo_encode (h : Host) (e : CpEntry) (hwf : e.WellFormed)
    (rest : List Nat) (junk : Junk) (filename : CStr) :
    readConstantPoolInfo h { data := e.encode ++ rest, junk := junk } filename =
      .ok (e.pointer, { data := rest, junk := afterLongs h e.longs junk }) := by
  cases e with
  | Class n =>
    simp only [CpEntry.WellFormed] at hwf
    simp [CpEntry.encode, readConstantPoolInfo, readByte_cons, readWord_word16 h n hwf,
      CpEntry.pointer, CpEntry.longs, afterLongs_zero]
  | Utf8 text =>
    simp only [CpEntry.WellFormed] at hwf
    simp [CpEntry.encode, readConstantPoolInfo, readByte_cons, List.append_assoc,
      readWord_word16 h _ hwf, readByteArray_append, CpEntry.pointer, CpEntry.longs,
      afterLongs_zero]
  | Fieldref c n =>
    simp [CpEntry.encode, readConstantPoolInfo, readByte_cons, List.append_assoc,
      readWord_word16_file, CpEntry.pointer, CpEntry.longs, afterLongs_zero]
  | Methodref c n =>
    simp [CpEntry.encode, readConstantPoolInfo, readByte_cons, List.append_assoc,
      readWord_word16_file, CpEntry.pointer, CpEntry.longs, afterLongs_zero]
  | InterfaceMethodref c n =>
    simp [CpEntry.encode, readConstantPoolInfo, readByte_cons, List.append_assoc,
      readWord_word16_file, CpEntry.pointer, CpEntry.longs, afterLongs_zero]
  | String s =>
    simp [CpEntry.encode, readConstantPoolInfo, readByte_cons, List.append_assoc,
      readWord_word16_file, CpEntry.pointer, CpEntry.longs, afterLongs_zero]
  | Integer b =>
    simp [CpEntry.encode, readConstantPoolInfo, readByte_cons, List.append_assoc,
      readLong_long32_file, CpEntry.pointer, CpEntry.longs]
  | Float b =>
    simp [CpEntry.encode, readConstantPoolInfo, readByte_cons, List.append_assoc,
      readLong_long32_file, CpEntry.pointer, CpEntry.longs]
  | Long hi lo =>
    simp [CpEntry.encode, readConstantPoolInfo, readByte_cons, List.append_assoc,
      readLong_long32_file, CpEntry.pointer, CpEntry.longs, afterLongs_afterLongs]
  | Double hi lo =>
    simp [CpEntry.encode, readConstantPoolInfo, readByte_cons, List.append_assoc,
      readLong_long32_file, CpEntry.pointer, CpEntry.longs, afterLongs_afterLongs]
  | NameAndType n d =>
    simp [CpEntry.encode, readConstantPoolInfo, readByte_cons, List.append_assoc,
      readWord_word16_file, CpEntry.pointer, CpEntry.longs, afterLongs_zero]

/-! ## The layout of the constant pool -/

theorem take_succ_set {α : Type} (v : α) :
    ∀ (l : List α) (i : Nat), i < l.length → (l.set i v).take (i + 1) = l.take i ++ [v] := by
  intro l
  induction l with
  | nil => intro i h; simp at h
  | cons x xs ih =>
    intro i h
    cases i with
    | zero => simp
    | succ i =>
      have hi : i < xs.length := by simpa using h
      simp [List.set, ih i hi]

theorem slots_pos (e : CpEntry) : 1 ≤ e.slots := by
  cases e <;> simp [CpEntry.slots]

theorem slots_eq (e : CpEntry) : e.slots = if e.isWide then 2 else 1 := by
  cases e <;> simp [CpEntry.slots, CpEntry.isWide]

theorem length_le_poolSlots (es : List CpEntry) : es.length ≤ poolSlots es := by
  induction es with
  | nil => simp [poolSlots]
  | cons e es ih =>
    have := slots_pos e
    simp only [poolSlots, List.length_cons]
    omega

theorem poolSlots_eq (es : List CpEntry) :
    poolSlots es = es.length + es.countP CpEntry.isWide := by
  induction es with
  | nil => simp [poolSlots]
  | cons e es ih =>
    rw [poolSlots, ih, slots_eq, List.countP_cons, List.length_cons]
    by_cases hw : e.isWide = true
    · simp [hw]; omega
    · simp [hw]; omega

theorem poolLayout_length (es : List CpEntry) : (poolLayout es).length = poolSlots es := by
  induction es with
  | nil => simp [poolLayout, poolSlots]
  | cons e es ih =>
    rw [poolLayout, poolSlots, slots_eq]
    by_cases hw : e.isWide = true
    · simp [hw, ih]; omega
    · simp [hw, ih]; omega

theorem readConstantPoolLoop_encode (h : Host) (filename : CStr) (count : Nat)
    (rest : List Nat) :
    ∀ (es : List CpEntry) (k i : Nat) (res : List (Option cp_info)) (junk : Junk),
      (∀ e ∈ es, e.WellFormed) → es.length ≤ k → i + poolSlots es = count →
      res.length = count →
      readConstantPoolLoop h filename count k i
          { data := encodePool es ++ rest, junk := junk } res =
        .ok (res.take i ++ poolLayout es,
          { data := rest, junk := afterLongs h (poolLongs es) junk }) := by
  intro es
  induction es with
  | nil =>
    intro k i res junk _ _ hi hlen
    have hic : ¬ i < count := by simp [poolSlots] at hi; omega
    have htake : res.take i = res := List.take_of_length_le (by simp [poolSlots] at hi; omega)
    cases k with
    | zero => simp [readConstantPoolLoop, hic, encodePool, poolLayout, htake, poolLongs, afterLongs_zero]
    | succ k => simp [readConstantPoolLoop, hic, encodePool, poolLayout, htake, poolLongs, afterLongs_zero]
  | cons e es ih =>
    intro k i res junk hwf hk hi hlen
    obtain ⟨k, rfl⟩ : ∃ k', k = k' + 1 := ⟨k - 1, by simp at hk; omega⟩
    have hk' : es.length ≤ k := by simpa using hk
    have hwf' : ∀ e' ∈ es, e'.WellFormed := fun e' he' => hwf e' (List.mem_cons_of_mem _ he')
    have hpos := slots_pos e
    rw [poolSlots] at hi
    have hic : i < count := by omega
    have hil : i < res.length := by omega
    have hread := readConstantPoolInfo_encode h e (hwf e (List.mem_cons_self _ _))
      (encodePool es ++ rest) junk filename
    simp only [readConstantPoolLoop, if_pos hic, encodePool, List.append_assoc, hread, bind,
      Except.bind]
    cases e with
    | Long hi' lo =>
      have h2 : i + 1 < res.length := by simp [CpEntry.slots] at hi; omega
      simp only [CpEntry.pointer, store, if_pos hil, List.length_set, if_pos h2]
      rw [ih k (i + 2) _ _ hwf' hk' (by simp [CpEntry.slots] at hi; omega) (by simp [hlen])]
      rw [show i + 2 = (i + 1) + 1 by rfl, take_succ_set _ _ _ (by simpa using h2),
        take_succ_set _ _ _ hil]
      simp [poolLayout, CpEntry.kept, CpEntry.isWide, poolLongs, afterLongs_afterLongs]
    | Double hi' lo =>
      have h2 : i + 1 < res.length := by simp [CpEntry.slots] at hi; omega
      simp only [CpEntry.pointer, store, if_pos hil, List.length_set, if_pos h2]
      rw [ih k (i + 2) _ _ hwf' hk' (by simp [CpEntry.slots] at hi; omega) (by simp [hlen])]
      rw [show i + 2 = (i + 1) + 1 by rfl, take_succ_set _ _ _ (by simpa using h2),
        take_succ_set _ _ _ hil]
      simp [poolLayout, CpEntry.kept, CpEntry.isWide, poolLongs, afterLongs_afterLongs]
    | Class n =>
      simp only [CpEntry.pointer, store, if_pos hil]
      rw [ih k (i + 1) _ _ hwf' hk' (by simp [CpEntry.slots] at hi; omega) (by simp [hlen])]
      rw [take_succ_set _ _ _ hil]
      simp [poolLayout, CpEntry.kept, CpEntry.isWide, poolLongs, afterLongs_afterLongs]
    | Utf8 text =>
      simp only [CpEntry.pointer, store, if_pos hil]
      rw [ih k (i + 1) _ _ hwf' hk' (by simp [CpEntry.slots] at hi; omega) (by simp [hlen])]
      rw [take_succ_set _ _ _ hil]
      simp [poolLayout, CpEntry.kept, CpEntry.isWide, poolLongs, afterLongs_afterLongs]
    | Fieldref c n =>
      simp only [CpEntry.pointer, store, if_pos hil]
      rw [ih k (i + 1) _ _ hwf' hk' (by simp [CpEntry.slots] at hi; omega) (by simp [hlen])]
      rw [take_succ_set _ _ _ hil]
      simp [poolLayout, CpEntry.kept, CpEntry.isWide, poolLongs, afterLongs_afterLongs]
    | Methodref c n =>
      simp only [CpEntry.pointer, store, if_pos hil]
      rw [ih k (i + 1) _ _ hwf' hk' (by simp [CpEntry.slots] at hi; omega) (by simp [hlen])]
      rw [take_succ_set _ _ _ hil]
      simp [poolLayout, CpEntry.kept, CpEntry.isWide, poolLongs, afterLongs_afterLongs]
    | InterfaceMethodref c n =>
      simp only [CpEntry.pointer, store, if_pos hil]
      rw [ih k (i + 1) _ _ hwf' hk' (by simp [CpEntry.slots] at hi; omega) (by simp [hlen])]
      rw [take_succ_set _ _ _ hil]
      simp [poolLayout, CpEntry.kept, CpEntry.isWide, poolLongs, afterLongs_afterLongs]
    | String s =>
      simp only [CpEntry.pointer, store, if_pos hil]
      rw [ih k (i + 1) _ _ hwf' hk' (by simp [CpEntry.slots] at hi; omega) (by simp [hlen])]
      rw [take_succ_set _ _ _ hil]
      simp [poolLayout, CpEntry.kept, CpEntry.isWide, poolLongs, afterLongs_afterLongs]
    | Integer b =>
      simp only [CpEntry.pointer, store, if_pos hil]
      rw [ih k (i + 1) _ _ hwf' hk' (by simp [CpEntry.slots] at hi; omega) (by simp [hlen])]
      rw [take_succ_set _ _ _ hil]
      simp [poolLayout, CpEntry.kept, CpEntry.isWide, poolLongs, afterLongs_afterLongs]
    | Float b =>
      simp only [CpEntry.pointer, store, if_pos hil]
      rw [ih k (i + 1) _ _ hwf' hk' (by simp [CpEntry.slots] at hi; omega) (by simp [hlen])]
      rw [take_succ_set _ _ _ hil]
      simp [poolLayout, CpEntry.kept, CpEntry.isWide, poolLongs, afterLongs_afterLongs]
    | NameAndType n d =>
      simp only [CpEntry.pointer, store, if_pos hil]
      rw [ih k (i + 1) _ _ hwf' hk' (by simp [CpEntry.slots] at hi; omega) (by simp [hlen])]
      rw [take_succ_set _ _ _ hil]
      simp [poolLayout, CpEntry.kept, CpEntry.isWide, poolLongs, afterLongs_afterLongs]

theorem readConstantPool_encode (h : Host) (es : List CpEntry) (rest : List Nat)
    (junk : Junk) (filename : CStr) (hwf : ∀ e ∈ es, e.WellFormed) :
    readConstantPool h { data := encodePool es ++ rest, junk := junk } filename
        (1 + poolSlots es) =
      .ok (none :: poolLayout es,
        { data := rest, junk := afterLongs h (poolLongs es) junk }) := by
  have hlen := length_le_poolSlots es
  simp only [readConstantPool, store, List.length_replicate, bind, Except.bind]
  rw [if_pos (by omega)]
  simp only []
  rw [readConstantPoolLoop_encode h filename _ rest es _ 1 _ junk hwf (by omega) rfl (by simp)]
  simp [Nat.add_comm 1, List.replicate_succ]

theorem poolLayout_get :
    ∀ (es : List CpEntry) (k : Nat) (e : CpEntry), es[k]? = some e →
      (poolLayout es)[k + (es.take k).countP CpEntry.isWide]? = some e.kept ∧
      (e.isWide = true →
        (poolLayout es)[k + (es.take k).countP CpEntry.isWide + 1]? = some none) := by
  intro es
  induction es with
  | nil => intro k e h; simp at h
  | cons x xs ih =>
    intro k e h
    cases k with
    | zero =>
      simp only [List.getElem?_cons_zero, Option.some.injEq] at h
      subst h
      constructor
      · simp [poolLayout]
      · intro hw
        simp [poolLayout, hw]
    | succ k =>
      simp only [List.getElem?_cons_succ] at h
      obtain ⟨h1, h2⟩ := ih k e h
      by_cases hx : x.isWide = true
      · simp only [List.take_succ_cons, List.countP_cons, hx, if_true, poolLayout,
          List.singleton_append]
        constructor
        · rw [show k + 1 + ((xs.take k).countP CpEntry.isWide + 1) =
            (k + (xs.take k).countP CpEntry.isWide + 1) + 1 by omega]
          simpa using h1
        · intro hw
          rw [show k + 1 + ((xs.take k).countP CpEntry.isWide + 1) + 1 =
            (k + (xs.take k).countP CpEntry.isWide + 1 + 1) + 1 by omega]
          simpa using h2 hw
      · have hx' : x.isWide = false := by simpa using hx
        simp only [List.take_succ_cons, List.countP_cons, hx', poolLayout]
        simp only [Bool.false_eq_true, if_false, List.nil_append, Nat.add_zero]
        constructor
        · rw [show k + 1 + (xs.take k).countP CpEntry.isWide =
            (k + (xs.take k).countP CpEntry.isWide) + 1 by omega]
          simpa using h1
        · intro hw
          rw [show k + 1 + (xs.take k).countP CpEntry.isWide + 1 =
            (k + (xs.take k).countP CpEntry.isWide + 1) + 1 by omega]
          simpa using h2 hw

theorem cstr_append_zero (text : List Nat) : cstr (text ++ [0]) = cstr text := by
  induction text with
  | nil => simp [cstr]
  | cons x xs ih =>
    simp only [cstr] at ih ⊢
    by_cases hx : x = 0
    · simp [hx]
    · simp [List.takeWhile_cons, hx, ih]

theorem cstr_of_not_mem (text : List Nat) (h : 0 ∉ text) : cstr text = text := by
  induction text with
  | nil => simp [cstr]
  | cons x xs ih =>
    have hx : x ≠ 0 := fun e => h (e ▸ List.mem_cons_self _ _)
    have hxs : 0 ∉ xs := fun e => h (List.mem_cons_of_mem _ e)
    simp only [cstr] at ih ⊢
    simp [List.takeWhile_cons, hx, ih hxs]

/-- C4: on the bytes of a sequence of well-formed entries, with the count that goes
with them, `readConstantPool` leaves slot 0 empty and stores what it keeps of entry
number `k` at slot index 1 + (number of entries in front of it) + (number of `Long` and
`Double` entries in front of it); a `Long` or `Double` leaves its slot and the next
one empty and the entry after it lands two slots later.  For an `Integer`, a `Long`, a
`Class` with name index 5 and a `Utf8` in this order, `getClassName` on the `Class`
slot 4 returns the text of the `Utf8`. -/
theorem readConstantPool_slots (h : Host) (junk : Junk) (filename : CStr)
    (es : List CpEntry) (rest : List Nat) (hwf : ∀ e ∈ es, e.WellFormed) :
    ∃ pool,
      readConstantPool h { data := encodePool es ++ rest, junk := junk } filename
          (1 + es.length + es.countP CpEntry.isWide) =
        .ok (pool, { data := rest, junk := afterLongs h (poolLongs es) junk }) ∧
      pool.length = 1 + es.length + es.countP CpEntry.isWide ∧
      pool[0]? = some none ∧
      (∀ k e, es[k]? = some e →
        pool[slotIndex es k]? = some e.kept ∧
        (e.isWide = true → e.kept = none ∧ pool[slotIndex es k + 1]? = some none) ∧
        slotIndex es (k + 1) = slotIndex es k + (if e.isWide then 2 else 1)) ∧
      (∀ v hi lo text atts, es = [.Integer v, .Long hi lo, .Class 5, .Utf8 text] →
        getClassName { constant_pool_count := 6, constant_pool := pool, attributes := atts } 4
          = .ok (some (cstr text)) ∧
        (0 ∉ text → cstr text = text)) := by
  refine ⟨none :: poolLayout es, ?_, ?_, by simp, ?_, ?_⟩
  · have := readConstantPool_encode h es rest junk filename hwf
    rw [poolSlots_eq, ← Nat.add_assoc] at this
    exact this
  · rw [List.length_cons, poolLayout_length, poolSlots_eq]
    omega
  · intro k e hk
    obtain ⟨h1, h2⟩ := poolLayout_get es k e hk
    have hidx : slotIndex es k = (k + (es.take k).countP CpEntry.isWide) + 1 := by
      simp only [slotIndex]; omega
    refine ⟨?_, ?_, ?_⟩
    · rw [hidx, List.getElem?_cons_succ]
      exact h1
    · intro hw
      refine ⟨by cases e <;> simp_all [CpEntry.isWide, CpEntry.kept], ?_⟩
      rw [hidx, List.getElem?_cons_succ]
      exact h2 hw
    · have hlt : k < es.length := by
        by_contra hc
        rw [List.getElem?_eq_none (not_lt.1 hc)] at hk
        exact absurd hk (by simp)
      have htake : es.take (k + 1) = es.take k ++ [e] := by
        rw [List.take_succ, hk]; rfl
      simp only [slotIndex, htake, List.countP_append, List.countP_cons, List.countP_nil]
      by_cases hw : e.isWide = true
      · simp [hw]; omega
      · simp [hw]; omega
  · intro v hi lo text atts hes
    subst hes
    constructor
    · simp [poolLayout, CpEntry.kept, CpEntry.isWide, getClassName, getString, poolAt, deref,
        bind, Except.bind, pure, Except.pure, cstr_append_zero]
    · exact cstr_of_not_mem text

theorem readConstantPool_slots_witness :
    (∀ e ∈ [CpEntry.Integer 7, .Long 1 2, .Class 5, .Utf8 (bytesOf "com/foo/Bar")],
      e.WellFormed) ∧
    ∃ pool,
      readConstantPool { littleEndian := true, long64 := true }
          { data := encodePool [.Integer 7, .Long 1 2, .Class 5, .Utf8 (bytesOf "com/foo/Bar")]
              ++ [0, 33], junk := zeros } (bytesOf "Bar.class") 6 =
        .ok (pool, { data := [0, 33], junk := zeros }) ∧
      pool[4]? = some (some (.constant_class_info 5)) ∧
      pool[2]? = some none ∧ pool[3]? = some none ∧
      getClassName { constant_pool_count := 6, constant_pool := pool, attributes := [] } 4 =
        .ok (some (bytesOf "com/foo/Bar")) := by
  have hwf : ∀ e ∈ [CpEntry.Integer 7, .Long 1 2, .Class 5, .Utf8 (bytesOf "com/foo/Bar")],
      e.WellFormed := by
    intro e he
    simp only [List.mem_cons, List.mem_singleton, List.not_mem_nil, or_false] at he
    rcases he with rfl | rfl | rfl | rfl
    · trivial
    · trivial
    · show (5 : Nat) < 2 ^ 16
      decide
    · show (bytesOf "com/foo/Bar").length < 2 ^ 16
      decide
  obtain ⟨pool, h1, -, -, h4, h5⟩ := readConstantPool_slots
    { littleEndian := true, long64 := true } zeros (bytesOf "Bar.class") [.Integer 7, .Long 1 2, .Class 5, .Utf8 (bytesOf "com/foo/Bar")] [0, 33] hwf
  refine ⟨hwf, pool, h1, ?_, ?_, ?_, ?_⟩
  · exact (h4 2 (.Class 5) rfl).1
  · exact (h4 1 (.Long 1 2) rfl).1
  · exact ((h4 1 (.Long 1 2) rfl).2.1 rfl).2
  · have := (h5 7 1 2 (bytesOf "com/foo/Bar") [] rfl)
    rw [this.1, this.2 (by decide)]

/-! ## Scanning well-formed annotations -/

theorem decodeWord_word16 (v : Nat) (hv : v < 2 ^ 16) (rest : List Nat) :
    decodeWord (word16 v ++ rest) = .ok (v, rest) := by
  have h1 : v % 256 < 2 ^ 8 := Nat.mod_lt _ (by norm_num)
  have h2 := Nat.mul_add_lt_is_or h1 (v / 256 % 256)
  have h3 : (v / 256 % 256) <<< 8 = 2 ^ 8 * (v / 256 % 256) := by
    rw [Nat.shiftLeft_eq, Nat.mul_comm]
  simp only [word16, List.cons_append, List.nil_append, decodeWord, h3, ← h2]
  have : (2 ^ 8 * (v / 256 % 256) + v % 256) % 2 ^ 16 = v := by omega
  rw [this]

theorem offer_of_resolved {g : Globals} {cf : classFile} {idx : Nat} {name : CStr}
    (h : getClassName cf idx = .ok (some name)) (deps : List CStr) :
    offer g cf deps idx = if isIncludedClass g name then addDep name deps else deps := by
  simp [offer, h]

theorem encode_length_pos (v : ElementValue) : 1 ≤ v.encode.length := by
  cases v <;> simp [ElementValue.encode]

mutual
theorem scanElementValue_encode (g : Globals) (cf : classFile) :
    ∀ (v : ElementValue) (fuel : Nat) (rest : List Nat) (deps : List CStr),
      v.WellFormed → (∀ idx ∈ v.typeRefs, ∃ name, getClassName cf idx = .ok (some name)) →
      v.encode.length ≤ fuel →
      scanElementValue g cf fuel (v.encode ++ rest) deps =
        .ok (rest, v.typeRefs.foldl (offer g cf) deps)
  | .const tag i, fuel, rest, deps, hwf, _, hfuel => by
    obtain ⟨fuel, rfl⟩ : ∃ f, fuel = f + 1 :=
      ⟨fuel - 1, by simp [ElementValue.encode] at hfuel; omega⟩
    simp only [ElementValue.WellFormed] at hwf
    obtain ⟨htag, hi⟩ := hwf
    simp only [ElementValue.encode, List.cons_append, scanElementValue, decodeByte,
      decodeWord_word16 i hi, bind, Except.bind, pure, Except.pure, ElementValue.typeRefs,
      List.foldl_nil]
    rcases htag with h | h | h
    · simp [h]
    · simp [h]
    · simp [h]
  | .enum t c, fuel, rest, deps, hwf, hres, hfuel => by
    obtain ⟨fuel, rfl⟩ : ∃ f, fuel = f + 1 :=
      ⟨fuel - 1, by simp [ElementValue.encode] at hfuel; omega⟩
    simp only [ElementValue.WellFormed] at hwf
    obtain ⟨ht, hc⟩ := hwf
    obtain ⟨name, hname⟩ := hres t (by simp [ElementValue.typeRefs])
    have e1 : isConstTag 'e'.toNat = false := by decide
    have e2 : ¬ 'e'.toNat = 's'.toNat := by decide
    have e3 : ¬ 'e'.toNat = 'c'.toNat := by decide
    simp only [ElementValue.encode, List.cons_append, List.append_assoc, scanElementValue,
      decodeByte, decodeWord_word16 t ht, decodeWord_word16 c hc, hname, deref, bind,
      Except.bind, pure, Except.pure, ElementValue.typeRefs, List.foldl_cons, List.foldl_nil,
      offer_of_resolved hname, e1, e2, e3, if_false, if_true, Bool.false_eq_true]
    split_ifs <;> rfl
  | .nested a, fuel, rest, deps, hwf, hres, hfuel => by
    obtain ⟨fuel, rfl⟩ : ∃ f, fuel = f + 1 :=
      ⟨fuel - 1, by simp [ElementValue.encode] at hfuel; omega⟩
    simp only [ElementValue.WellFormed] at hwf
    have e1 : isConstTag '@'.toNat = false := by decide
    have e2 : ¬ '@'.toNat = 's'.toNat := by decide
    have e3 : ¬ '@'.toNat = 'c'.toNat := by decide
    have e4 : ¬ '@'.toNat = 'e'.toNat := by decide
    have ih := scanAnnotation_encode g cf a fuel rest deps hwf
      (fun idx hidx => hres idx (by simpa [ElementValue.typeRefs] using hidx))
      (by simp [ElementValue.encode] at hfuel; omega)
    simp only [ElementValue.encode, List.cons_append, scanElementValue, decodeByte, bind,
      Except.bind, e1, e2, e3, e4, if_false, if_true, Bool.false_eq_true,
      ElementValue.typeRefs]
    exact ih
  | .array vs, fuel, rest, deps, hwf, hres, hfuel => by
    obtain ⟨fuel, rfl⟩ : ∃ f, fuel = f + 1 :=
      ⟨fuel - 1, by simp [ElementValue.encode] at hfuel; omega⟩
    simp only [ElementValue.WellFormed] at hwf
    obtain ⟨hlen, hwf⟩ := hwf
    have e1 : isConstTag '['.toNat = false := by decide
    have e2 : ¬ '['.toNat = 's'.toNat := by decide
    have e3 : ¬ '['.toNat = 'c'.toNat := by decide
    have e4 : ¬ '['.toNat = 'e'.toNat := by decide
    have e5 : ¬ '['.toNat = '@'.toNat := by decide
    have ih := scanValues_encode g cf vs fuel rest deps hwf
      (fun idx hidx => hres idx (by simpa [ElementValue.typeRefs] using hidx))
      (by simp [ElementValue.encode, word16] at hfuel; omega)
    simp only [ElementValue.encode, List.cons_append, List.append_assoc, scanElementValue,
      decodeByte, decodeWord_word16 _ hlen, bind, Except.bind, e1, e2, e3, e4, e5, if_false,
      if_true, Bool.false_eq_true, ElementValue.typeRefs]
    exact ih
theorem scanAnnotation_encode (g : Globals) (cf : classFile) :
    ∀ (a : Annot) (fuel : Nat) (rest : List Nat) (deps : List CStr),
      a.WellFormed → (∀ idx ∈ a.typeRefs, ∃ name, getClassName cf idx = .ok (some name)) →
      a.encode.length ≤ fuel →
      scanAnnotation (scanElementValue g cf fuel) g cf (a.encode ++ rest) deps =
        .ok (rest, a.typeRefs.foldl (offer g cf) deps)
  | .mk t ps, fuel, rest, deps, hwf, hres, hfuel => by
    simp only [Annot.WellFormed] at hwf
    obtain ⟨ht, hlen, hwf⟩ := hwf
    obtain ⟨name, hname⟩ := hres t (by simp [Annot.typeRefs])
    have ih := scanPairs_encode g cf ps fuel rest (offer g cf deps t) hwf
      (fun idx hidx => hres idx (by simp [Annot.typeRefs, hidx]))
      (by simp [Annot.encode, word16] at hfuel; omega)
    simp only [Annot.encode, List.append_assoc, scanAnnotation, decodeWord_word16 t ht,
      decodeWord_word16 _ hlen, hname, deref, bind, Except.bind, Annot.typeRefs,
      List.foldl_cons, offer_of_resolved hname]
    rw [offer_of_resolved hname] at ih
    exact ih
theorem scanPairs_encode (g : Globals) (cf : classFile) :
    ∀ (ps : PairList) (fuel : Nat) (rest : List Nat) (deps : List CStr),
      ps.WellFormed → (∀ idx ∈ ps.typeRefs, ∃ name, getClassName cf idx = .ok (some name)) →
      ps.encode.length ≤ fuel →
      scanPairs (scanElementValue g cf fuel) ps.length (ps.encode ++ rest) deps =
        .ok (rest, ps.typeRefs.foldl (offer g cf) deps)
  | .nil, fuel, rest, deps, _, _, _ => by
    simp [PairList.length, PairList.encode, scanPairs, PairList.typeRefs]
  | .cons k v ps, fuel, rest, deps, hwf, hres, hfuel => by
    simp only [PairList.WellFormed] at hwf
    obtain ⟨hk, hv, hps⟩ := hwf
    have ih1 := scanElementValue_encode g cf v fuel (ps.encode ++ rest) deps hv
      (fun idx hidx => hres idx (by simp [PairList.typeRefs, hidx]))
      (by simp [PairList.encode] at hfuel; omega)
    have ih2 := scanPairs_encode g cf ps fuel rest (v.typeRefs.foldl (offer g cf) deps)
      hps (fun idx hidx => hres idx (by simp [PairList.typeRefs, hidx]))
      (by simp [PairList.encode] at hfuel; omega)
    simp only [PairList.length, PairList.encode, List.append_assoc, scanPairs,
      decodeWord_word16 k hk, ih1, ih2, bind, Except.bind, PairList.typeRefs,
      List.foldl_append]
theorem scanValues_encode (g : Globals) (cf : classFile) :
    ∀ (vs : ValueList) (fuel : Nat) (rest : List Nat) (deps : List CStr),
      vs.WellFormed → (∀ idx ∈ vs.typeRefs, ∃ name, getClassName cf idx = .ok (some name)) →
      vs.encode.length ≤ fuel →
      scanValues (scanElementValue g cf fuel) vs.length (vs.encode ++ rest) deps =
        .ok (rest, vs.typeRefs.foldl (offer g cf) deps)
  | .nil, fuel, rest, deps, _, _, _ => by
    simp [ValueList.length, ValueList.encode, scanValues, ValueList.typeRefs]
  | .cons v vs, fuel, rest, deps, hwf, hres, hfuel => by
    simp only [ValueList.WellFormed] at hwf
    obtain ⟨hv, hvs⟩ := hwf
    have ih1 := scanElementValue_encode g cf v fuel (vs.encode ++ rest) deps hv
      (fun idx hidx => hres idx (by simp [ValueList.typeRefs, hidx]))
      (by simp [ValueList.encode] at hfuel; omega)
    have ih2 := scanValues_encode g cf vs fuel rest (v.typeRefs.foldl (offer g cf) deps)
      hvs (fun idx hidx => hres idx (by simp [ValueList.typeRefs, hidx]))
      (by simp [ValueList.encode] at hfuel; omega)
    simp only [ValueList.length, ValueList.encode, List.append_assoc, scanValues, ih1, ih2,
      bind, Except.bind, ValueList.typeRefs, List.foldl_append]
end

theorem scanAnnotations_encode (g : Globals) (cf : classFile) (fuel : Nat) :
    ∀ (as : List Annot) (rest : List Nat) (deps : List CStr),
      (∀ a ∈ as, a.WellFormed) →
      (∀ a ∈ as, ∀ idx ∈ a.typeRefs, ∃ name, getClassName cf idx = .ok (some name)) →
      (∀ a ∈ as, a.encode.length ≤ fuel) →
      scanAnnotations (scanElementValue g cf fuel) g cf as.length
          ((as.map Annot.encode).flatten ++ rest) deps =
        .ok (rest, ((as.map Annot.typeRefs).flatten).foldl (offer g cf) deps) := by
  intro as
  induction as with
  | nil => intro rest deps _ _ _; simp [scanAnnotations]
  | cons a as ih =>
    intro rest deps hwf hres hfuel
    have h1 := scanAnnotation_encode g cf a fuel ((as.map Annot.encode).flatten ++ rest) deps
      (hwf a (List.mem_cons_self _ _)) (hres a (List.mem_cons_self _ _))
      (hfuel a (List.mem_cons_self _ _))
    have h2 := ih rest (a.typeRefs.foldl (offer g cf) deps)
      (fun b hb => hwf b (List.mem_cons_of_mem _ hb))
      (fun b hb => hres b (List.mem_cons_of_mem _ hb))
      (fun b hb => hfuel b (List.mem_cons_of_mem _ hb))
    simp only [List.length_cons, List.map_cons, List.flatten_cons, List.append_assoc,
      scanAnnotations, h1, h2, bind, Except.bind, List.foldl_append]

theorem encode_length_le_flatten (as : List Annot) :
    ∀ a ∈ as, a.encode.length ≤ ((as.map Annot.encode).flatten).length := by
  induction as with
  | nil => intro a h; exact absurd h (List.not_mem_nil _)
  | cons b bs ih =>
    intro a h
    simp only [List.map_cons, List.flatten_cons, List.length_append]
    rcases List.mem_cons.1 h with rfl | h
    · omega
    · have := ih a h
      omega

theorem mem_offer_of_mem {g : Globals} {cf : classFile} {x : CStr} {deps : List CStr}
    (idx : Nat) (h : x ∈ deps) : x ∈ offer g cf deps idx := by
  unfold offer
  split
  · split_ifs
    · exact mem_addDep.2 (Or.inl h)
    · exact h
  · exact h

theorem mem_foldl_offer_of_mem {g : Globals} {cf : classFile} {x : CStr} :
    ∀ (refs : List Nat) (deps : List CStr), x ∈ deps → x ∈ refs.foldl (offer g cf) deps := by
  intro refs
  induction refs with
  | nil => intro deps h; exact h
  | cons r rs ih => intro deps h; exact ih _ (mem_offer_of_mem r h)

theorem mem_foldl_offer {g : Globals} {cf : classFile} {name : CStr} {idx : Nat}
    (hname : getClassName cf idx = .ok (some name)) (hinc : isIncludedClass g name = true) :
    ∀ (refs : List Nat) (deps : List CStr), idx ∈ refs →
      name ∈ refs.foldl (offer g cf) deps := by
  intro refs
  induction refs with
  | nil => intro deps h; exact absurd h (List.not_mem_nil _)
  | cons r rs ih =>
    intro deps h
    rcases List.mem_cons.1 h with rfl | h
    · rw [List.foldl_cons]
      refine mem_foldl_offer_of_mem rs _ ?_
      rw [offer_of_resolved hname, if_pos hinc]
      exact mem_addDep.2 (Or.inr rfl)
    · exact ih _ h

/-- C10: scanning the payload of a `RuntimeVisibleAnnotations` attribute that holds
well-formed annotations whose type references resolve succeeds, and offers to the
dependency list, in the order of the bytes, the resolved name of the type of every
annotation and of every enum constant, at every depth: the annotations of the
attribute, an annotation nested under tag `@`, the elements of an array under tag `[`.
Every such name that the filter accepts is in the list afterwards, and nothing is
removed from the list. -/
theorem scanAttribute_annotations (g : Globals) (cf : classFile) (att : attribute_info)
    (deps : List CStr) (as : List Annot)
    (hname : getString cf att.attribute_name_index = .ok (some RuntimeVisibleAnnotations))
    (hinfo : att.info = encodeAnnotations as ++ [0])
    (hlen : as.length < 2 ^ 16)
    (hwf : ∀ a ∈ as, a.WellFormed)
    (hres : ∀ a ∈ as, ∀ idx ∈ a.typeRefs, ∃ name, getClassName cf idx = .ok (some name)) :
    scanAttribute g cf att deps =
      .ok (((as.map Annot.typeRefs).flatten).foldl (offer g cf) deps) ∧
    (∀ x ∈ deps, x ∈ ((as.map Annot.typeRefs).flatten).foldl (offer g cf) deps) ∧
    (∀ a ∈ as, ∀ idx ∈ a.typeRefs, ∀ name, getClassName cf idx = .ok (some name) →
      isIncludedClass g name = true →
      name ∈ ((as.map Annot.typeRefs).flatten).foldl (offer g cf) deps) := by
  refine ⟨?_, fun x hx => mem_foldl_offer_of_mem _ _ hx, ?_⟩
  · have hfuel : ∀ a ∈ as, a.encode.length ≤ att.info.length := by
      intro a ha
      have := encode_length_le_flatten as a ha
      rw [hinfo]
      simp only [encodeAnnotations, List.length_append]
      omega
    have hscan := scanAnnotations_encode g cf att.info.length as [0] deps hwf hres hfuel
    simp only [scanAttribute, hname, deref, bind, Except.bind, if_true]
    rw [hinfo]
    simp only [encodeAnnotations, List.append_assoc, decodeWord_word16 _ hlen]
    rw [hinfo] at hscan
    simp only [encodeAnnotations, List.append_assoc] at hscan
    rw [hscan]
    rfl
  · intro a ha idx hidx name hn hinc
    apply mem_foldl_offer hn hinc
    exact List.mem_flatten.2 ⟨a.typeRefs, List.mem_map.2 ⟨a, ha, rfl⟩, hidx⟩

theorem barAnnot_wellFormed : ∀ a ∈ [barAnnot], a.WellFormed := by
  intro a ha
  rw [List.mem_singleton] at ha
  subst ha
  simp [barAnnot, Annot.WellFormed, PairList.WellFormed, ElementValue.WellFormed,
    ValueList.WellFormed, PairList.length, ValueList.length]

theorem barAnnot_resolves :
    ∀ a ∈ [barAnnot], ∀ idx ∈ a.typeRefs, ∃ name, getClassName barCf idx = .ok (some name) := by
  intro a ha idx hidx
  rw [List.mem_singleton] at ha
  subst ha
  simp only [barAnnot, Annot.typeRefs, PairList.typeRefs, ElementValue.typeRefs,
    ValueList.typeRefs, List.append_nil, List.mem_cons, List.mem_singleton,
    List.cons_append, List.nil_append, List.not_mem_nil, or_false] at hidx
  rcases hidx with rfl | rfl | rfl | rfl
  · exact ⟨bytesOf "com/foo/Marker", by rfl⟩
  · exact ⟨bytesOf "com/foo/Nested", by rfl⟩
  · exact ⟨bytesOf "com/foo/Kind", by rfl⟩
  · exact ⟨bytesOf "com/foo/Kind", by rfl⟩

theorem scanAttribute_annotations_witness :
    getString barCf 11 = .ok (some RuntimeVisibleAnnotations) ∧
    (∀ a ∈ [barAnnot], a.WellFormed) ∧
    (∀ a ∈ [barAnnot], ∀ idx ∈ a.typeRefs, ∃ name,
      getClassName barCf idx = .ok (some name)) ∧
    scanAttribute defaultGlobals barCf
        { attribute_name_index := 11,
          attribute_length := (encodeAnnotations [barAnnot]).length,
          info := encodeAnnotations [barAnnot] ++ [0] } [bytesOf "com/foo/Bar"] =
      .ok [bytesOf "com/foo/Bar", bytesOf "com/foo/Marker", bytesOf "com/foo/Nested",
        bytesOf "com/foo/Kind"] :=
  ⟨by rfl, barAnnot_wellFormed, barAnnot_resolves,
    (scanAttribute_annotations defaultGlobals barCf
      { attribute_name_index := 11,
        attribute_length := (encodeAnnotations [barAnnot]).length,
        info := encodeAnnotations [barAnnot] ++ [0] } [bytesOf "com/foo/Bar"] [barAnnot]
      (by rfl) rfl (by decide) barAnnot_wellFormed barAnnot_resolves).1.trans (by rfl)⟩

/-! ## The depth bound of the annotation scan is never reached -/

theorem bind_ne_fuel {α β : Type} {x : Except Fault α} {f : α → Except Fault β}
    (hx : x ≠ .error .outOfFuel) (hf : ∀ a, x = .ok a → f a ≠ .error .outOfFuel) :
    (x >>= f) ≠ .error .outOfFuel := by
  cases x with
  | error e =>
    simp only [bind, Except.bind]
    intro h
    apply hx
    rw [Except.error.injEq] at h ⊢
    exact h
  | ok a =>
    simp only [bind, Except.bind]
    exact hf a rfl

theorem decodeByte_ne_fuel (buf : List Nat) : decodeByte buf ≠ .error .outOfFuel := by
  cases buf <;> simp [decodeByte]

theorem decodeWord_ne_fuel (buf : List Nat) : decodeWord buf ≠ .error .outOfFuel := by
  rcases buf with _ | ⟨a, _ | ⟨b, r⟩⟩ <;> simp [decodeWord]

theorem decodeByte_length {buf : List Nat} {r : Nat × List Nat} (h : decodeByte buf = .ok r) :
    r.2.length + 1 = buf.length := by
  cases buf with
  | nil => simp [decodeByte] at h
  | cons b rest =>
    simp only [decodeByte, Except.ok.injEq] at h
    subst h
    simp

theorem decodeWord_length {buf : List Nat} {r : Nat × List Nat} (h : decodeWord buf = .ok r) :
    r.2.length + 2 = buf.length := by
  rcases buf with _ | ⟨a, _ | ⟨b, rest⟩⟩
  · simp [decodeWord] at h
  · simp [decodeWord] at h
  · simp only [decodeWord, Except.ok.injEq] at h
    subst h
    simp

theorem deref_ne_fuel {α : Type} (o : Option α) : deref o ≠ .error .outOfFuel := by
  cases o <;> simp [deref]

theorem poolAt_ne_fuel (cf : classFile) (i : Nat) : poolAt cf i ≠ .error .outOfFuel := by
  unfold poolAt
  split <;> simp

theorem getString_ne_fuel (cf : classFile) (i : Nat) :
    getString cf i ≠ .error .outOfFuel := by
  unfold getString
  refine bind_ne_fuel (poolAt_ne_fuel cf i) (fun cp _ => ?_)
  refine bind_ne_fuel (deref_ne_fuel cp) (fun c _ => ?_)
  cases c <;> simp [pure, Except.pure]

theorem getClassName_ne_fuel (cf : classFile) (i : Nat) :
    getClassName cf i ≠ .error .outOfFuel := by
  unfold getClassName
  refine bind_ne_fuel (poolAt_ne_fuel cf i) (fun cp _ => ?_)
  rcases cp with _ | ⟨ni⟩ | ⟨str⟩
  · simp [pure, Except.pure]
  · exact getString_ne_fuel cf ni
  · simp only
    split_ifs <;> simp [pure, Except.pure]

theorem scanPairs_shrinks {sev : List Nat → List CStr → Except Fault ScanState}
    (hsev : ∀ b d s, sev b d = .ok s → s.1.length ≤ b.length) :
    ∀ n b d s, scanPairs sev n b d = .ok s → s.1.length ≤ b.length := by
  intro n
  induction n with
  | zero =>
    intro b d s h
    simp only [scanPairs, Except.ok.injEq] at h
    subst h; exact Nat.le_refl _
  | succ n ih =>
    intro b d s h
    simp only [scanPairs, bind_ok_iff] at h
    obtain ⟨r, hr, s1, hs1, h⟩ := h
    have h1 := decodeWord_length hr
    have h2 := hsev _ _ _ hs1
    have h3 := ih _ _ _ h
    omega

theorem scanValues_shrinks {sev : List Nat → List CStr → Except Fault ScanState}
    (hsev : ∀ b d s, sev b d = .ok s → s.1.length ≤ b.length) :
    ∀ n b d s, scanValues sev n b d = .ok s → s.1.length ≤ b.length := by
  intro n
  induction n with
  | zero =>
    intro b d s h
    simp only [scanValues, Except.ok.injEq] at h
    subst h; exact Nat.le_refl _
  | succ n ih =>
    intro b d s h
    simp only [scanValues, bind_ok_iff] at h
    obtain ⟨s1, hs1, h⟩ := h
    have h2 := hsev _ _ _ hs1
    have h3 := ih _ _ _ h
    omega

theorem scanAnnotation_shrinks {sev : List Nat → List CStr → Except Fault ScanState}
    (hsev : ∀ b d s, sev b d = .ok s → s.1.length ≤ b.length) (g : Globals)
    (cf : classFile) :
    ∀ b d s, scanAnnotation sev g cf b d = .ok s → s.1.length ≤ b.length := by
  intro b d s h
  simp only [ scanAnnotation, bind_ok_iff] at h
  obtain ⟨t, ht, name?, -, name, -, n, hn, h⟩ := h
  have h1 := decodeWord_length ht
  have h2 := decodeWord_length hn
  have h3 := scanPairs_shrinks hsev _ _ _ _ h
  omega

theorem scanElementValue_shrinks (g : Globals) (cf : classFile) :
    ∀ fuel b d s, scanElementValue g cf fuel b d = .ok s → s.1.length ≤ b.length := by
  intro fuel
  induction fuel with
  | zero => intro b d s h; simp [scanElementValue] at h
  | succ fuel ih =>
    intro b d s h
    simp only [scanElementValue, bind_ok_iff] at h
    obtain ⟨t, ht, h⟩ := h
    have h0 := decodeByte_length ht
    split_ifs at h with h1 h2 h3 h4 h5 h6
    · simp only [bind_ok_iff, pure_ok_iff] at h
      obtain ⟨r, hr, rfl⟩ := h
      have := decodeWord_length hr
      simp only; omega
    · simp only [bind_ok_iff, pure_ok_iff] at h
      obtain ⟨r, hr, rfl⟩ := h
      have := decodeWord_length hr
      simp only; omega
    · simp only [bind_ok_iff, pure_ok_iff] at h
      obtain ⟨r, hr, rfl⟩ := h
      have := decodeWord_length hr
      simp only; omega
    · simp only [bind_ok_iff] at h
      obtain ⟨r, hr, name?, -, c, hc, name, -, h⟩ := h
      have := decodeWord_length hr
      have := decodeWord_length hc
      split_ifs at h with hi
      · rw [pure_ok_iff] at h; subst h; simp only; omega
      · rw [pure_ok_iff] at h; subst h; simp only; omega
    · have := scanAnnotation_shrinks ih g cf _ _ _ h
      omega
    · simp only [bind_ok_iff] at h
      obtain ⟨r, hr, h⟩ := h
      have := decodeWord_length hr
      have := scanValues_shrinks ih _ _ _ _ h
      omega
    · rw [pure_ok_iff] at h; subst h; simp only; omega

theorem scanPairs_ne_fuel {sev : List Nat → List CStr → Except Fault ScanState} (B : Nat)
    (hshr : ∀ b d s, sev b d = .ok s → s.1.length ≤ b.length)
    (hsev : ∀ b d, b.length ≤ B → sev b d ≠ .error .outOfFuel) :
    ∀ n b d, b.length ≤ B → scanPairs sev n b d ≠ .error .outOfFuel := by
  intro n
  induction n with
  | zero => intro b d _; simp [scanPairs]
  | succ n ih =>
    intro b d hb
    simp only [scanPairs]
    refine bind_ne_fuel (decodeWord_ne_fuel b) (fun r hr => ?_)
    have h1 := decodeWord_length hr
    refine bind_ne_fuel (hsev _ _ (by omega)) (fun s hs => ?_)
    have h2 := hshr _ _ _ hs
    exact ih _ _ (by omega)

theorem scanValues_ne_fuel {sev : List Nat → List CStr → Except Fault ScanState} (B : Nat)
    (hshr : ∀ b d s, sev b d = .ok s → s.1.length ≤ b.length)
    (hsev : ∀ b d, b.length ≤ B → sev b d ≠ .error .outOfFuel) :
    ∀ n b d, b.length ≤ B → scanValues sev n b d ≠ .error .outOfFuel := by
  intro n
  induction n with
  | zero => intro b d _; simp [scanValues]
  | succ n ih =>
    intro b d hb
    simp only [scanValues]
    refine bind_ne_fuel (hsev _ _ hb) (fun s hs => ?_)
    have h2 := hshr _ _ _ hs
    exact ih _ _ (by omega)

theorem scanAnnotation_ne_fuel {sev : List Nat → List CStr → Except Fault ScanState}
    (B : Nat) (hshr : ∀ b d s, sev b d = .ok s → s.1.length ≤ b.length)
    (hsev : ∀ b d, b.length ≤ B → sev b d ≠ .error .outOfFuel) (g : Globals)
    (cf : classFile) :
    ∀ b d, b.length ≤ B → scanAnnotation sev g cf b d ≠ .error .outOfFuel := by
  intro b d hb
  simp only [ scanAnnotation]
  refine bind_ne_fuel (decodeWord_ne_fuel b) (fun t ht => ?_)
  have h1 := decodeWord_length ht
  refine bind_ne_fuel (getClassName_ne_fuel cf _) (fun name? _ => ?_)
  refine bind_ne_fuel (deref_ne_fuel _) (fun name _ => ?_)
  refine bind_ne_fuel (decodeWord_ne_fuel _) (fun n hn => ?_)
  have h2 := decodeWord_length hn
  exact scanPairs_ne_fuel B hshr hsev _ _ _ (by omega)

theorem scanElementValue_ne_fuel (g : Globals) (cf : classFile) :
    ∀ fuel b d, b.length < fuel → scanElementValue g cf fuel b d ≠ .error .outOfFuel := by
  intro fuel
  induction fuel with
  | zero => intro b d h; omega
  | succ fuel ih =>
    intro b d hb
    simp only [scanElementValue]
    refine bind_ne_fuel (decodeByte_ne_fuel b) (fun t ht => ?_)
    have h0 := decodeByte_length ht
    split_ifs with h1 h2 h3 h4 h5 h6
    · refine bind_ne_fuel (decodeWord_ne_fuel _) (fun r _ => ?_)
      simp [pure, Except.pure]
    · refine bind_ne_fuel (decodeWord_ne_fuel _) (fun r _ => ?_)
      simp [pure, Except.pure]
    · refine bind_ne_fuel (decodeWord_ne_fuel _) (fun r _ => ?_)
      simp [pure, Except.pure]
    · refine bind_ne_fuel (decodeWord_ne_fuel _) (fun r _ => ?_)
      refine bind_ne_fuel (getClassName_ne_fuel cf _) (fun name? _ => ?_)
      refine bind_ne_fuel (decodeWord_ne_fuel _) (fun c _ => ?_)
      refine bind_ne_fuel (deref_ne_fuel _) (fun name _ => ?_)
      split_ifs <;> simp [pure, Except.pure]
    · cases fuel with
      | zero => omega
      | succ f =>
        exact scanAnnotation_ne_fuel f (scanElementValue_shrinks g cf _)
          (fun b' d' hb' => ih b' d' (by omega)) g cf _ _ (by omega)
    · refine bind_ne_fuel (decodeWord_ne_fuel _) (fun r hr => ?_)
      have h7 := decodeWord_length hr
      cases fuel with
      | zero => omega
      | succ f =>
        exact scanValues_ne_fuel f (scanElementValue_shrinks g cf _)
          (fun b' d' hb' => ih b' d' (by omega)) _ _ _ (by omega)
    · simp [pure, Except.pure]

theorem scanAnnotations_ne_fuel {sev : List Nat → List CStr → Except Fault ScanState}
    (B : Nat) (hshr : ∀ b d s, sev b d = .ok s → s.1.length ≤ b.length)
    (hsev : ∀ b d, b.length ≤ B → sev b d ≠ .error .outOfFuel) (g : Globals)
    (cf : classFile) :
    ∀ n b d, b.length ≤ B → scanAnnotations sev g cf n b d ≠ .error .outOfFuel := by
  intro n
  induction n with
  | zero => intro b d _; simp [scanAnnotations]
  | succ n ih =>
    intro b d hb
    simp only [scanAnnotations]
    refine bind_ne_fuel ( scanAnnotation_ne_fuel B hshr hsev g cf _ _ hb) (fun s hs => ?_)
    have := scanAnnotation_shrinks hshr g cf _ _ _ hs
    exact ih _ _ (by omega)

theorem scanAttribute_ne_fuel (g : Globals) (cf : classFile) (att : attribute_info)
    (deps : List CStr) : scanAttribute g cf att deps ≠ .error .outOfFuel := by
  simp only [scanAttribute]
  refine bind_ne_fuel (getString_ne_fuel cf _) (fun name? _ => ?_)
  refine bind_ne_fuel (deref_ne_fuel _) (fun name _ => ?_)
  split_ifs
  · refine bind_ne_fuel (decodeWord_ne_fuel _) (fun n hn => ?_)
    have h1 := decodeWord_length hn
    refine bind_ne_fuel ?_ (fun s _ => by simp [pure, Except.pure])
    cases hl : att.info.length with
    | zero => omega
    | succ f =>
      exact scanAnnotations_ne_fuel f (scanElementValue_shrinks g cf _)
        (fun b' d' hb' => scanElementValue_ne_fuel g cf _ b' d' (by omega)) g cf _ _ _
        (by omega)
  · simp [pure, Except.pure]

theorem scanAttributes_ne_fuel (g : Globals) (cf : classFile) :
    ∀ (atts : List attribute_info) (deps : List CStr),
      scanAttributes g cf atts deps ≠ .error .outOfFuel := by
  intro atts
  induction atts with
  | nil => intro deps; simp [scanAttributes]
  | cons att rest ih =>
    intro deps
    simp only [scanAttributes]
    exact bind_ne_fuel (scanAttribute_ne_fuel g cf att deps) (fun d _ => ih d)

/-! ## The round bound of the pool loop is never reached -/

theorem readConstantPoolInfo_ne_fuel (h : Host) (fyle : FILE) (filename : CStr) :
    readConstantPoolInfo h fyle filename ≠ .error .outOfFuel := by
  unfold readConstantPoolInfo
  generalize readByte fyle = t
  obtain ⟨tag, f2⟩ := t
  simp only
  by_cases h1 : tag = CONSTANT_Class
  · simp [h1]
  by_cases h2 : tag = CONSTANT_Fieldref
  · simp [h2]
  by_cases h3 : tag = CONSTANT_Methodref
  · simp [h3]
  by_cases h4 : tag = CONSTANT_InterfaceMethodref
  · simp [h4]
  by_cases h5 : tag = CONSTANT_String
  · simp [h5]
  by_cases h6 : tag = CONSTANT_Integer
  · simp [h6]
  by_cases h7 : tag = CONSTANT_Float
  · simp [h7]
  by_cases h8 : tag = CONSTANT_Long
  · simp [h8]
  by_cases h9 : tag = CONSTANT_Double
  · simp [h9]
  by_cases h10 : tag = CONSTANT_NameAndType
  · simp [h10]
  by_cases h11 : tag = CONSTANT_Utf8
  · simp [h11]
  simp [h1, h2, h3, h4, h5, h6, h7, h8, h9, h10, h11]

theorem store_ne_fuel {α : Type} (a : List α) (i : Nat) (v : α) :
    store a i v ≠ .error .outOfFuel := by
  unfold store
  split_ifs <;> simp

theorem readConstantPoolLoop_ne_fuel (h : Host) (filename : CStr) (count : Nat) :
    ∀ (k i : Nat) (fyle : FILE) (res : List (Option cp_info)), count ≤ i + k →
      readConstantPoolLoop h filename count k i fyle res ≠ .error .outOfFuel := by
  intro k
  induction k with
  | zero =>
    intro i fyle res hle
    have : ¬ i < count := by omega
    simp [readConstantPoolLoop, this]
  | succ k ih =>
    intro i fyle res hle
    simp only [readConstantPoolLoop]
    split_ifs with hi
    · refine bind_ne_fuel (readConstantPoolInfo_ne_fuel h fyle filename) (fun r _ => ?_)
      cases r.1 with
      | LONG_TAG =>
        refine bind_ne_fuel (store_ne_fuel _ _ _) (fun r1 _ => ?_)
        refine bind_ne_fuel (store_ne_fuel _ _ _) (fun r2 _ => ?_)
        exact ih _ _ _ (by omega)
      | null =>
        refine bind_ne_fuel (store_ne_fuel _ _ _) (fun r1 _ => ?_)
        exact ih _ _ _ (by omega)
      | obj cp =>
        refine bind_ne_fuel (store_ne_fuel _ _ _) (fun r1 _ => ?_)
        exact ih _ _ _ (by omega)
    · simp

theorem readConstantPool_ne_fuel (h : Host) (fyle : FILE) (filename : CStr) (count : Nat) :
    readConstantPool h fyle filename count ≠ .error .outOfFuel := by
  simp only [readConstantPool]
  refine bind_ne_fuel (store_ne_fuel _ _ _) (fun r _ => ?_)
  exact readConstantPoolLoop_ne_fuel h filename count _ _ _ _ (by omega)

theorem readAttributeInfo_ne_fuel (h : Host) (fyle : FILE) (atts : List attribute_info) :
    readAttributeInfo h fyle atts ≠ .error .outOfFuel := by
  unfold readAttributeInfo
  simp only
  split_ifs <;> simp

theorem readAttributes_ne_fuel (h : Host) :
    ∀ (n : Nat) (fyle : FILE) (atts : List attribute_info),
      readAttributes h fyle n atts ≠ .error .outOfFuel := by
  intro n
  induction n with
  | zero => intro fyle atts; simp [readAttributes]
  | succ n ih =>
    intro fyle atts
    simp only [readAttributes]
    exact bind_ne_fuel (readAttributeInfo_ne_fuel h fyle atts) (fun r _ => ih _ _)

theorem readFields_ne_fuel (h : Host) :
    ∀ (n : Nat) (fyle : FILE) (atts : List attribute_info),
      readFields h fyle n atts ≠ .error .outOfFuel := by
  intro n
  induction n with
  | zero => intro fyle atts; simp [readFields]
  | succ n ih =>
    intro fyle atts
    simp only [readFields, readFieldInfo]
    exact bind_ne_fuel (readAttributes_ne_fuel h _ _ _) (fun r _ => ih _ _)

theorem readMethods_ne_fuel (h : Host) :
    ∀ (n : Nat) (fyle : FILE) (atts : List attribute_info),
      readMethods h fyle n atts ≠ .error .outOfFuel := by
  intro n
  induction n with
  | zero => intro fyle atts; simp [readMethods]
  | succ n ih =>
    intro fyle atts
    simp only [readMethods, readMethodInfo]
    exact bind_ne_fuel (readAttributes_ne_fuel h _ _ _) (fun r _ => ih _ _)

theorem readClassFile_ne_fuel (h : Host) (fyle : FILE) (filename : CStr) :
    readClassFile h fyle filename ≠ .error .outOfFuel := by
  simp only [readClassFile]
  refine bind_ne_fuel (readConstantPool_ne_fuel h _ _ _) (fun p _ => ?_)
  refine bind_ne_fuel (readFields_ne_fuel h _ _ _) (fun a _ => ?_)
  refine bind_ne_fuel (readMethods_ne_fuel h _ _ _) (fun b _ => ?_)
  refine bind_ne_fuel (readAttributes_ne_fuel h _ _ _) (fun c _ => ?_)
  simp [pure, Except.pure]

/-! ## The recursion through nested classes is bounded -/

theorem scanPoolSlot_dichotomy (g : Globals) (target : CStr) (cf : classFile) (i : Nat)
    (deps : List CStr) :
    (∃ r : Except Fault (List CStr), r ≠ .error .outOfFuel ∧
      ∀ findDeps, scanPoolSlot findDeps g target cf i deps = r) ∨
    (∃ N, N ∉ deps ∧ isIncludedClass g N = true ∧
      ∀ findDeps, scanPoolSlot findDeps g target cf i deps = findDeps N (deps ++ [N])) := by
  unfold scanPoolSlot
  cases hp : poolAt cf i with
  | error e =>
    left
    have he : e ≠ .outOfFuel := fun h => poolAt_ne_fuel cf i (by rw [hp, h])
    exact ⟨.error e, by simpa using he, fun _ => rfl⟩
  | ok cp =>
    rcases cp with _ | ⟨ni⟩ | ⟨str⟩
    · left; exact ⟨.ok deps, by simp, fun _ => rfl⟩
    · simp only [bind, Except.bind]
      cases hn : getClassName cf i with
      | error e =>
        left
        have he : e ≠ .outOfFuel := fun h => getClassName_ne_fuel cf i (by rw [hn, h])
        exact ⟨.error e, by simpa using he, fun _ => rfl⟩
      | ok name? =>
        cases name? with
        | none => left; exact ⟨.error .nullDereference, by simp, fun _ => rfl⟩
        | some name =>
          simp only [deref]
          by_cases hi : isIncludedClass g name = true
          · simp only [hi, if_true]
            by_cases ha : name.head? ≠ some '['.toNat
            · simp only [if_pos ha]
              cases hx : index name '$'.toNat with
              | none => left; exact ⟨.ok (addDep name deps), by simp, fun _ => rfl⟩
              | some dollar =>
                simp only
                by_cases hs : strncmpEq name target dollar = true
                · simp only [hs, if_true]
                  by_cases hl : deps.length ≠ (addDep name deps).length
                  · right
                    have hm := addDep_length_ne.1 hl
                    refine ⟨name, hm, hi, fun _ => ?_⟩
                    rw [if_pos hl, addDep_of_not_mem hm]
                  · left
                    exact ⟨.ok (addDep name deps), by simp, fun _ => by rw [if_neg hl]; rfl⟩
                · left
                  refine ⟨.ok (addDep (name.take dollar) deps), by simp, fun _ => ?_⟩
                  rw [if_neg hs]; rfl
            · left
              exact ⟨.ok deps, by simp, fun _ => by rw [if_neg ha]; rfl⟩
          · left
            exact ⟨.ok deps, by simp, fun _ => by rw [if_neg hi]; rfl⟩
    · left; exact ⟨.ok deps, by simp, fun _ => rfl⟩

theorem filter_length_mono {l : List (CStr × List Nat)} {d d' : List CStr}
    (h : ∀ x ∈ d, x ∈ d') :
    (l.filter (fun e => decide (e.1 ∉ d'))).length ≤
      (l.filter (fun e => decide (e.1 ∉ d))).length := by
  induction l with
  | nil => simp
  | cons e l ih =>
    by_cases h1 : e.1 ∈ d
    · have h2 : e.1 ∈ d' := h _ h1
      rw [List.filter_cons_of_neg (by simpa using h2),
        List.filter_cons_of_neg (by simpa using h1)]
      exact ih
    · by_cases h2 : e.1 ∈ d'
      · rw [List.filter_cons_of_neg (by simpa using h2),
          List.filter_cons_of_pos (by simpa using h1), List.length_cons]
        omega
      · rw [List.filter_cons_of_pos (by simpa using h2),
          List.filter_cons_of_pos (by simpa using h1), List.length_cons, List.length_cons]
        omega

theorem filter_length_lt {l : List (CStr × List Nat)} {d : List CStr} {N : CStr}
    (hN : N ∉ d) (hl : ∃ e ∈ l, e.1 = N) :
    (l.filter (fun e => decide (e.1 ∉ d ++ [N]))).length <
      (l.filter (fun e => decide (e.1 ∉ d))).length := by
  induction l with
  | nil =>
    obtain ⟨e, he, _⟩ := hl
    exact absurd he (List.not_mem_nil _)
  | cons e l ih =>
    have hmono : (l.filter (fun e => decide (e.1 ∉ d ++ [N]))).length ≤
        (l.filter (fun e => decide (e.1 ∉ d))).length :=
      filter_length_mono (fun x hx => List.mem_append_left _ hx)
    by_cases he : e.1 = N
    · have h1 : e.1 ∉ d := he ▸ hN
      have h2 : e.1 ∈ d ++ [N] := by simp [he]
      rw [List.filter_cons_of_neg (by simp only [decide_eq_true_eq]; exact not_not.2 h2),
        List.filter_cons_of_pos (by simpa using h1), List.length_cons]
      omega
    · have hl' : ∃ e' ∈ l, e'.1 = N := by
        obtain ⟨e', he', hk⟩ := hl
        rcases List.mem_cons.1 he' with rfl | h
        · exact absurd hk he
        · exact ⟨e', h, hk⟩
      have := ih hl'
      by_cases h1 : e.1 ∈ d
      · have h2 : e.1 ∈ d ++ [N] := List.mem_append_left _ h1
        rw [List.filter_cons_of_neg (by simp only [decide_eq_true_eq]; exact not_not.2 h2),
          List.filter_cons_of_neg (by simpa using h1)]
        exact this
      · have h2 : e.1 ∉ d ++ [N] := by simp [h1, he]
        rw [List.filter_cons_of_pos (by simp only [decide_eq_true_eq]; exact h2),
          List.filter_cons_of_pos (by simpa using h1), List.length_cons, List.length_cons]
        omega

theorem lookup_some_mem {l : List (CStr × List Nat)} {N : CStr} {v : List Nat}
    (h : l.lookup N = some v) : ∃ e ∈ l, e.1 = N := by
  induction l with
  | nil => simp at h
  | cons e l ih =>
    obtain ⟨k, w⟩ := e
    by_cases hk : N = k
    · exact ⟨(k, w), List.mem_cons_self _ _, hk.symm⟩
    · have hb : (N == k) = false := by simpa using hk
      rw [List.lookup_cons, hb] at h
      obtain ⟨e', he', h'⟩ := ih h
      exact ⟨e', List.mem_cons_of_mem _ he', h'⟩

theorem unvisited_mono (env : Env) {d d' : List CStr} (h : ∀ x ∈ d, x ∈ d') :
    unvisited env d' ≤ unvisited env d :=
  filter_length_mono h

theorem unvisited_lt (env : Env) {d : List CStr} {N : CStr} {f : FILE} (hN : N ∉ d)
    (hf : fopen env N = some f) : unvisited env (d ++ [N]) < unvisited env d := by
  unfold fopen at hf
  cases hl : env.classFiles.lookup N with
  | none => simp [hl] at hf
  | some v => exact filter_length_lt hN (lookup_some_mem hl)

theorem unvisited_le (env : Env) (d : List CStr) : unvisited env d ≤ env.classFiles.length :=
  List.length_filter_le _ _

theorem findDeps_notFound (env : Env) {N : CStr} (h : fopen env N = none) :
    ∀ fuel d, findDeps env fuel N d = .error (.classNotFound N) := by
  intro fuel d
  cases fuel <;> simp [findDeps, h]

theorem scanPoolSlot_superset {findDeps : CStr → List CStr → Except Fault (List CStr)}
    (hmono : ∀ N d d', findDeps N d = .ok d' → ∀ x ∈ d, x ∈ d')
    (g : Globals) (target : CStr) (cf : classFile) (i : Nat) (d d' : List CStr)
    (h : scanPoolSlot findDeps g target cf i d = .ok d') : ∀ x ∈ d, x ∈ d' :=
  scanPoolSlot_kept (kept_superset g d) (fun N a b hab ha x hx => hmono N a b hab x (ha x hx))
    target cf i d d' h (fun _ hx => hx)

theorem findDeps_superset (env : Env) (fuel : Nat) (N : CStr) (d d' : List CStr)
    (h : findDeps env fuel N d = .ok d') : ∀ x ∈ d, x ∈ d' :=
  findDeps_kept env (kept_superset env.globals d) fuel N d d' h (fun _ hx => hx)

theorem scanPool_ne_fuel (env : Env) (B : Nat)
    {findDeps : CStr → List CStr → Except Fault (List CStr)}
    (hmono : ∀ N d d', findDeps N d = .ok d' → ∀ x ∈ d, x ∈ d')
    (hrec : ∀ N d, N ∉ d → unvisited env d ≤ B → findDeps N (d ++ [N]) ≠ .error .outOfFuel)
    (g : Globals) (target : CStr) (cf : classFile) :
    ∀ n i deps, unvisited env deps ≤ B →
      scanPool findDeps g target cf n i deps ≠ .error .outOfFuel := by
  intro n
  induction n with
  | zero => intro i deps _; simp [scanPool]
  | succ n ih =>
    intro i deps hB
    simp only [scanPool]
    refine bind_ne_fuel ?_ (fun d hd => ?_)
    · rcases scanPoolSlot_dichotomy g target cf i deps with ⟨r, hr, heq⟩ | ⟨N, hN, -, heq⟩
      · rw [heq]; exact hr
      · rw [heq]; exact hrec N deps hN hB
    · have hsup := scanPoolSlot_superset hmono g target cf i deps d hd
      exact ih _ _ (Nat.le_trans (unvisited_mono env hsup) hB)

theorem findDeps_ne_fuel (env : Env) :
    ∀ fuel name deps, unvisited env deps < fuel →
      findDeps env fuel name deps ≠ .error .outOfFuel := by
  intro fuel
  induction fuel with
  | zero => intro name deps h; omega
  | succ fuel ih =>
    intro name deps hlt
    cases hf : fopen env name with
    | none => rw [findDeps_notFound env hf]; simp
    | some infyle =>
      simp only [findDeps, hf]
      refine bind_ne_fuel (readClassFile_ne_fuel _ _ _) (fun cf _ => ?_)
      simp only [findDepsInFile]
      refine bind_ne_fuel ?_ (fun d _ => scanAttributes_ne_fuel _ _ _ _)
      refine scanPool_ne_fuel env fuel (findDeps_superset env fuel) ?_ _ _ _ _ _ _ (by omega)
      intro N d hN hB
      cases hN' : fopen env N with
      | none => rw [findDeps_notFound env hN']; simp
      | some f =>
        have := unvisited_lt env hN hN'
        exact ih _ _ (by omega)

/-! ## A larger bound does not change the result -/

theorem scanPool_congr {f1 f2 : CStr → List CStr → Except Fault (List CStr)}
    (hf : ∀ N d, f1 N d ≠ .error .outOfFuel → f2 N d = f1 N d)
    (g : Globals) (target : CStr) (cf : classFile) :
    ∀ n i deps, scanPool f1 g target cf n i deps ≠ .error .outOfFuel →
      scanPool f2 g target cf n i deps = scanPool f1 g target cf n i deps := by
  intro n
  induction n with
  | zero => intro i deps _; rfl
  | succ n ih =>
    intro i deps h
    simp only [scanPool] at h ⊢
    have hslot : scanPoolSlot f1 g target cf i deps ≠ .error .outOfFuel := by
      intro hc
      rw [hc] at h
      exact h rfl
    have heq : scanPoolSlot f2 g target cf i deps = scanPoolSlot f1 g target cf i deps := by
      rcases scanPoolSlot_dichotomy g target cf i deps with ⟨r, -, hr⟩ | ⟨N, -, -, hr⟩
      · rw [hr, hr]
      · rw [hr] at hslot
        rw [hr, hr, hf N _ hslot]
    rw [heq]
    cases hs : scanPoolSlot f1 g target cf i deps with
    | error e => rfl
    | ok d =>
      rw [hs] at h
      simp only [bind, Except.bind] at h ⊢
      exact ih _ _ h

theorem findDeps_succ (env : Env) :
    ∀ fuel name deps, findDeps env fuel name deps ≠ .error .outOfFuel →
      findDeps env (fuel + 1) name deps = findDeps env fuel name deps := by
  intro fuel
  induction fuel with
  | zero =>
    intro name deps h
    cases hf : fopen env name with
    | none => rw [findDeps_notFound env hf, findDeps_notFound env hf]
    | some infyle => simp [findDeps, hf] at h
  | succ fuel ih =>
    intro name deps h
    cases hf : fopen env name with
    | none => rw [findDeps_notFound env hf, findDeps_notFound env hf]
    | some infyle =>
      rw [findDeps] at h ⊢
      rw [findDeps]
      simp only [hf] at h ⊢
      cases hc : readClassFile env.host infyle (infilename env.ClassRoot name) with
      | error e => rfl
      | ok cf =>
        rw [hc] at h
        simp only [bind, Except.bind, findDepsInFile] at h ⊢
        have hp : scanPool (findDeps env fuel) env.globals name cf cf.constant_pool_count 0 deps
            ≠ .error .outOfFuel := by
          intro hcontra
          rw [hcontra] at h
          exact h rfl
        rw [scanPool_congr ih _ _ _ _ _ _ hp]

theorem findDeps_add (env : Env) (fuel : Nat) (name : CStr) (deps : List CStr)
    (h : findDeps env fuel name deps ≠ .error .outOfFuel) :
    ∀ k, findDeps env (fuel + k) name deps = findDeps env fuel name deps := by
  intro k
  induction k with
  | zero => rfl
  | succ k ih =>
    rw [← Nat.add_assoc, findDeps_succ env _ _ _ (by rw [ih]; exact h), ih]

/-! ## The recorded extraction -/

theorem scanPoolSlotLogged_dichotomy (g : Globals) (target : CStr) (cf : classFile)
    (i : Nat) (deps : List CStr) :
    (∃ r : Except Fault (List CStr),
      (∀ findDeps, scanPoolSlot findDeps g target cf i deps = r) ∧
      ∀ findDeps log, scanPoolSlotLogged findDeps g target cf i (deps, log) =
        r.map (fun d => (d, log))) ∨
    (∃ N, N ∉ deps ∧
      (∀ findDeps, scanPoolSlot findDeps g target cf i deps = findDeps N (deps ++ [N])) ∧
      ∀ findDeps log, scanPoolSlotLogged findDeps g target cf i (deps, log) =
        findDeps N (deps ++ [N], log)) := by
  unfold scanPoolSlot scanPoolSlotLogged
  cases hp : poolAt cf i with
  | error e => left; exact ⟨.error e, fun _ => rfl, fun _ _ => rfl⟩
  | ok cp =>
    rcases cp with _ | ⟨ni⟩ | ⟨str⟩
    · left; exact ⟨.ok deps, fun _ => rfl, fun _ _ => rfl⟩
    · simp only [bind, Except.bind]
      cases hn : getClassName cf i with
      | error e => left; exact ⟨.error e, fun _ => rfl, fun _ _ => rfl⟩
      | ok name? =>
        cases name? with
        | none => left; exact ⟨.error .nullDereference, fun _ => rfl, fun _ _ => rfl⟩
        | some name =>
          simp only [deref]
          by_cases hi : isIncludedClass g name = true
          · simp only [hi, if_true]
            by_cases ha : name.head? ≠ some '['.toNat
            · simp only [if_pos ha]
              cases hx : index name '$'.toNat with
              | none => left; exact ⟨.ok (addDep name deps), fun _ => rfl, fun _ _ => rfl⟩
              | some dollar =>
                simp only
                by_cases hs : strncmpEq name target dollar = true
                · simp only [hs, if_true]
                  by_cases hl : deps.length ≠ (addDep name deps).length
                  · right
                    have hm := addDep_length_ne.1 hl
                    refine ⟨name, hm, fun _ => ?_, fun _ _ => ?_⟩
                    · rw [if_pos hl, addDep_of_not_mem hm]
                    · rw [if_pos hl, addDep_of_not_mem hm]
                  · left
                    exact ⟨.ok (addDep name deps), fun _ => by rw [if_neg hl]; rfl,
                      fun _ _ => by rw [if_neg hl]; rfl⟩
                · left
                  exact ⟨.ok (addDep (name.take dollar) deps),
                    fun _ => by rw [if_neg hs]; rfl, fun _ _ => by rw [if_neg hs]; rfl⟩
            · left
              exact ⟨.ok deps, fun _ => by rw [if_neg ha]; rfl,
                fun _ _ => by rw [if_neg ha]; rfl⟩
          · left
            exact ⟨.ok deps, fun _ => by rw [if_neg hi]; rfl,
              fun _ _ => by rw [if_neg hi]; rfl⟩
    · left; exact ⟨.ok deps, fun _ => rfl, fun _ _ => rfl⟩

theorem scanPoolLogged_erase {f : CStr → List CStr → Except Fault (List CStr)}
    {fL : CStr → Logged → Except Fault Logged}
    (hf : ∀ N d l, (fL N (d, l)).map Prod.fst = f N d)
    (g : Globals) (target : CStr) (cf : classFile) :
    ∀ n i d l, (scanPoolLogged fL g target cf n i (d, l)).map Prod.fst =
      scanPool f g target cf n i d := by
  intro n
  induction n with
  | zero => intro i d l; rfl
  | succ n ih =>
    intro i d l
    simp only [scanPoolLogged, scanPool]
    rcases scanPoolSlotLogged_dichotomy g target cf i d with ⟨r, h1, h2⟩ | ⟨N, -, h1, h2⟩
    · rw [h1, h2]
      cases r with
      | error e => rfl
      | ok d1 =>
        simp only [Except.map, bind, Except.bind]
        exact ih _ _ _
    · rw [h1, h2, ← hf N _ l]
      cases hr : fL N (d ++ [N], l) with
      | error e => rfl
      | ok st =>
        obtain ⟨d1, l1⟩ := st
        simp only [Except.map, bind, Except.bind]
        exact ih _ _ _

theorem findDepsLogged_erase (env : Env) :
    ∀ fuel name d l, (findDepsLogged env fuel name (d, l)).map Prod.fst =
      findDeps env fuel name d := by
  intro fuel
  induction fuel with
  | zero =>
    intro name d l
    simp only [findDepsLogged, findDeps]
    cases fopen env name <;> rfl
  | succ fuel ih =>
    intro name d l
    simp only [findDepsLogged, findDeps]
    cases fopen env name with
    | none => rfl
    | some infyle =>
      simp only
      cases readClassFile env.host infyle (infilename env.ClassRoot name) with
      | error e => rfl
      | ok cf =>
        simp only [bind, Except.bind, findDepsInFileLogged, findDepsInFile]
        rw [← scanPoolLogged_erase ih env.globals name cf cf.constant_pool_count 0 d
          (l ++ [name])]
        cases scanPoolLogged (findDepsLogged env fuel) env.globals name cf
            cf.constant_pool_count 0 (d, l ++ [name]) with
        | error e => rfl
        | ok st =>
          simp only [Except.map]
          cases scanAttributes env.globals cf cf.attributes st.1 <;> rfl

theorem LogStep.refl (d l : List CStr) : LogStep d l d l :=
  ⟨[], by simp, List.nodup_nil, fun _ h => absurd h (List.not_mem_nil _), fun _ h => h⟩

theorem LogStep.trans {d0 l0 d1 l1 d2 l2 : List CStr} (h1 : LogStep d0 l0 d1 l1)
    (h2 : LogStep d1 l1 d2 l2) : LogStep d0 l0 d2 l2 := by
  obtain ⟨r1, e1, n1, m1, s1⟩ := h1
  obtain ⟨r2, e2, n2, m2, s2⟩ := h2
  refine ⟨r1 ++ r2, by rw [e2, e1, List.append_assoc], ?_, ?_, fun x hx => s2 x (s1 x hx)⟩
  · rw [List.nodup_append]
    refine ⟨n1, n2, ?_⟩
    intro x hx1 hx2
    exact (m2 x hx2).1 ((m1 x hx1).2)
  · intro x hx
    rcases List.mem_append.1 hx with h | h
    · exact ⟨(m1 x h).1, s2 x (m1 x h).2⟩
    · exact ⟨fun hd => (m2 x h).1 (s1 x hd), (m2 x h).2⟩

theorem LogStep.grow {d l d1 l1 d2 : List CStr} (h : LogStep d l d1 l1)
    (hs : ∀ x ∈ d1, x ∈ d2) : LogStep d l d2 l1 :=
  h.trans ⟨[], by simp, List.nodup_nil, fun _ hx => absurd hx (List.not_mem_nil _), hs⟩

theorem scanPoolLogged_step {fL : CStr → Logged → Except Fault Logged}
    (hrec : ∀ N d l d' l', N ∉ d → fL N (d ++ [N], l) = .ok (d', l') → LogStep d l d' l')
    (g : Globals) (target : CStr) (cf : classFile) :
    ∀ n i d l d' l', scanPoolLogged fL g target cf n i (d, l) = .ok (d', l') →
      LogStep d l d' l' := by
  intro n
  induction n with
  | zero =>
    intro i d l d' l' h
    simp only [scanPoolLogged, Except.ok.injEq, Prod.mk.injEq] at h
    obtain ⟨rfl, rfl⟩ := h
    exact LogStep.refl _ _
  | succ n ih =>
    intro i d l d' l' h
    simp only [scanPoolLogged, bind_ok_iff] at h
    obtain ⟨⟨d1, l1⟩, hslot, hrest⟩ := h
    refine LogStep.trans ?_ (ih _ _ _ _ _ hrest)
    rcases scanPoolSlotLogged_dichotomy g target cf i d with ⟨r, h1, h2⟩ | ⟨N, hN, -, h2⟩
    · rw [h2] at hslot
      cases r with
      | error e => simp [Except.map] at hslot
      | ok d0 =>
        simp only [Except.map, Except.ok.injEq, Prod.mk.injEq] at hslot
        obtain ⟨rfl, rfl⟩ := hslot
        have hsup := @scanPoolSlot_superset
          (fun _ _ => (.error .outOfFuel : Except Fault (List CStr)))
          (fun _ _ _ hc => by simp at hc) g target cf i d d0 (h1 _)
        exact (LogStep.refl d l).grow hsup
    · rw [h2] at hslot
      exact hrec N d l d1 l1 hN hslot

theorem findDepsLogged_step (env : Env) :
    ∀ fuel name d l d' l', findDepsLogged env fuel name (d, l) = .ok (d', l') →
      ∃ rs, l' = l ++ name :: rs ∧ rs.Nodup ∧ (∀ x ∈ rs, x ∉ d ∧ x ∈ d') ∧
        ∀ x ∈ d, x ∈ d' := by
  intro fuel
  induction fuel with
  | zero =>
    intro name d l d' l' h
    simp only [findDepsLogged] at h
    split at h <;> simp at h
  | succ fuel ih =>
    intro name d l d' l' h
    simp only [findDepsLogged] at h
    split at h
    · simp only [bind_ok_iff, findDepsInFileLogged, pure_ok_iff, Prod.mk.injEq] at h
      obtain ⟨cf, -, ⟨d1, l1⟩, hpool, d2, hatt, rfl, rfl⟩ := h
      have hrec : ∀ N d0 l0 d3 l3, N ∉ d0 →
          findDepsLogged env fuel N (d0 ++ [N], l0) = .ok (d3, l3) → LogStep d0 l0 d3 l3 := by
        intro N d0 l0 d3 l3 hN hrun
        obtain ⟨rs, e, nd, m, s⟩ := ih N _ _ _ _ hrun
        refine ⟨N :: rs, e, ?_, ?_, fun x hx => s x (List.mem_append_left _ hx)⟩
        · rw [List.nodup_cons]
          exact ⟨fun hm => (m N hm).1 (by simp), nd⟩
        · intro x hx
          rcases List.mem_cons.1 hx with rfl | hx
          · exact ⟨hN, s x (by simp)⟩
          · exact ⟨fun hd => (m x hx).1 (List.mem_append_left _ hd), (m x hx).2⟩
      have hstep := scanPoolLogged_step hrec env.globals name cf _ _ _ _ _ _ hpool
      have hsup := scanAttributes_kept (kept_superset env.globals d1) cf _ _ _ hatt
        (fun _ hx => hx)
      obtain ⟨rs, e, nd, m, s⟩ := hstep.grow hsup
      exact ⟨rs, by rw [e, List.append_assoc]; rfl, nd, m, s⟩
    · simp at h

/-- C3: `findDeps` terminates.  The depth of its recursion is at most the number of
class files: from that number plus one on, the bound of the embedding is not reached
and the result is the same for every bound.  In the recorded extraction, which returns
the same list, `findDeps` is run first on the target and then only on names that were
not in the list and had just been inserted; these names are pairwise different, so no
class is extracted again more than once, however the nested classes refer to each
other. -/
theorem findDeps_terminates (env : Env) (name : CStr) (deps : List CStr) :
    (∃ r : Except Fault (List CStr), r ≠ .error .outOfFuel ∧
      ∀ fuel, env.classFiles.length < fuel → findDeps env fuel name deps = r) ∧
    (∀ fuel log, (findDepsLogged env fuel name (deps, log)).map Prod.fst =
      findDeps env fuel name deps) ∧
    (∀ fuel log final log', findDepsLogged env fuel name (deps, log) = .ok (final, log') →
      ∃ rs, log' = log ++ name :: rs ∧ rs.Nodup ∧ ∀ x ∈ rs, x ∉ deps ∧ x ∈ final) := by
  refine ⟨⟨findDeps env (env.classFiles.length + 1) name deps, ?_, ?_⟩,
    fun fuel log => findDepsLogged_erase env fuel name deps log, ?_⟩
  · exact findDeps_ne_fuel env _ _ _ (Nat.lt_succ_of_le (unvisited_le env deps))
  · intro fuel hlt
    obtain ⟨k, rfl⟩ : ∃ k, fuel = env.classFiles.length + 1 + k :=
      ⟨fuel - (env.classFiles.length + 1), by omega⟩
    exact findDeps_add env _ _ _
      (findDeps_ne_fuel env _ _ _ (Nat.lt_succ_of_le (unvisited_le env deps))) k
  · intro fuel log final log' h
    obtain ⟨rs, e, nd, m, -⟩ := findDepsLogged_step env fuel name deps log final log' h
    exact ⟨rs, e, nd, m⟩

theorem findDeps_terminates_witness :
    findDepsLogged fooEnv 4 (bytesOf "com/foo/Bar") ([], []) =
      .ok ([bytesOf "com/foo/Bar", bytesOf "com/foo/Bar$Inner", bytesOf "com/foo/Bar$Other",
          bytesOf "com/foo/Dep", bytesOf "org/baz/Other", bytesOf "com/foo/Marker",
          bytesOf "com/foo/Nested", bytesOf "com/foo/Kind"],
        [bytesOf "com/foo/Bar", bytesOf "com/foo/Bar$Inner", bytesOf "com/foo/Bar$Other"]) ∧
    (∃ rs, [bytesOf "com/foo/Bar", bytesOf "com/foo/Bar$Inner", bytesOf "com/foo/Bar$Other"] =
        [] ++ bytesOf "com/foo/Bar" :: rs ∧ rs.Nodup ∧
      ∀ x ∈ rs, x ∉ ([] : List CStr) ∧ x ∈
        [bytesOf "com/foo/Bar", bytesOf "com/foo/Bar$Inner", bytesOf "com/foo/Bar$Other",
          bytesOf "com/foo/Dep", bytesOf "org/baz/Other", bytesOf "com/foo/Marker",
          bytesOf "com/foo/Nested", bytesOf "com/foo/Kind"]) ∧
    ∃ r : Except Fault (List CStr), r ≠ .error .outOfFuel ∧
      ∀ fuel, fooEnv.classFiles.length < fuel →
        findDeps fooEnv fuel (bytesOf "com/foo/Bar") [] = r :=
  ⟨by rfl,
    (findDeps_terminates fooEnv (bytesOf "com/foo/Bar") []).2.2 4 [] _ _ (by rfl),
    (findDeps_terminates fooEnv (bytesOf "com/foo/Bar") []).1⟩

/-! ## Element values that add nothing -/

/-- C11, as stated, fails: the element value `c` with index 5 of class
`com/foo/Tagged` refers to the descriptor `Lcom/foo/Lit;`, which resolves to
`com/foo/Lit` and passes the filter, yet the scan returns the list as it was, and the
whole extraction of the class with the annotation `@Other.Anno(value = Lit.class)` does
not list `com/foo/Lit`. -/
theorem scanElementValue_class_counterexample :
    getClassName (taggedCf [litAnnot]) 5 = .ok (some (bytesOf "com/foo/Lit")) ∧
    isIncludedClass defaultGlobals (bytesOf "com/foo/Lit") = true ∧
    scanElementValue defaultGlobals (taggedCf [litAnnot]) 1
      ('c'.toNat :: (word16 5 ++ [0])) [] = .ok ([0], []) ∧
    findDeps (taggedEnv [litAnnot]) 1 (bytesOf "com/foo/Tagged") [] =
      .ok [bytesOf "com/foo/Tagged", bytesOf "org/baz/Other$Anno"] ∧
    bytesOf "com/foo/Lit" ∉ [bytesOf "com/foo/Tagged", bytesOf "org/baz/Other$Anno"] := by
  refine ⟨by rfl, by rfl, by rfl, by rfl, by decide⟩

/-- C11, amended: for an element value with the class-literal tag `c`, whatever its
index resolves to, `scanElementValue` reads the tag and the two bytes of the index and
returns the dependency list unchanged: the name is not offered. -/
theorem scanElementValue_class_literal (g : Globals) (cf : classFile) (fuel : Nat)
    (b0 b1 : Nat) (rest : List Nat) (deps : List CStr) :
    scanElementValue g cf (fuel + 1) ('c'.toNat :: b0 :: b1 :: rest) deps =
      .ok (rest, deps) := by
  have e1 : isConstTag 'c'.toNat = false := by decide
  have e2 : ¬ 'c'.toNat = 's'.toNat := by decide
  simp only [scanElementValue, decodeByte, decodeWord, bind, Except.bind, pure, Except.pure,
    e1, e2, if_false, if_true, Bool.false_eq_true]

/-- C17: for a tag byte that is none of `B C D F I J S Z s c e @ [`, `scanElementValue`
does not fail, moves the cursor past the tag byte and no further, and returns the
dependency list unchanged. -/
theorem scanElementValue_unknown_tag (g : Globals) (cf : classFile) (fuel : Nat)
    (tag : Nat) (rest : List Nat) (deps : List CStr) (htag : tag ∉ knownTags) :
    scanElementValue g cf (fuel + 1) (tag :: rest) deps = .ok (rest, deps) := by
  simp only [knownTags, List.mem_cons, List.mem_singleton, List.not_mem_nil, or_false,
    not_or] at htag
  obtain ⟨hB, hC, hD, hF, hI, hJ, hS, hZ, hs, hc, he, ha, hb⟩ := htag
  have e1 : isConstTag tag = false := by
    simp only [isConstTag, List.mem_cons, List.mem_singleton, List.not_mem_nil, or_false,
      hB, hC, hD, hF, hI, hJ, hS, hZ, or_self, decide_False]
  simp only [scanElementValue, decodeByte, bind, Except.bind, pure, Except.pure, e1, hs, hc,
    he, ha, hb, if_false, Bool.false_eq_true]

theorem scanElementValue_unknown_tag_witness :
    'x'.toNat ∉ knownTags ∧
    scanElementValue defaultGlobals barCf 1 ['x'.toNat, 0, 12] [bytesOf "com/foo/Bar"] =
      .ok ([0, 12], [bytesOf "com/foo/Bar"]) :=
  ⟨by decide, scanElementValue_unknown_tag defaultGlobals barCf 0 'x'.toNat [0, 12]
    [bytesOf "com/foo/Bar"] (by decide)⟩

/-! ## Names that the annotation scan inserts -/

/-- C12, as stated, fails: the annotations `@Other.Anno` and `@Tagged.Mark` of class
`com/foo/Tagged` insert `org/baz/Other$Anno` itself, not `org/baz/Other`, and insert
`com/foo/Tagged$Mark` without extracting it (it has no class file, so an extraction
would have stopped the run). -/
theorem scanAnnotation_classify_counterexample :
    getClassName (taggedCf nestedAnnots) 4 = .ok (some (bytesOf "org/baz/Other$Anno")) ∧
    getClassName (taggedCf nestedAnnots) 8 = .ok (some (bytesOf "com/foo/Tagged$Mark")) ∧
    outerName (bytesOf "org/baz/Other$Anno") = bytesOf "org/baz/Other" ∧
    outerName (bytesOf "com/foo/Tagged$Mark") = bytesOf "com/foo/Tagged" ∧
    fopen (taggedEnv nestedAnnots) (bytesOf "com/foo/Tagged$Mark") = none ∧
    findDeps (taggedEnv nestedAnnots) 1 (bytesOf "com/foo/Tagged") [] =
      .ok [bytesOf "com/foo/Tagged", bytesOf "org/baz/Other$Anno",
        bytesOf "com/foo/Tagged$Mark"] ∧
    bytesOf "org/baz/Other" ∉ [bytesOf "com/foo/Tagged", bytesOf "org/baz/Other$Anno",
        bytesOf "com/foo/Tagged$Mark"] := by
  refine ⟨by rfl, by rfl, by rfl, by rfl, by rfl, by rfl, by decide⟩

/-- C12, amended: a class name that the annotation scanner yields (the type of an
annotation, whatever element values the annotation has, or the type of an enum constant)
and that the filter accepts is inserted unchanged, if it is not yet present, whatever
the target is: a name that contains `$` is neither cut at the `$` nor extracted, a name
without `$` is inserted as it is; a name that the filter rejects is not inserted.  The
scan of the element values that follow starts from that list, and an accepted name is
in the list that the scan of the annotation returns. -/
theorem scanAnnotation_unchanged (g : Globals) (cf : classFile) (t : Nat) (name : CStr)
    (ht : t < 2 ^ 16) (hname : getClassName cf t = .ok (some name)) :
    (∀ sev buf deps,
      scanAnnotation sev g cf (word16 t ++ buf) deps =
        (decodeWord buf >>= fun n => scanPairs sev n.1 n.2
          (if isIncludedClass g name then
            (if name ∈ deps then deps else deps ++ [name]) else deps))) ∧
    (∀ sev n rest deps, n < 2 ^ 16 →
      scanAnnotation sev g cf (word16 t ++ (word16 n ++ rest)) deps =
        scanPairs sev n rest (if isIncludedClass g name then
          (if name ∈ deps then deps else deps ++ [name]) else deps)) ∧
    (∀ fuel c rest deps, c < 2 ^ 16 →
      scanElementValue g cf (fuel + 1) ('e'.toNat :: (word16 t ++ (word16 c ++ rest))) deps =
        .ok (rest, if isIncludedClass g name then
          (if name ∈ deps then deps else deps ++ [name]) else deps)) ∧
    (∀ fuel buf deps s,
      scanAnnotation (scanElementValue g cf fuel) g cf (word16 t ++ buf) deps = .ok s →
      (∀ x ∈ deps, x ∈ s.2) ∧ (isIncludedClass g name = true → name ∈ s.2)) := by
  have hgen : ∀ sev buf deps,
      scanAnnotation sev g cf (word16 t ++ buf) deps =
        (decodeWord buf >>= fun n => scanPairs sev n.1 n.2
          (if isIncludedClass g name then
            (if name ∈ deps then deps else deps ++ [name]) else deps)) := by
    intro sev buf deps
    simp only [ scanAnnotation, decodeWord_word16 t ht, hname, deref, bind, Except.bind,
      addDep]
  refine ⟨hgen, ?_, ?_, ?_⟩
  · intro sev n rest deps hn
    rw [hgen, decodeWord_word16 n hn]
    rfl
  · intro fuel c rest deps hc
    have e1 : isConstTag 'e'.toNat = false := by decide
    have e2 : ¬ 'e'.toNat = 's'.toNat := by decide
    have e3 : ¬ 'e'.toNat = 'c'.toNat := by decide
    simp only [scanElementValue, decodeByte, decodeWord_word16 t ht, decodeWord_word16 c hc,
      hname, deref, bind, Except.bind, pure, Except.pure, e1, e2, e3, if_false, if_true,
      Bool.false_eq_true, addDep]
    split_ifs <;> rfl
  · intro fuel buf deps s hrun
    rw [hgen] at hrun
    obtain ⟨n, -, hrun⟩ := bind_ok_iff.1 hrun
    have hkeep := scanPairs_kept
      (scanElementValue_kept (kept_superset g (if isIncludedClass g name then
        (if name ∈ deps then deps else deps ++ [name]) else deps)) cf fuel)
      n.1 n.2 _ s hrun (fun _ hx => hx)
    constructor
    · intro x hx
      apply hkeep
      split_ifs
      · exact hx
      · exact List.mem_append_left _ hx
      · exact hx
    · intro hinc
      apply hkeep
      rw [if_pos hinc]
      split_ifs with hmem
      · exact hmem
      · exact List.mem_append_right _ (List.mem_singleton.2 rfl)

theorem scanAnnotation_unchanged_witness :
    getClassName (taggedCf [litAnnot]) 4 = .ok (some (bytesOf "org/baz/Other$Anno")) ∧
    scanAnnotation (scanElementValue defaultGlobals (taggedCf [litAnnot]) 1) defaultGlobals
      (taggedCf [litAnnot]) (word16 4 ++ (word16 1 ++ (word16 9 ++ ('c'.toNat :: word16 5))))
      [bytesOf "com/foo/Tagged"] =
      .ok ([], [bytesOf "com/foo/Tagged", bytesOf "org/baz/Other$Anno"]) ∧
    scanAnnotation (scanElementValue defaultGlobals (taggedCf nestedAnnots) 0) defaultGlobals
      (taggedCf nestedAnnots) (word16 4 ++ (word16 0 ++ [0])) [bytesOf "com/foo/Tagged"] =
      .ok ([0], [bytesOf "com/foo/Tagged", bytesOf "org/baz/Other$Anno"]) :=
  ⟨by rfl,
    ((scanAnnotation_unchanged defaultGlobals (taggedCf [litAnnot]) 4
      (bytesOf "org/baz/Other$Anno") (by norm_num) (by rfl)).2.1 _ 1
      (word16 9 ++ ('c'.toNat :: word16 5)) [bytesOf "com/foo/Tagged"] (by norm_num)).trans
      (by rfl),
    ((scanAnnotation_unchanged defaultGlobals (taggedCf nestedAnnots) 4
      (bytesOf "org/baz/Other$Anno") (by norm_num) (by rfl)).2.1 _ 0 [0]
      [bytesOf "com/foo/Tagged"] (by norm_num)).trans (by rfl)⟩

/-! ## Array classes -/

theorem takeWhile_append_sep (s rest : List Nat) (c : Nat) (h : c ∉ s) :
    (s ++ c :: rest).takeWhile (fun b => b != c) = s := by
  induction s with
  | nil => simp
  | cons x xs ih =>
    have hx : x ≠ c := fun e => h (e ▸ List.mem_cons_self _ _)
    have hxs : c ∉ xs := fun e => h (List.mem_cons_of_mem _ e)
    simp [List.takeWhile_cons, hx, ih hxs]

/-- C14: on a `Utf8` slot whose text is `L`, a name `s` without `;`, and `;`,
`getClassName` returns exactly `s`; on a `Class` slot it returns the text of the `Utf8`
slot that the name index points to, unchanged. -/
theorem getClassName_spec (cf : classFile) (i : Nat) :
    (∀ str s, cf.constant_pool[i]? = some (some (.constant_utf8_info str)) →
      cstr str = 'L'.toNat :: (s ++ [';'.toNat]) → ';'.toNat ∉ s →
      getClassName cf i = .ok (some s)) ∧
    (∀ s, ';'.toNat ∉ s → 0 ∉ s →
      cf.constant_pool[i]? =
        some (some (.constant_utf8_info ('L'.toNat :: (s ++ [';'.toNat]) ++ [0]))) →
      getClassName cf i = .ok (some s)) ∧
    (∀ name_index str, cf.constant_pool[i]? = some (some (.constant_class_info name_index)) →
      cf.constant_pool[name_index]? = some (some (.constant_utf8_info str)) →
      getClassName cf i = .ok (some (cstr str))) := by
  have key : ∀ str s, cf.constant_pool[i]? = some (some (.constant_utf8_info str)) →
      cstr str = 'L'.toNat :: (s ++ [';'.toNat]) → ';'.toNat ∉ s →
      getClassName cf i = .ok (some s) := by
    intro str s hslot hstr hs
    simp only [getClassName, poolAt_of_getElem hslot, hstr, bind, Except.bind, pure,
      Except.pure, List.head?_cons, if_true, List.tail_cons]
    rw [takeWhile_append_sep s [] _ hs]
  refine ⟨key, ?_, ?_⟩
  · intro s hs h0 hslot
    refine key _ s hslot ?_ hs
    have hnz : (0 : Nat) ∉ 'L'.toNat :: (s ++ [';'.toNat]) := by
      intro hm
      rcases List.mem_cons.1 hm with e | e
      · exact absurd e (by decide)
      · rcases List.mem_append.1 e with e | e
        · exact h0 e
        · rw [List.mem_singleton] at e
          exact absurd e (by decide)
    rw [cstr_append_zero, cstr_of_not_mem _ hnz]
  · intro ni str hslot hname
    rw [getClassName_class hslot, getString_utf8 hname]

theorem getClassName_spec_witness :
    barCf.constant_pool[12]? =
      some (some (.constant_utf8_info ('L'.toNat :: (bytesOf "com/foo/Marker" ++ [';'.toNat])
        ++ [0]))) ∧
    getClassName barCf 12 = .ok (some (bytesOf "com/foo/Marker")) ∧
    getClassName barCf 2 = .ok (some (bytesOf "com/foo/Bar")) ∧
    getClassName
        { constant_pool_count := 2,
          constant_pool := [none, some (.constant_utf8_info (bytesOf "Lcom/foo/Bar;" ++ [0]))],
          attributes := [] } 1 = .ok (some (bytesOf "com/foo/Bar")) :=
  ⟨by rfl,
    (getClassName_spec barCf 12).2.1 (bytesOf "com/foo/Marker") (by decide) (by decide)
      (by rfl),
    ((getClassName_spec barCf 2).2.2 1 (bytesOf "com/foo/Bar" ++ [0]) (by rfl) (by rfl)).trans
      (by rfl),
    (getClassName_spec _ 1).1 (bytesOf "Lcom/foo/Bar;" ++ [0]) (bytesOf "com/foo/Bar")
      (by rfl) (by rfl) (by decide)⟩

/-! ## Unknown constant pool tags -/

theorem readConstantPoolInfo_valid (h : Host) (fyle : FILE) (filename : CStr)
    (htag : (readByte fyle).1 ∈ validTags) :
    ∃ r, readConstantPoolInfo h fyle filename = .ok r := by
  unfold readConstantPoolInfo
  generalize readByte fyle = t at htag ⊢
  obtain ⟨tag, f2⟩ := t
  simp only [validTags, List.mem_cons, List.mem_singleton, List.not_mem_nil, or_false] at htag
  rcases htag with h | h | h | h | h | h | h | h | h | h | h <;> subst h <;> exact ⟨_, rfl⟩

theorem readConstantPoolInfo_invalid (h : Host) (fyle : FILE) (filename : CStr)
    (htag : (readByte fyle).1 ∉ validTags) :
    readConstantPoolInfo h fyle filename =
      .error (.invalidConstantTag (readByte fyle).1 filename) := by
  unfold readConstantPoolInfo
  generalize readByte fyle = t at htag ⊢
  obtain ⟨tag, f2⟩ := t
  simp only [validTags, List.mem_cons, List.mem_singleton, List.not_mem_nil, or_false,
    not_or] at htag
  obtain ⟨h1, h3, h4, h5, h6, h7, h8, h9, h10, h11, h12⟩ := htag
  simp only [h1, h3, h4, h5, h6, h7, h8, h9, h10, h11, h12, if_false]

theorem encode_shape (e : CpEntry) :
    e.tag ∈ validTags ∧ e.encode.head? = some e.tag ∧
      e.encode.length = 1 + e.payloadSize := by
  cases e <;>
    simp [CpEntry.tag, validTags, CpEntry.encode, CpEntry.payloadSize, word16, long32]
  omega

theorem readConstantPoolLoop_step (h : Host) (filename : CStr) (count : Nat) (e : CpEntry)
    (hwf : e.WellFormed) (more : List Nat) (junk : Junk) (k i : Nat)
    (res : List (Option cp_info)) (hlen : res.length = count) (hi : i + e.slots ≤ count) :
    readConstantPoolLoop h filename count (k + 1) i
        { data := e.encode ++ more, junk := junk } res =
      readConstantPoolLoop h filename count k (i + e.slots)
        { data := more, junk := afterLongs h e.longs junk }
        (if e.isWide then (res.set i none).set (i + 1) none else res.set i e.kept) := by
  have hpos := slots_pos e
  have hic : i < count := by omega
  have hil : i < res.length := by omega
  have hread := readConstantPoolInfo_encode h e hwf more junk filename
  simp only [readConstantPoolLoop, if_pos hic, hread, bind, Except.bind]
  cases e with
  | Long hi' lo =>
    have h2 : i + 1 < res.length := by simp [CpEntry.slots] at hi; omega
    simp [CpEntry.pointer, store, hil, h2, CpEntry.isWide, CpEntry.slots]
  | Double hi' lo =>
    have h2 : i + 1 < res.length := by simp [CpEntry.slots] at hi; omega
    simp [CpEntry.pointer, store, hil, h2, CpEntry.isWide, CpEntry.slots]
  | Class n => simp [CpEntry.pointer, store, hil, CpEntry.isWide, CpEntry.slots, CpEntry.kept]
  | Utf8 t => simp [CpEntry.pointer, store, hil, CpEntry.isWide, CpEntry.slots, CpEntry.kept]
  | Fieldref a b =>
    simp [CpEntry.pointer, store, hil, CpEntry.isWide, CpEntry.slots, CpEntry.kept]
  | Methodref a b =>
    simp [CpEntry.pointer, store, hil, CpEntry.isWide, CpEntry.slots, CpEntry.kept]
  | InterfaceMethodref a b =>
    simp [CpEntry.pointer, store, hil, CpEntry.isWide, CpEntry.slots, CpEntry.kept]
  | String a => simp [CpEntry.pointer, store, hil, CpEntry.isWide, CpEntry.slots, CpEntry.kept]
  | Integer a => simp [CpEntry.pointer, store, hil, CpEntry.isWide, CpEntry.slots, CpEntry.kept]
  | Float a => simp [CpEntry.pointer, store, hil, CpEntry.isWide, CpEntry.slots, CpEntry.kept]
  | NameAndType a b =>
    simp [CpEntry.pointer, store, hil, CpEntry.isWide, CpEntry.slots, CpEntry.kept]

theorem length_set_wide (e : CpEntry) (res : List (Option cp_info)) (i : Nat) :
    (if e.isWide then (res.set i none).set (i + 1) none else res.set i e.kept).length =
      res.length := by
  split_ifs <;> simp

theorem readConstantPoolLoop_bad_tag (h : Host) (filename : CStr) (count : Nat) (t : Nat)
    (ht : t ∉ validTags) (rest : List Nat) :
    ∀ (es : List CpEntry) (k i : Nat) (res : List (Option cp_info)) (junk : Junk),
      (∀ e ∈ es, e.WellFormed) → es.length < k → i + poolSlots es < count →
      res.length = count →
      readConstantPoolLoop h filename count k i
          { data := encodePool es ++ t :: rest, junk := junk } res =
        .error (.invalidConstantTag t filename) := by
  intro es
  induction es with
  | nil =>
    intro k i res junk _ hk hi hlen
    obtain ⟨k, rfl⟩ : ∃ k', k = k' + 1 := ⟨k - 1, by omega⟩
    have hic : i < count := by simpa [poolSlots] using hi
    have hbad := readConstantPoolInfo_invalid h { data := t :: rest, junk := junk } filename
      (by rw [readByte_cons]; exact ht)
    rw [readByte_cons] at hbad
    simp only [readConstantPoolLoop, if_pos hic, encodePool, List.nil_append, hbad, bind,
      Except.bind]
  | cons e es ih =>
    intro k i res junk hwf hk hi hlen
    obtain ⟨k, rfl⟩ : ∃ k', k = k' + 1 := ⟨k - 1, by omega⟩
    rw [poolSlots] at hi
    rw [encodePool, List.append_assoc,
      readConstantPoolLoop_step h filename count e (hwf e (List.mem_cons_self _ _)) _ junk k i
        res hlen (by omega)]
    exact ih k _ _ _ (fun e' he' => hwf e' (List.mem_cons_of_mem _ he'))
      (by simpa using hk) (by omega) (by rw [length_set_wide, hlen])

theorem readConstantPool_bad_tag (h : Host) (filename : CStr) (count : Nat) (t : Nat)
    (ht : t ∉ validTags) (rest : List Nat) (junk : Junk) (es : List CpEntry)
    (hwf : ∀ e ∈ es, e.WellFormed) (hcount : 1 + poolSlots es < count) :
    readConstantPool h { data := encodePool es ++ t :: rest, junk := junk } filename count =
      .error (.invalidConstantTag t filename) := by
  have hlen := length_le_poolSlots es
  simp only [readConstantPool, store, List.length_replicate, bind, Except.bind]
  rw [if_pos (by omega)]
  simp only []
  exact readConstantPoolLoop_bad_tag h filename count t ht rest es count 1 _ junk hwf
    (by omega) (by omega) (by simp)

theorem readClassFile_header (h : Host) (magic minor major count : Nat)
    (hcount : count < 2 ^ 16) (more : List Nat) (junk : Junk) (filename : CStr) :
    readClassFile h { data := classHeader magic minor major count ++ more, junk := junk }
        filename =
      (readConstantPool h { data := more, junk := afterLongs h 1 junk } filename count >>=
        fun p => do
        let fyle := (readWord h p.2).2
        let fyle := (readWord h fyle).2
        let fyle := (readWord h fyle).2
        let ic := readWord h fyle
        let fyle := skipWordArray h ic.2 ic.1
        let fc := readWord h fyle
        let a ← readFields h fc.2 fc.1 []
        let mc := readWord h a.2
        let a ← readMethods h mc.2 mc.1 a.1
        let ac := readWord h a.2
        let a ← readAttributes h ac.2 ac.1 a.1
        pure { constant_pool_count := count, constant_pool := p.1, attributes := a.1 }) := by
  simp only [readClassFile, classHeader, List.append_assoc, readLong_long32_file,
    readWord_word16_file, readWord_word16 h count hcount]

/-- C15: `readConstantPoolInfo` fails if and only if the tag byte it reads is none of
1, 3, 4, 5, 6, 7, 8, 9, 10, 11, 12, and then with the fatal exit that reports the tag
and the file name; `readConstantPool` and `readClassFile` stop with the same failure;
for an entry with one of the eleven tags the decoding succeeds and moves the file past
the tag and the payload of the tag: 2 bytes for `Class` and `String`, 4 for the three
kinds of reference, `NameAndType`, `Integer` and `Float`, 8 for `Long` and `Double`,
2 and the length for `Utf8`. -/
theorem readConstantPoolInfo_tags (h : Host) (filename : CStr) :
    (∀ fyle, (∃ e, readConstantPoolInfo h fyle filename = .error e) ↔
      (readByte fyle).1 ∉ validTags) ∧
    (∀ fyle, (readByte fyle).1 ∉ validTags →
      readConstantPoolInfo h fyle filename =
        .error (.invalidConstantTag (readByte fyle).1 filename)) ∧
    (∀ (e : CpEntry) rest junk, e.WellFormed →
      e.tag ∈ validTags ∧ e.encode.head? = some e.tag ∧
      e.encode.length = 1 + e.payloadSize ∧
      readConstantPoolInfo h { data := e.encode ++ rest, junk := junk } filename =
        .ok (e.pointer, { data := rest, junk := afterLongs h e.longs junk })) ∧
    (∀ es t rest junk count, (∀ e ∈ es, e.WellFormed) → t ∉ validTags →
      1 + poolSlots es < count →
      readConstantPool h { data := encodePool es ++ t :: rest, junk := junk } filename count =
        .error (.invalidConstantTag t filename)) ∧
    (∀ magic minor major es t rest junk count, (∀ e ∈ es, e.WellFormed) → t ∉ validTags →
      1 + poolSlots es < count → count < 2 ^ 16 →
      readClassFile h
          { data := classHeader magic minor major count ++ (encodePool es ++ t :: rest),
            junk := junk } filename =
        .error (.invalidConstantTag t filename)) := by
  refine ⟨?_, fun fyle => readConstantPoolInfo_invalid h fyle filename, ?_, ?_, ?_⟩
  · intro fyle
    constructor
    · rintro ⟨e, he⟩ hv
      obtain ⟨r, hr⟩ := readConstantPoolInfo_valid h fyle filename hv
      rw [hr] at he
      exact absurd he (by simp)
    · intro hv
      exact ⟨_, readConstantPoolInfo_invalid h fyle filename hv⟩
  · intro e rest junk hwf
    obtain ⟨h1, h2, h3⟩ := encode_shape e
    exact ⟨h1, h2, h3, readConstantPoolInfo_encode h e hwf rest junk filename⟩
  · intro es t rest junk count hwf ht hc
    exact readConstantPool_bad_tag h filename count t ht rest junk es hwf hc
  · intro magic minor major es t rest junk count hwf ht hc hlt
    rw [readClassFile_header h magic minor major count hlt,
      readConstantPool_bad_tag h filename count t ht rest _ es hwf hc]
    rfl

theorem readConstantPoolInfo_tags_witness :
    readConstantPoolInfo { littleEndian := true, long64 := true } { data := [2, 0, 1], junk := zeros }
      (bytesOf "com/foo/Bar.class") =
      .error (.invalidConstantTag 2 (bytesOf "com/foo/Bar.class")) ∧
    readClassFile { littleEndian := false, long64 := false }
      { data := classHeader 0xCAFEBABE 0 49 4 ++
          (encodePool [.Utf8 (bytesOf "com/foo/Bar"), .Class 1] ++ 13 :: [0, 0]),
        junk := zeros } (bytesOf "com/foo/Bar.class") =
      .error (.invalidConstantTag 13 (bytesOf "com/foo/Bar.class")) ∧
    readConstantPoolInfo { littleEndian := true, long64 := true }
      { data := (CpEntry.Utf8 (bytesOf "abc")).encode ++ [7, 0, 1], junk := zeros }
      (bytesOf "com/foo/Bar.class") =
      .ok (.obj (.constant_utf8_info (bytesOf "abc" ++ [0])), { data := [7, 0, 1], junk := zeros }) := by
  have hwf : ∀ e ∈ [CpEntry.Utf8 (bytesOf "com/foo/Bar"), .Class 1], e.WellFormed := by
    intro e he
    simp only [List.mem_cons, List.mem_singleton, List.not_mem_nil, or_false] at he
    rcases he with rfl | rfl
    · show (bytesOf "com/foo/Bar").length < 2 ^ 16
      decide
    · show (1 : Nat) < 2 ^ 16
      decide
  have hall := readConstantPoolInfo_tags { littleEndian := true, long64 := true } (bytesOf "com/foo/Bar.class")
  refine ⟨hall.2.1 { data := [2, 0, 1], junk := zeros } (by decide), ?_, ?_⟩
  · exact (readConstantPoolInfo_tags { littleEndian := false, long64 := false }
      (bytesOf "com/foo/Bar.class")).2.2.2.2 0xCAFEBABE 0 49
      [.Utf8 (bytesOf "com/foo/Bar"), .Class 1] 13 [0, 0] 0 4 hwf (by decide) (by decide)
      (by decide)
  · exact (hall.2.2.1 (.Utf8 (bytesOf "abc")) [7, 0, 1] 0 (by
      show (bytesOf "abc").length < 2 ^ 16
      decide)).2.2.2

/-! ## Byte order -/

/-- C18: for all bytes `b0`, `b1`, `b2`, `b3` at the cursor and on every host, `readWord`
returns `256 * b0 + b1`, a number of 16 bits, and agrees with `decodeWord` on the same
two bytes; `testEndianism` sets `LittleEndian` to the byte order of the host, and the
load in host order after `reverseBytes` is the big-endian decoding.  `readLong` returns
`2 ^ 24 * b0 + 2 ^ 16 * b1 + 2 ^ 8 * b2 + b3` on the hosts, little-endian or big-endian,
whose `unsigned long` has 4 bytes.  Where it has 8 bytes the other 4 bytes of the result
are indeterminate: on a little-endian host they are the upper half of the value, on a
big-endian host the lower half, the number from the file being the upper half, so that
the value is not the number from the file unless that is 0. -/
theorem readWord_readLong_bigEndian (h : Host) (b0 b1 b2 b3 : Nat) (rest : List Nat)
    (junk : Junk) (h0 : b0 < 256) (h1 : b1 < 256) (h2 : b2 < 256) (h3 : b3 < 256) :
    readWord h { data := b0 :: b1 :: rest, junk := junk } =
      (256 * b0 + b1, { data := rest, junk := junk }) ∧
    LittleEndian h = h.littleEndian ∧
    hostValue h (if LittleEndian h then reverseBytes [b0, b1] 2 else [b0, b1]) =
      bigEndianValue [b0, b1] ∧
    bigEndianValue [b0, b1] = 256 * b0 + b1 ∧
    bigEndianValue [b0, b1, b2, b3] = 2 ^ 24 * b0 + 2 ^ 16 * b1 + 2 ^ 8 * b2 + b3 ∧
    (readWord h { data := b0 :: b1 :: rest, junk := junk }).1 < 2 ^ 16 ∧
    decodeWord (b0 :: b1 :: rest) =
      .ok ((readWord h { data := b0 :: b1 :: rest, junk := junk }).1, rest) ∧
    (h.long64 = false →
      readLong h { data := b0 :: b1 :: b2 :: b3 :: rest, junk := junk } =
        (2 ^ 24 * b0 + 2 ^ 16 * b1 + 2 ^ 8 * b2 + b3, { data := rest, junk := junk }) ∧
      (readLong h { data := b0 :: b1 :: b2 :: b3 :: rest, junk := junk }).1 < 2 ^ 32 ∧
      hostValue h (if LittleEndian h then reverseBytes [b0, b1, b2, b3] 4
        else [b0, b1, b2, b3]) = bigEndianValue [b0, b1, b2, b3]) ∧
    (h.long64 = true → h.littleEndian = true →
      readLong h { data := b0 :: b1 :: b2 :: b3 :: rest, junk := junk } =
        (2 ^ 24 * b0 + 2 ^ 16 * b1 + 2 ^ 8 * b2 + b3 +
            2 ^ 32 * (junk 0 + 2 ^ 8 * junk 1 + 2 ^ 16 * junk 2 + 2 ^ 24 * junk 3),
          { data := rest, junk := Junk.drop junk 4 })) ∧
    (h.long64 = true → h.littleEndian = false →
      readLong h { data := b0 :: b1 :: b2 :: b3 :: rest, junk := junk } =
        (2 ^ 32 * (2 ^ 24 * b0 + 2 ^ 16 * b1 + 2 ^ 8 * b2 + b3) +
            (2 ^ 24 * junk 0 + 2 ^ 16 * junk 1 + 2 ^ 8 * junk 2 + junk 3),
          { data := rest, junk := Junk.drop junk 4 }) ∧
      (0 < 2 ^ 24 * b0 + 2 ^ 16 * b1 + 2 ^ 8 * b2 + b3 →
        (readLong h { data := b0 :: b1 :: b2 :: b3 :: rest, junk := junk }).1 ≠
          2 ^ 24 * b0 + 2 ^ 16 * b1 + 2 ^ 8 * b2 + b3)) := by
  have hor : ((b0 <<< 8) ||| b1) % 2 ^ 16 = b0 * 256 + b1 := by
    have e : b0 <<< 8 = 2 ^ 8 * b0 := by rw [Nat.shiftLeft_eq, Nat.mul_comm]
    rw [e, ← Nat.mul_add_lt_is_or h1 b0]
    omega
  have hval : ((b0 * 256 + b1) * 256 + b2) * 256 + b3 =
      2 ^ 24 * b0 + 2 ^ 16 * b1 + 2 ^ 8 * b2 + b3 := by ring
  refine ⟨?_, ?_, ?_, ?_, ?_, ?_, ?_, ?_, ?_, ?_⟩
  · rw [readWord_cons, Nat.mul_comm]
  · rcases h with ⟨_ | _, _⟩ <;> rfl
  · rcases h with ⟨_ | _, _⟩ <;>
      simp [LittleEndian, testEndianism, hostWordBytes, reverseBytes, reverseBytesLoop,
        hostValue, bigEndianValue]
  · simp [bigEndianValue]
    ring
  · simp [bigEndianValue]
    ring
  · rw [readWord_cons]
    show b0 * 256 + b1 < 2 ^ 16
    omega
  · rw [readWord_cons]
    simp only [decodeWord, hor]
  · intro hshort
    have hread : readLong h { data := b0 :: b1 :: b2 :: b3 :: rest, junk := junk } =
        (2 ^ 24 * b0 + 2 ^ 16 * b1 + 2 ^ 8 * b2 + b3, { data := rest, junk := junk }) := by
      rw [readLong_cons, longValue_short h hshort, afterLongs_short h hshort, hval]
    refine ⟨hread, ?_, ?_⟩
    · rw [hread]
      show 2 ^ 24 * b0 + 2 ^ 16 * b1 + 2 ^ 8 * b2 + b3 < 2 ^ 32
      omega
    · rcases h with ⟨_ | _, _⟩ <;>
        simp [LittleEndian, testEndianism, hostWordBytes, reverseBytes, reverseBytesLoop,
          hostValue, bigEndianValue]
  · intro hlong hle
    rw [readLong_cons, hval]
    simp only [longValue, hlong, hle, if_true, Junk.take_four, afterLongs, longPad,
      sizeofLong, Nat.one_mul]
    congr 2
    simp [bigEndianValue]
    ring
  · intro hlong hbe
    have hread : readLong h { data := b0 :: b1 :: b2 :: b3 :: rest, junk := junk } =
        (2 ^ 32 * (2 ^ 24 * b0 + 2 ^ 16 * b1 + 2 ^ 8 * b2 + b3) +
            (2 ^ 24 * junk 0 + 2 ^ 16 * junk 1 + 2 ^ 8 * junk 2 + junk 3),
          { data := rest, junk := Junk.drop junk 4 }) := by
      rw [readLong_cons, hval]
      simp only [longValue, hlong, hbe, if_true, Bool.false_eq_true, if_false,
        Junk.take_four, afterLongs, longPad, sizeofLong, Nat.one_mul]
      congr 1
      simp [bigEndianValue]
      ring
    refine ⟨hread, ?_⟩
    intro hpos
    rw [hread]
    show 2 ^ 32 * (2 ^ 24 * b0 + 2 ^ 16 * b1 + 2 ^ 8 * b2 + b3) +
        (2 ^ 24 * junk 0 + 2 ^ 16 * junk 1 + 2 ^ 8 * junk 2 + junk 3) ≠
      2 ^ 24 * b0 + 2 ^ 16 * b1 + 2 ^ 8 * b2 + b3
    omega

theorem readWord_readLong_bigEndian_witness :
    readWord { littleEndian := true, long64 := true }
        { data := [0xCA, 0xFE, 0xBA, 0xBE], junk := zeros } =
      (0xCAFE, { data := [0xBA, 0xBE], junk := zeros }) ∧
    decodeWord [0xCA, 0xFE, 0xBA, 0xBE] = .ok (0xCAFE, [0xBA, 0xBE]) ∧
    readLong { littleEndian := true, long64 := false }
        { data := [0xCA, 0xFE, 0xBA, 0xBE], junk := zeros } =
      (0xCAFEBABE, { data := [], junk := zeros }) ∧
    readLong { littleEndian := false, long64 := false }
        { data := [0xCA, 0xFE, 0xBA, 0xBE], junk := zeros } =
      (0xCAFEBABE, { data := [], junk := zeros }) ∧
    (readLong { littleEndian := true, long64 := true }
        { data := [0xCA, 0xFE, 0xBA, 0xBE], junk := fun _ => 1 }).1 =
      0xCAFEBABE + 2 ^ 32 * 0x01010101 ∧
    (readLong { littleEndian := false, long64 := true }
        { data := [0xCA, 0xFE, 0xBA, 0xBE], junk := zeros }).1 = 0xCAFEBABE * 2 ^ 32 := by
  have hw := readWord_readLong_bigEndian { littleEndian := true, long64 := true }
    0xCA 0xFE 0xBA 0xBE [0xBA, 0xBE] zeros (by decide) (by decide) (by decide) (by decide)
  have h32 := readWord_readLong_bigEndian { littleEndian := true, long64 := false }
    0xCA 0xFE 0xBA 0xBE [] zeros (by decide) (by decide) (by decide) (by decide)
  have hb32 := readWord_readLong_bigEndian { littleEndian := false, long64 := false }
    0xCA 0xFE 0xBA 0xBE [] zeros (by decide) (by decide) (by decide) (by decide)
  have h64 := readWord_readLong_bigEndian { littleEndian := true, long64 := true }
    0xCA 0xFE 0xBA 0xBE [] (fun _ => 1) (by decide) (by decide) (by decide) (by decide)
  have hb64 := readWord_readLong_bigEndian { littleEndian := false, long64 := true }
    0xCA 0xFE 0xBA 0xBE [] zeros (by decide) (by decide) (by decide) (by decide)
  refine ⟨hw.1, ?_, (h32.2.2.2.2.2.2.2.1 rfl).1, (hb32.2.2.2.2.2.2.2.1 rfl).1, ?_, ?_⟩
  · have hd := hw.2.2.2.2.2.2.1
    rw [hw.1] at hd
    exact hd
  · rw [h64.2.2.2.2.2.2.2.2.1 rfl rfl]
    rfl
  · rw [(hb64.2.2.2.2.2.2.2.2.2 rfl rfl).1]
    rfl

/-! ## The last slot of the constant pool -/

theorem store_ok {α : Type} {a a' : List α} {i : Nat} {v : α} (h : store a i v = .ok a') :
    i < a.length ∧ a' = a.set i v := by
  unfold store at h
  split_ifs at h with hi
  exact ⟨hi, (Except.ok.inj h).symm⟩

theorem readConstantPoolLoop_wide_last (h : Host) (filename : CStr) (count : Nat)
    (e : CpEntry) (hw : e.isWide = true) (rest : List Nat) :
    ∀ (es : List CpEntry) (k i : Nat) (res : List (Option cp_info)) (junk : Junk),
      (∀ x ∈ es, x.WellFormed) → es.length < k → i + poolSlots es + 1 = count →
      res.length = count →
      readConstantPoolLoop h filename count k i
          { data := encodePool es ++ (e.encode ++ rest), junk := junk } res =
        .error .outOfBounds := by
  have hwf : e.WellFormed := by
    cases e <;> trivial
  have hptr : e.pointer = .LONG_TAG := by
    cases e <;> first | rfl | simp [CpEntry.isWide] at hw
  intro es
  induction es with
  | nil =>
    intro k i res junk _ hk hi hlen
    obtain ⟨k, rfl⟩ : ∃ k', k = k' + 1 := ⟨k - 1, by omega⟩
    have hic : i < count := by simp [poolSlots] at hi; omega
    have hil : i < res.length := by omega
    have h2 : ¬ i + 1 < res.length := by simp [poolSlots] at hi; omega
    simp only [readConstantPoolLoop, if_pos hic, encodePool, List.nil_append,
      readConstantPoolInfo_encode h e hwf rest junk filename, bind, Except.bind, hptr, store,
      hil, List.length_set, h2, if_true, if_false]
  | cons x es ih =>
    intro k i res junk hwfs hk hi hlen
    obtain ⟨k, rfl⟩ : ∃ k', k = k' + 1 := ⟨k - 1, by omega⟩
    rw [poolSlots] at hi
    rw [encodePool, List.append_assoc,
      readConstantPoolLoop_step h filename count x (hwfs x (List.mem_cons_self _ _)) _ junk k i
        res hlen (by omega)]
    exact ih k _ _ _ (fun y hy => hwfs y (List.mem_cons_of_mem _ hy))
      (by simpa using hk) (by omega) (by rw [length_set_wide, hlen])

theorem readConstantPoolLoop_ok (h : Host) (filename : CStr) (count : Nat) :
    ∀ (k i : Nat) (f : FILE) (res res' : List (Option cp_info)) (f' : FILE), 1 ≤ i →
      readConstantPoolLoop h filename count k i f res = .ok (res', f') →
      res'.length = res.length ∧ res'[0]? = res[0]? := by
  intro k
  induction k with
  | zero =>
    intro i f res res' f' _ hrun
    simp only [readConstantPoolLoop] at hrun
    split_ifs at hrun
    obtain ⟨rfl, -⟩ := Prod.mk.inj (Except.ok.inj hrun)
    exact ⟨rfl, rfl⟩
  | succ k ih =>
    intro i f res res' f' hi hrun
    simp only [readConstantPoolLoop] at hrun
    split_ifs at hrun
    · obtain ⟨r, -, hrun⟩ := bind_ok_iff.1 hrun
      have hset : ∀ (a : List (Option cp_info)) (j : Nat) (v : Option cp_info), 1 ≤ j →
          (a.set j v)[0]? = a[0]? := by
        intro a j v hj
        rw [List.getElem?_set_ne (by omega)]
      cases hp : r.1 with
      | null =>
        rw [hp] at hrun
        obtain ⟨r1, hs1, hrun⟩ := bind_ok_iff.1 hrun
        obtain ⟨-, rfl⟩ := store_ok hs1
        obtain ⟨h1, h2⟩ := ih _ _ _ _ _ (by omega) hrun
        exact ⟨by rw [h1, List.length_set], by rw [h2, hset _ _ _ hi]⟩
      | LONG_TAG =>
        rw [hp] at hrun
        obtain ⟨r1, hs1, hrun⟩ := bind_ok_iff.1 hrun
        obtain ⟨-, rfl⟩ := store_ok hs1
        obtain ⟨r2, hs2, hrun⟩ := bind_ok_iff.1 hrun
        obtain ⟨-, rfl⟩ := store_ok hs2
        obtain ⟨h1, h2⟩ := ih _ _ _ _ _ (by omega) hrun
        exact ⟨by rw [h1, List.length_set, List.length_set],
          by rw [h2, hset _ _ _ (by omega), hset _ _ _ hi]⟩
      | obj cp =>
        rw [hp] at hrun
        obtain ⟨r1, hs1, hrun⟩ := bind_ok_iff.1 hrun
        obtain ⟨-, rfl⟩ := store_ok hs1
        obtain ⟨h1, h2⟩ := ih _ _ _ _ _ (by omega) hrun
        exact ⟨by rw [h1, List.length_set], by rw [h2, hset _ _ _ hi]⟩
    · obtain ⟨rfl, -⟩ := Prod.mk.inj (Except.ok.inj hrun)
      exact ⟨rfl, rfl⟩

/-- C19: when the entry decoded at slot `N - 1` of a pool of `N` slots is a `Long` or a
`Double`, `readConstantPool` assigns slot `N`, which is past the end of the array: the
run ends in the out-of-bounds fault, whatever well-formed entries come first and whatever
follows in the file.  On every run without fault the array has `N` slots, `N` is at
least one and slot 0 is empty. -/
theorem readConstantPool_wide_last (h : Host) (filename : CStr) (junk : Junk)
    (es : List CpEntry) (e : CpEntry) (rest : List Nat) (hwf : ∀ x ∈ es, x.WellFormed)
    (hw : e.isWide = true) :
    readConstantPool h { data := encodePool es ++ (e.encode ++ rest), junk := junk }
        filename (1 + poolSlots es + 1) = .error .outOfBounds ∧
    (∀ fyle count res f, readConstantPool h fyle filename count = .ok (res, f) →
      1 ≤ count ∧ res.length = count ∧ res[0]? = some none) := by
  constructor
  · have hlen := length_le_poolSlots es
    simp only [readConstantPool, store, List.length_replicate, bind, Except.bind]
    rw [if_pos (by omega)]
    simp only []
    exact readConstantPoolLoop_wide_last h filename _ e hw rest es _ 1 _ junk hwf
      (by omega) (by omega) (by simp)
  · intro fyle count res f hrun
    simp only [readConstantPool] at hrun
    obtain ⟨r0, hs, hrun⟩ := bind_ok_iff.1 hrun
    obtain ⟨h0, rfl⟩ := store_ok hs
    obtain ⟨h1, h2⟩ := readConstantPoolLoop_ok h filename count _ _ _ _ _ _ (le_refl 1) hrun
    rw [List.length_set, List.length_replicate] at h1
    rw [List.length_replicate] at h0
    refine ⟨h0, h1, ?_⟩
    rw [h2, List.getElem?_set_self (by simpa using h0)]

theorem readConstantPool_wide_last_witness :
    (CpEntry.Long 0 1).encode = [5, 0, 0, 0, 0, 0, 0, 0, 1] ∧
    readConstantPool { littleEndian := true, long64 := true }
        { data := [5, 0, 0, 0, 0, 0, 0, 0, 1], junk := zeros } (bytesOf "Wide.class") 2 =
      .error .outOfBounds ∧
    readConstantPool { littleEndian := true, long64 := true }
        { data := [5, 0, 0, 0, 0, 0, 0, 0, 1], junk := zeros } (bytesOf "Wide.class") 3 =
      .ok ([none, none, none], { data := [], junk := zeros }) :=
  ⟨by rfl,
    (readConstantPool_wide_last { littleEndian := true, long64 := true }
      (bytesOf "Wide.class") zeros []
      (.Long 0 1) [] (by simp) rfl).1,
    by rfl⟩

/-! ## Package rules -/

theorem getLast?_cons_cons {α : Type} (a b : α) (l : List α) :
    (a :: b :: l).getLast? = (b :: l).getLast? := by
  simp [List.getLast?_cons_cons]

theorem mem_of_getLast? {α : Type} {l : List α} {a : α} (h : l.getLast? = some a) :
    a ∈ l := by
  rw [List.getLast?_eq_head?_reverse] at h
  exact List.mem_reverse.1 (List.mem_of_mem_head? h)

theorem copyPackageName_eq :
    ∀ (p : CStr) (flag : Bool), copyPackageName p flag =
      (slashed p, if p = [] then flag else decide (p.getLast? = some '.'.toNat)) := by
  intro p
  induction p with
  | nil => intro flag; rfl
  | cons c rest ih =>
    intro flag
    have hlast : decide ((c :: rest).getLast? = some '.'.toNat) =
        (if rest = [] then decide (c = '.'.toNat)
          else decide (rest.getLast? = some '.'.toNat)) := by
      cases rest with
      | nil => simp
      | cons d rest => rw [getLast?_cons_cons]; simp
    rw [if_neg (List.cons_ne_nil _ _), hlast]
    by_cases hc : c = '.'.toNat
    · simp only [copyPackageName, if_pos hc, ih, slashed, List.map_cons, decide_True, hc]
      simp
    · simp only [copyPackageName, if_neg hc, ih, slashed, List.map_cons, decide_False, hc]
      simp

theorem not_dot_slashed (p : CStr) : '.'.toNat ∉ slashed p := by
  intro h
  simp only [slashed, List.mem_map] at h
  obtain ⟨c, -, hc⟩ := h
  split_ifs at hc with h1
  · exact absurd hc (by decide)
  · exact h1 hc

theorem slashed_of_not_dot (p : CStr) (h : '.'.toNat ∉ p) : slashed p = p := by
  induction p with
  | nil => rfl
  | cons c rest ih =>
    have hc : c ≠ '.'.toNat := fun e => h (e ▸ List.mem_cons_self _ _)
    have hr : '.'.toNat ∉ rest := fun e => h (List.mem_cons_of_mem _ e)
    have ih2 := ih hr
    simp only [slashed, List.map_cons, if_neg hc] at ih2 ⊢
    rw [ih2]

theorem getLast?_slashed (p : CStr) :
    (slashed p).getLast? = p.getLast?.map (fun c => if c = '.'.toNat then '/'.toNat else c) := by
  simp only [slashed, List.getLast?_eq_head?_reverse, ← List.map_reverse, List.head?_map]

theorem ruleOf_getLast? (p : CStr) : (ruleOf p).getLast? = some '/'.toNat := by
  unfold ruleOf
  split_ifs with h
  · rw [List.append_nil, getLast?_slashed, h]
    rfl
  · rw [List.getLast?_append]
    rfl

/-- C20, what fails: from the prefix `java/`, which ends in `/` already, the rule
`java//` is built, with two `/` at its end: it is not the prefix unchanged, and it
matches no class of the package. -/
theorem buildPackageInfo_idempotent_counterexample :
    buildPackageInfo (bytesOf "java/") [] =
      [{ name := bytesOf "java//", nameLength := 6 }] ∧
    matchPackage (bytesOf "java/lang/Object") (buildPackageInfo (bytesOf "java/") []) =
      false := by
  refine ⟨by rfl, by rfl⟩

/-- C20, amended: the rule that `buildPackageInfo` builds for package name `p` is `p`
with every `.` replaced by `/`, followed by one more `/` unless the last character of
`p` is a `.`; its recorded length is its length; it ends in `/`; a class name matches it
when the rule is a prefix of the name; for a name `p` without `/` the `/` is appended
exactly when the replaced string does not end in `/`; and a rule built from a rule has
one `/` more than it. -/
theorem buildPackageInfo_rule (p : CStr) (next : List PackageInfo) :
    buildPackageInfo p next =
      { name := ruleOf p, nameLength := (ruleOf p).length } :: next ∧
    (ruleOf p).getLast? = some '/'.toNat ∧
    (∀ name, matchPackage name (buildPackageInfo p []) = true ↔ ruleOf p <+: name) ∧
    ('/'.toNat ∉ p → (ruleOf p = slashed p ++ ['/'.toNat] ↔
      (slashed p).getLast? ≠ some '/'.toNat)) ∧
    ruleOf (ruleOf p) = ruleOf p ++ ['/'.toNat] := by
  have hbuild : ∀ next, buildPackageInfo p next =
      { name := ruleOf p, nameLength := (ruleOf p).length } :: next := by
    intro next
    simp only [buildPackageInfo, copyPackageName_eq, ruleOf]
    by_cases hp : p = []
    · subst hp
      rfl
    · by_cases hl : p.getLast? = some 46
      · simp [hp, hl]
      · simp [hp, hl]
  refine ⟨hbuild next, ruleOf_getLast? p, ?_, ?_, ?_⟩
  · intro name
    rw [hbuild []]
    simp [matchPackage, strncmpEq_length]
  · intro hns
    have hiff : (slashed p).getLast? = some '/'.toNat ↔ p.getLast? = some '.'.toNat := by
      rw [getLast?_slashed]
      cases hl : p.getLast? with
      | none => simp
      | some c =>
        have hmem : c ∈ p := mem_of_getLast? hl
        have hc : c ≠ '/'.toNat := fun e => hns (e ▸ hmem)
        simp only [Option.map_some', Option.some.injEq]
        by_cases hd : c = '.'.toNat
        · simp [hd]
        · simp only [if_neg hd]
          exact ⟨fun e => absurd e hc, fun e => absurd e hd⟩
    rw [Ne, hiff]
    unfold ruleOf
    by_cases hl : p.getLast? = some '.'.toNat
    · simp [hl]
    · simp [hl]
  · have hnd : '.'.toNat ∉ ruleOf p := by
      unfold ruleOf
      intro h
      rcases List.mem_append.1 h with h | h
      · exact not_dot_slashed p h
      · split_ifs at h
        · simp at h
        · exact absurd (List.mem_singleton.1 h) (by decide)
    have hl : ¬ (ruleOf p).getLast? = some '.'.toNat := by
      rw [ruleOf_getLast?]
      decide
    have hdef : ruleOf (ruleOf p) = slashed (ruleOf p) ++
        (if (ruleOf p).getLast? = some '.'.toNat then [] else ['/'.toNat]) := rfl
    rw [hdef, if_neg hl, slashed_of_not_dot _ hnd]

theorem buildPackageInfo_rule_witness :
    buildPackageInfo (bytesOf "com.foo") [] =
      [{ name := bytesOf "com/foo/", nameLength := 8 }] ∧
    matchPackage (bytesOf "com/foo/Bar") (buildPackageInfo (bytesOf "com.foo") []) = true ∧
    ruleOf (bytesOf "com/foo/") = bytesOf "com/foo//" ∧
    '/'.toNat ∉ bytesOf "com.foo" ∧
    ruleOf (bytesOf "com.foo") = slashed (bytesOf "com.foo") ++ ['/'.toNat] :=
  ⟨(buildPackageInfo_rule (bytesOf "com.foo") []).1,
    ((buildPackageInfo_rule (bytesOf "com.foo") []).2.2.1 (bytesOf "com/foo/Bar")).2
      (by decide),
    (buildPackageInfo_rule (bytesOf "com.foo") []).2.2.2.2,
    by decide,
    ((buildPackageInfo_rule (bytesOf "com.foo") []).2.2.2.1 (by decide)).2 (by decide)⟩

/-! ## The attributes of a parsed class file -/

theorem not_bigLong {h : Host} (hgood : ¬ h.bigLong) :
    h.long64 = false ∨ h.littleEndian = true := by
  rcases h with ⟨_ | _, _ | _⟩ <;> simp [Host.bigLong] at hgood ⊢

theorem readLong_long32 (h : Host) (v : Nat) (hv : v < 2 ^ 32) (rest : List Nat)
    (junk : Junk) :
    readLong h { data := long32 v ++ rest, junk := junk } =
      (longValue h v junk, { data := rest, junk := afterLongs h 1 junk }) := by
  have : ((v / 2 ^ 24 % 256 * 256 + v / 2 ^ 16 % 256) * 256 + v / 2 ^ 8 % 256) * 256 +
      v % 256 = v := by omega
  simp only [long32, List.cons_append, List.nil_append, readLong_cons, this]

theorem readAttributeInfo_encode (h : Host) (hgood : ¬ h.bigLong) (a : AttributeSpec)
    (hwf : a.WellFormed) (rest : List Nat) (junk : Junk) (atts : List attribute_info) :
    readAttributeInfo h { data := a.encode ++ rest, junk := junk } atts =
      .ok (a.parsedOn h junk :: atts, { data := rest, junk := afterLongs h 1 junk }) := by
  obtain ⟨hn, hl⟩ := hwf
  have hl32 : a.payload.length < 2 ^ 32 := by omega
  simp only [readAttributeInfo, AttributeSpec.encode, List.append_assoc,
    readWord_word16 h _ hn, readLong_long32 h _ hl32,
    longValue_mod h (not_bigLong hgood) _ hl32, readByteArray_append, if_pos hl,
    AttributeSpec.parsedOn]

theorem readAttributes_encode (h : Host) (hgood : ¬ h.bigLong) (rest : List Nat) :
    ∀ (as : List AttributeSpec) (atts : List attribute_info) (junk : Junk),
      (∀ a ∈ as, a.WellFormed) →
      readAttributes h { data := (as.map AttributeSpec.encode).flatten ++ rest, junk := junk }
          as.length atts =
        .ok ((parsedAttributes h junk as).reverse ++ atts,
          { data := rest, junk := afterLongs h as.length junk }) := by
  intro as
  induction as with
  | nil => intro atts junk _; simp [readAttributes, parsedAttributes, afterLongs_zero]
  | cons a as ih =>
    intro atts junk hwf
    simp only [List.map_cons, List.flatten_cons, List.append_assoc, List.length_cons,
      readAttributes, readAttributeInfo_encode h hgood a (hwf a (List.mem_cons_self _ _)),
      bind, Except.bind]
    rw [ih _ _ (fun x hx => hwf x (List.mem_cons_of_mem _ hx))]
    simp [parsedAttributes, afterLongs_afterLongs, Nat.add_comm]

theorem parsedAttributes_append (h : Host) :
    ∀ (xs ys : List AttributeSpec) (junk : Junk),
      parsedAttributes h junk (xs ++ ys) =
        parsedAttributes h junk xs ++ parsedAttributes h (afterLongs h xs.length junk) ys := by
  intro xs
  induction xs with
  | nil => intro ys junk; simp [parsedAttributes, afterLongs_zero]
  | cons x xs ih =>
    intro ys junk
    simp [parsedAttributes, ih, afterLongs_afterLongs, Nat.add_comm]

theorem readFieldInfo_encode (h : Host) (hgood : ¬ h.bigLong) (m : MemberSpec)
    (hwf : m.WellFormed) (rest : List Nat) (junk : Junk) (atts : List attribute_info) :
    readFieldInfo h { data := m.encode ++ rest, junk := junk } atts =
      .ok ((parsedAttributes h junk m.attributes).reverse ++ atts,
        { data := rest, junk := afterLongs h m.attributes.length junk }) := by
  simp only [readFieldInfo, MemberSpec.encode, encodeAttributes, List.append_assoc,
    readWord_word16_file, readWord_word16 h _ hwf.1]
  exact readAttributes_encode h hgood rest _ atts junk hwf.2

theorem readMethodInfo_encode (h : Host) (hgood : ¬ h.bigLong) (m : MemberSpec)
    (hwf : m.WellFormed) (rest : List Nat) (junk : Junk) (atts : List attribute_info) :
    readMethodInfo h { data := m.encode ++ rest, junk := junk } atts =
      .ok ((parsedAttributes h junk m.attributes).reverse ++ atts,
        { data := rest, junk := afterLongs h m.attributes.length junk }) := by
  simp only [readMethodInfo, MemberSpec.encode, encodeAttributes, List.append_assoc,
    readWord_word16_file, readWord_word16 h _ hwf.1]
  exact readAttributes_encode h hgood rest _ atts junk hwf.2

theorem readFields_encode (h : Host) (hgood : ¬ h.bigLong) (rest : List Nat) :
    ∀ (ms : List MemberSpec) (atts : List attribute_info) (junk : Junk),
      (∀ m ∈ ms, m.WellFormed) →
      readFields h { data := (ms.map MemberSpec.encode).flatten ++ rest, junk := junk }
          ms.length atts =
        .ok ((parsedAttributes h junk (ms.map MemberSpec.attributes).flatten).reverse ++ atts,
          { data := rest,
            junk := afterLongs h (ms.map MemberSpec.attributes).flatten.length junk }) := by
  intro ms
  induction ms with
  | nil => intro atts junk _; simp [readFields, parsedAttributes, afterLongs_zero]
  | cons m ms ih =>
    intro atts junk hwf
    simp only [List.map_cons, List.flatten_cons, List.append_assoc, List.length_cons,
      readFields, readFieldInfo_encode h hgood m (hwf m (List.mem_cons_self _ _)), bind,
      Except.bind]
    rw [ih _ _ (fun x hx => hwf x (List.mem_cons_of_mem _ hx))]
    simp [parsedAttributes_append, afterLongs_afterLongs]

theorem readMethods_encode (h : Host) (hgood : ¬ h.bigLong) (rest : List Nat) :
    ∀ (ms : List MemberSpec) (atts : List attribute_info) (junk : Junk),
      (∀ m ∈ ms, m.WellFormed) →
      readMethods h { data := (ms.map MemberSpec.encode).flatten ++ rest, junk := junk }
          ms.length atts =
        .ok ((parsedAttributes h junk (ms.map MemberSpec.attributes).flatten).reverse ++ atts,
          { data := rest,
            junk := afterLongs h (ms.map MemberSpec.attributes).flatten.length junk }) := by
  intro ms
  induction ms with
  | nil => intro atts junk _; simp [readMethods, parsedAttributes, afterLongs_zero]
  | cons m ms ih =>
    intro atts junk hwf
    simp only [List.map_cons, List.flatten_cons, List.append_assoc, List.length_cons,
      readMethods, readMethodInfo_encode h hgood m (hwf m (List.mem_cons_self _ _)), bind,
      Except.bind]
    rw [ih _ _ (fun x hx => hwf x (List.mem_cons_of_mem _ hx))]
    simp [parsedAttributes_append, afterLongs_afterLongs]

theorem skipWordArray_encode (h : Host) (rest : List Nat) (junk : Junk) :
    ∀ (ws : List Nat),
      skipWordArray h { data := (ws.map word16).flatten ++ rest, junk := junk } ws.length =
        { data := rest, junk := junk } := by
  intro ws
  induction ws with
  | nil => rfl
  | cons w ws ih =>
    simp only [List.map_cons, List.flatten_cons, List.append_assoc, List.length_cons,
      skipWordArray, readWord_word16_file, ih]

theorem readClassFile_encode (h : Host) (hgood : ¬ h.bigLong) (c : ClassSpec)
    (hwf : c.WellFormed) (rest : List Nat) (junk : Junk) (filename : CStr) :
    readClassFile h { data := c.encode ++ rest, junk := junk } filename =
      .ok { constant_pool_count := 1 + poolSlots c.pool,
            constant_pool := none :: poolLayout c.pool,
            attributes :=
              (parsedAttributes h (afterLongs h (1 + poolLongs c.pool) junk)
                c.allAttributes).reverse } := by
  simp only [readClassFile, ClassSpec.encode, encodeMembers, encodeAttributes,
    List.append_assoc, readLong_long32_file, readWord_word16_file,
    readWord_word16 h _ hwf.poolCount, readConstantPool_encode h c.pool _ _ filename hwf.pool,
    bind, Except.bind, readWord_word16 h _ hwf.interfaces, skipWordArray_encode,
    readWord_word16 h _ hwf.fieldCount, readFields_encode h hgood _ c.fields [] _ hwf.fields,
    readWord_word16 h _ hwf.methodCount,
    readMethods_encode h hgood _ c.methods _ _ hwf.methods,
    readWord_word16 h _ hwf.attributeCount,
    readAttributes_encode h hgood _ c.attributes _ _ hwf.attributes, pure, Except.pure,
    ClassSpec.allAttributes]
  simp [parsedAttributes_append, afterLongs_afterLongs]

theorem parsedAttributes_content (h : Host) :
    ∀ (as : List AttributeSpec) (junk : Junk),
      (parsedAttributes h junk as).map attribute_info.content =
        as.map (fun a => (a.name_index, a.payload ++ [0])) := by
  intro as
  induction as with
  | nil => intro junk; rfl
  | cons a as ih =>
    intro junk
    simp only [parsedAttributes, List.map_cons, ih]
    rfl

theorem parsedAttributes_length (h : Host) (hgood : ¬ h.bigLong) :
    ∀ (as : List AttributeSpec) (junk : Junk), (∀ a ∈ as, a.WellFormed) →
      (parsedAttributes h junk as).map (fun a => a.attribute_length % 2 ^ 32) =
        as.map (fun a => a.payload.length) := by
  intro as
  induction as with
  | nil => intro junk _; rfl
  | cons a as ih =>
    intro junk hwf
    have hl : a.payload.length < 2 ^ 32 := by
      have := (hwf a (List.mem_cons_self _ _)).2
      omega
    simp only [parsedAttributes, List.map_cons,
      ih _ (fun x hx => hwf x (List.mem_cons_of_mem _ hx)), AttributeSpec.parsedOn,
      longValue_mod h (not_bigLong hgood) _ hl]

theorem parsedAttributes_short (h : Host) (hshort : h.long64 = false) :
    ∀ (as : List AttributeSpec) (junk : Junk),
      parsedAttributes h junk as = as.map AttributeSpec.parsed := by
  intro as
  induction as with
  | nil => intro junk; rfl
  | cons a as ih =>
    intro junk
    simp only [parsedAttributes, List.map_cons, ih, AttributeSpec.parsedOn,
      AttributeSpec.parsed, longValue_short h hshort]

theorem allAttributes_wellFormed (c : ClassSpec) (hwf : c.WellFormed) :
    ∀ a ∈ c.allAttributes, a.WellFormed := by
  intro a ha
  simp only [ClassSpec.allAttributes, List.mem_append, List.mem_flatten, List.mem_map] at ha
  rcases ha with (⟨l, ⟨m, hm, rfl⟩, hal⟩ | ⟨l, ⟨m, hm, rfl⟩, hal⟩) | ha
  · exact (hwf.fields m hm).2 a hal
  · exact (hwf.methods m hm).2 a hal
  · exact hwf.attributes a ha

theorem scanAttributes_each (g : Globals) (cf : classFile) :
    ∀ (atts : List attribute_info) (d final : List CStr),
      scanAttributes g cf atts d = .ok final →
      ∀ att ∈ atts, ∃ d1 d2, scanAttribute g cf att d1 = .ok d2 ∧ ∀ x ∈ d2, x ∈ final := by
  intro atts
  induction atts with
  | nil => intro d final _ att hatt; exact absurd hatt (List.not_mem_nil _)
  | cons a rest ih =>
    intro d final hrun att hatt
    simp only [scanAttributes, bind_ok_iff] at hrun
    obtain ⟨d1, hd1, hrun⟩ := hrun
    rcases List.mem_cons.1 hatt with rfl | hmem
    · exact ⟨d, d1, hd1,
        scanAttributes_kept (kept_superset g d1) cf rest d1 final hrun (fun _ hx => hx)⟩
    · exact ih d1 final hrun att hmem

theorem readAttributeInfo_bigLong (h : Host) (hbig : h.bigLong) (a : AttributeSpec)
    (hwf : a.WellFormed) (rest : List Nat) (junk : Junk) (atts : List attribute_info) :
    readAttributeInfo h { data := a.encode ++ rest, junk := junk } atts =
      if bigEndianValue (Junk.take junk 4) % 2 ^ 32 + 1 < 2 ^ 31 then
        .ok ({ attribute_name_index := a.name_index,
               attribute_length :=
                 a.payload.length * 2 ^ 32 + bigEndianValue (Junk.take junk 4),
               info := (readByteArray { data := a.payload ++ rest, junk := Junk.drop junk 4 }
                 (bigEndianValue (Junk.take junk 4) % 2 ^ 32)).1 } :: atts,
          (readByteArray { data := a.payload ++ rest, junk := Junk.drop junk 4 }
            (bigEndianValue (Junk.take junk 4) % 2 ^ 32)).2)
      else .error .outOfBounds := by
  obtain ⟨hn, hl⟩ := hwf
  obtain ⟨h64, hbe⟩ := hbig
  have hl32 : a.payload.length < 2 ^ 32 := by omega
  have hmod : (a.payload.length * 2 ^ 32 + bigEndianValue (Junk.take junk 4)) % 2 ^ 32 =
      bigEndianValue (Junk.take junk 4) % 2 ^ 32 := by
    rw [Nat.add_comm, Nat.add_mul_mod_self_right]
  simp only [readAttributeInfo, AttributeSpec.encode, List.append_assoc,
    readWord_word16 h _ hn, readLong_long32 h _ hl32, longValue, h64, hbe, if_true,
    Bool.false_eq_true, if_false, hmod, afterLongs, longPad, sizeofLong, Nat.one_mul]

theorem scanAttribute_content (g : Globals) (cf : classFile) (att att' : attribute_info)
    (h : att.content = att'.content) (deps : List CStr) :
    scanAttribute g cf att deps = scanAttribute g cf att' deps := by
  have h1 : att.attribute_name_index = att'.attribute_name_index := congrArg Prod.fst h
  have h2 : att.info = att'.info := congrArg Prod.snd h
  simp only [scanAttribute, h1, h2]

/-- C21: for every well-formed class file and whatever follows it in the file, on a
host whose `unsigned long` has 4 bytes or whose byte order is little-endian,
`readClassFile` returns a class whose attribute list holds, by name index and payload,
the attributes of every field, of every method and of the class, each once per
occurrence: the list is the file-order concatenation reversed, hence a permutation of
it; the length kept in a record is the declared length in its low 32 bits.  The
attribute loop of `findDepsInFile` scans each record, by its name index and payload
alone, an attribute of a field or method like one of the class, and what such a scan
yields is in the result.  On a big-endian host whose `unsigned long` has 8 bytes the
length of the payload that `readAttributeInfo` reads is not the declared one: it is
what the indeterminate half of the `longword` holds. -/
theorem readClassFile_attributes (h : Host) (c : ClassSpec) (hwf : c.WellFormed)
    (rest : List Nat) (junk : Junk) (filename : CStr) :
    (¬ h.bigLong →
      ∃ cf, readClassFile h { data := c.encode ++ rest, junk := junk } filename = .ok cf ∧
        cf.attributes.map attribute_info.content =
          (c.allAttributes.map (fun a => (a.name_index, a.payload ++ [0]))).reverse ∧
        (cf.attributes.map attribute_info.content).Perm
          (c.allAttributes.map (fun a => (a.name_index, a.payload ++ [0]))) ∧
        (∀ x, (cf.attributes.map attribute_info.content).count x =
          (c.allAttributes.map (fun a => (a.name_index, a.payload ++ [0]))).count x) ∧
        cf.attributes.map (fun a => a.attribute_length % 2 ^ 32) =
          (c.allAttributes.map (fun a => a.payload.length)).reverse ∧
        (h.long64 = false →
          cf.attributes = (c.allAttributes.map AttributeSpec.parsed).reverse) ∧
        (∀ m ∈ c.fields ++ c.methods, ∀ a ∈ m.attributes,
          (a.name_index, a.payload ++ [0]) ∈ cf.attributes.map attribute_info.content) ∧
        (∀ findDeps g target deps final,
          findDepsInFile findDeps g target cf deps = .ok final →
          ∀ att ∈ cf.attributes, ∃ d1 d2,
            scanAttribute g cf att d1 = .ok d2 ∧ ∀ x ∈ d2, x ∈ final) ∧
        (∀ g att att' deps, att.content = att'.content →
          scanAttribute g cf att deps = scanAttribute g cf att' deps)) ∧
    (h.bigLong → ∀ (a : AttributeSpec) (atts : List attribute_info), a.WellFormed →
      readAttributeInfo h { data := a.encode ++ rest, junk := junk } atts =
        if bigEndianValue (Junk.take junk 4) % 2 ^ 32 + 1 < 2 ^ 31 then
          .ok ({ attribute_name_index := a.name_index,
                 attribute_length :=
                   a.payload.length * 2 ^ 32 + bigEndianValue (Junk.take junk 4),
                 info := (readByteArray { data := a.payload ++ rest, junk := Junk.drop junk 4 }
                   (bigEndianValue (Junk.take junk 4) % 2 ^ 32)).1 } :: atts,
            (readByteArray { data := a.payload ++ rest, junk := Junk.drop junk 4 }
              (bigEndianValue (Junk.take junk 4) % 2 ^ 32)).2)
        else .error .outOfBounds) := by
  refine ⟨fun hgood => ?_, fun hbig a atts ha =>
    readAttributeInfo_bigLong h hbig a ha rest junk atts⟩
  have hcontent : (parsedAttributes h (afterLongs h (1 + poolLongs c.pool) junk)
      c.allAttributes).reverse.map attribute_info.content =
      (c.allAttributes.map (fun a => (a.name_index, a.payload ++ [0]))).reverse := by
    rw [List.map_reverse, parsedAttributes_content]
  refine ⟨_, readClassFile_encode h hgood c hwf rest junk filename, hcontent, ?_, ?_, ?_, ?_,
    ?_, ?_, ?_⟩
  · show ((parsedAttributes h (afterLongs h (1 + poolLongs c.pool) junk)
      c.allAttributes).reverse.map attribute_info.content).Perm _
    rw [hcontent]
    exact List.reverse_perm _
  · intro x
    show ((parsedAttributes h (afterLongs h (1 + poolLongs c.pool) junk)
      c.allAttributes).reverse.map attribute_info.content).count x = _
    rw [hcontent, List.count_reverse]
  · show (parsedAttributes h (afterLongs h (1 + poolLongs c.pool) junk)
      c.allAttributes).reverse.map (fun a => a.attribute_length % 2 ^ 32) = _
    rw [List.map_reverse, parsedAttributes_length h hgood _ _ (allAttributes_wellFormed c hwf)]
  · intro hshort
    show (parsedAttributes h (afterLongs h (1 + poolLongs c.pool) junk)
      c.allAttributes).reverse = _
    rw [parsedAttributes_short h hshort]
  · intro m hm a ha
    show (a.name_index, a.payload ++ [0]) ∈ (parsedAttributes h
      (afterLongs h (1 + poolLongs c.pool) junk) c.allAttributes).reverse.map
        attribute_info.content
    rw [hcontent, List.mem_reverse]
    refine List.mem_map.2 ⟨a, ?_, rfl⟩
    simp only [ClassSpec.allAttributes, List.mem_append, List.mem_flatten, List.mem_map]
    rcases List.mem_append.1 hm with hf | hmeth
    · exact Or.inl (Or.inl ⟨_, ⟨m, hf, rfl⟩, ha⟩)
    · exact Or.inl (Or.inr ⟨_, ⟨m, hmeth, rfl⟩, ha⟩)
  · intro findDeps g target deps final hrun att hatt
    simp only [findDepsInFile, bind_ok_iff] at hrun
    obtain ⟨d, -, hrun⟩ := hrun
    exact scanAttributes_each g _ _ d final hrun att hatt
  · intro g att att' deps hc
    exact scanAttribute_content g _ att att' hc deps

theorem memberClass_wellFormed : memberClass.WellFormed := by
  refine ⟨?_, by decide, by decide, by decide, ?_, by decide, ?_, by decide, ?_⟩
  · intro e he
    simp only [memberClass, plainClass, taggedPool, List.mem_cons, List.mem_singleton,
      List.not_mem_nil, or_false] at he
    rcases he with rfl | rfl | rfl | rfl | rfl | rfl | rfl | rfl | rfl <;>
      simp [CpEntry.WellFormed, bytesOf]
  · intro m hm
    simp only [memberClass, plainClass, List.mem_singleton] at hm
    subst hm
    refine ⟨by decide, ?_⟩
    intro a ha
    simp only [List.mem_singleton] at ha
    subst ha
    exact ⟨by decide, by decide⟩
  · intro m hm
    simp only [memberClass, plainClass, List.mem_singleton] at hm
    subst hm
    refine ⟨by decide, ?_⟩
    intro a ha
    simp only [List.mem_singleton] at ha
    subst ha
    exact ⟨by decide, by decide⟩
  · intro a ha
    simp only [memberClass, plainClass, List.mem_singleton] at ha
    subst ha
    exact ⟨by decide, by decide⟩

theorem readClassFile_attributes_witness :
    memberClass.WellFormed ∧
    (∃ cf, readClassFile { littleEndian := true, long64 := true }
        { data := memberClass.encode ++ [], junk := fun _ => 255 }
        (bytesOf "com/foo/Tagged.class") = .ok cf ∧
      cf.attributes.map attribute_info.content =
        [(3, [0, 1, 0, 8, 0, 0, 0]), (3, [0, 1, 0, 5, 0, 0, 0]), (3, [0, 1, 0, 4, 0, 0, 0])]) ∧
    findDeps memberEnv 1 (bytesOf "com/foo/Tagged") [] =
      .ok [bytesOf "com/foo/Tagged", bytesOf "com/foo/Tagged$Mark", bytesOf "com/foo/Lit",
        bytesOf "org/baz/Other$Anno"] ∧
    readAttributeInfo { littleEndian := false, long64 := true }
        { data := AttributeSpec.encode { name_index := 3, payload := [0, 1, 0, 8, 0, 0] } ++
            [0, 0], junk := zeros } [] =
      .ok ([{ attribute_name_index := 3, attribute_length := 6 * 2 ^ 32, info := [0] }],
        { data := [0, 1, 0, 8, 0, 0, 0, 0], junk := zeros }) := by
  refine ⟨memberClass_wellFormed, ?_, by rfl, ?_⟩
  · obtain ⟨cf, hcf, hatts, -⟩ := (readClassFile_attributes
      { littleEndian := true, long64 := true } memberClass memberClass_wellFormed []
      (fun _ => 255) (bytesOf "com/foo/Tagged.class")).1 (by simp [Host.bigLong])
    exact ⟨cf, hcf, hatts.trans (by rfl)⟩
  · exact ((readClassFile_attributes { littleEndian := false, long64 := true } memberClass
      memberClass_wellFormed [0, 0] zeros (bytesOf "com/foo/Tagged.class")).2
      ⟨rfl, rfl⟩ { name_index := 3, payload := [0, 1, 0, 8, 0, 0] } []
      ⟨by decide, by decide⟩).trans (by rfl)

/-! ## Short files -/

theorem fread_short (size : Nat) (f : FILE) (hshort : f.data.length < size) :
    fread size 1 f = (Junk.take f.junk size, { data := [], junk := Junk.drop f.junk size }) := by
  have hdiv : f.data.length / size = 0 := Nat.div_eq_of_lt hshort
  simp only [fread, hdiv, Nat.min_zero, Nat.zero_mul, List.take_zero, List.nil_append,
    Nat.mul_one, Nat.sub_zero, List.drop_eq_nil_of_le (Nat.le_of_lt hshort)]

theorem fread_data (size nmemb : Nat) (f : FILE) :
    (fread size nmemb f).2.data = f.data.drop (size * nmemb) := rfl

theorem fread_take (f : FILE) (n : Nat) :
    (fread 1 n f).1 = f.data.take n ++ Junk.take f.junk (n - f.data.length) := by
  simp only [fread, Nat.div_one, Nat.mul_one, Nat.one_mul]
  by_cases hn : n ≤ f.data.length
  · rw [Nat.min_eq_left hn, Nat.sub_self, Nat.sub_eq_zero_of_le hn]
  · have hle : f.data.length ≤ n := Nat.le_of_lt (Nat.lt_of_not_le hn)
    rw [Nat.min_eq_right hle, List.take_of_length_le (Nat.le_refl _),
      List.take_of_length_le hle]

theorem readWord_short (h : Host) (f : FILE) (hshort : f.data.length < 2) :
    readWord h f = (256 * f.junk 0 + f.junk 1, { data := [], junk := Junk.drop f.junk 2 }) := by
  have htake : Junk.take f.junk 2 = [f.junk 0, f.junk 1] := rfl
  rcases h with ⟨_ | _, _⟩ <;>
    simp [readWord, fread_short 2 f hshort, htake, LittleEndian, testEndianism,
      hostWordBytes, reverseBytes, reverseBytesLoop, hostValue, bigEndianValue,
      Nat.mul_comm]

theorem readLong_short (h : Host) (f : FILE) (hshort : f.data.length < 4) :
    readLong h f = readLong h { data := Junk.take f.junk 4, junk := Junk.drop f.junk 4 } := by
  have hwhole := fread_whole 4 1 { data := Junk.take f.junk 4, junk := Junk.drop f.junk 4 }
    (by decide) (by simp [Junk.length_take])
  simp only [readLong, fread_short 4 f hshort, hwhole, Nat.mul_one]
  rfl

theorem bind_fault {α β : Type} {P : Fault → Prop} {x : Except Fault α}
    {f : α → Except Fault β} (hx : ∀ e, x = .error e → P e)
    (hf : ∀ a e, f a = .error e → P e) : ∀ e, (x >>= f) = .error e → P e := by
  intro e he
  cases x with
  | error e' =>
    have : e' = e := by simpa [bind, Except.bind] using he
    exact this ▸ hx e' rfl
  | ok a => exact hf a e he

theorem readConstantPoolInfo_fault (h : Host) (fyle : FILE) (filename : CStr) :
    ∀ e, readConstantPoolInfo h fyle filename = .error e → ReadFault filename e := by
  intro e he
  by_cases ht : (readByte fyle).1 ∈ validTags
  · obtain ⟨r, hr⟩ := readConstantPoolInfo_valid h fyle filename ht
    rw [hr] at he
    exact absurd he (by simp)
  · rw [readConstantPoolInfo_invalid h fyle filename ht] at he
    exact Or.inr ⟨_, (Except.error.inj he).symm⟩

theorem store_fault {α : Type} (filename : CStr) (a : List α) (i : Nat) (v : α) :
    ∀ e, store a i v = .error e → ReadFault filename e := by
  intro e he
  unfold store at he
  split_ifs at he
  exact Or.inl (Except.error.inj he).symm

theorem readConstantPoolLoop_fault (h : Host) (filename : CStr) (count : Nat) :
    ∀ (k i : Nat) (fyle : FILE) (res : List (Option cp_info)), count ≤ i + k →
      ∀ e, readConstantPoolLoop h filename count k i fyle res = .error e →
        ReadFault filename e := by
  intro k
  induction k with
  | zero =>
    intro i fyle res hle e he
    have : ¬ i < count := by omega
    simp [readConstantPoolLoop, this] at he
  | succ k ih =>
    intro i fyle res hle
    simp only [readConstantPoolLoop]
    split_ifs with hi
    · refine bind_fault (readConstantPoolInfo_fault h fyle filename) (fun r => ?_)
      cases r.1 with
      | LONG_TAG =>
        refine bind_fault (store_fault filename _ _ _) (fun r1 => ?_)
        refine bind_fault (store_fault filename _ _ _) (fun r2 => ?_)
        exact ih _ _ _ (by omega)
      | null =>
        refine bind_fault (store_fault filename _ _ _) (fun r1 => ?_)
        exact ih _ _ _ (by omega)
      | obj cp =>
        refine bind_fault (store_fault filename _ _ _) (fun r1 => ?_)
        exact ih _ _ _ (by omega)
    · intro e he
      exact absurd he (by simp)

theorem readConstantPool_fault (h : Host) (fyle : FILE) (filename : CStr) (count : Nat) :
    ∀ e, readConstantPool h fyle filename count = .error e → ReadFault filename e := by
  simp only [readConstantPool]
  refine bind_fault (store_fault filename _ _ _) (fun r => ?_)
  exact readConstantPoolLoop_fault h filename count _ _ _ _ (by omega)

theorem readAttributeInfo_fault (h : Host) (filename : CStr) (fyle : FILE)
    (atts : List attribute_info) :
    ∀ e, readAttributeInfo h fyle atts = .error e → ReadFault filename e := by
  intro e he
  unfold readAttributeInfo at he
  simp only at he
  split_ifs at he
  exact Or.inl (Except.error.inj he).symm

theorem readAttributes_fault (h : Host) (filename : CStr) :
    ∀ (n : Nat) (fyle : FILE) (atts : List attribute_info),
      ∀ e, readAttributes h fyle n atts = .error e → ReadFault filename e := by
  intro n
  induction n with
  | zero => intro fyle atts e he; simp [readAttributes] at he
  | succ n ih =>
    intro fyle atts
    simp only [readAttributes]
    exact bind_fault (readAttributeInfo_fault h filename fyle atts) (fun r => ih _ _)

theorem readFields_fault (h : Host) (filename : CStr) :
    ∀ (n : Nat) (fyle : FILE) (atts : List attribute_info),
      ∀ e, readFields h fyle n atts = .error e → ReadFault filename e := by
  intro n
  induction n with
  | zero => intro fyle atts e he; simp [readFields] at he
  | succ n ih =>
    intro fyle atts
    simp only [readFields, readFieldInfo]
    exact bind_fault (readAttributes_fault h filename _ _ _) (fun r => ih _ _)

theorem readMethods_fault (h : Host) (filename : CStr) :
    ∀ (n : Nat) (fyle : FILE) (atts : List attribute_info),
      ∀ e, readMethods h fyle n atts = .error e → ReadFault filename e := by
  intro n
  induction n with
  | zero => intro fyle atts e he; simp [readMethods] at he
  | succ n ih =>
    intro fyle atts
    simp only [readMethods, readMethodInfo]
    exact bind_fault (readAttributes_fault h filename _ _ _) (fun r => ih _ _)

theorem readClassFile_fault (h : Host) (fyle : FILE) (filename : CStr) :
    ∀ e, readClassFile h fyle filename = .error e → ReadFault filename e := by
  simp only [readClassFile]
  refine bind_fault (readConstantPool_fault h _ _ _) (fun p => ?_)
  refine bind_fault (readFields_fault h filename _ _ _) (fun a => ?_)
  refine bind_fault (readMethods_fault h filename _ _ _) (fun b => ?_)
  refine bind_fault (readAttributes_fault h filename _ _ _) (fun c => ?_)
  intro e he
  simp [pure, Except.pure] at he

theorem readAttributeInfo_cut (h : Host) (hgood : ¬ h.bigLong) (name_index len : Nat)
    (hn : name_index < 2 ^ 16) (hl : len + 1 < 2 ^ 31) (pre : List Nat)
    (hpre : pre.length ≤ len) (junk : Junk) (atts : List attribute_info) :
    readAttributeInfo h { data := word16 name_index ++ (long32 len ++ pre), junk := junk }
        atts =
      .ok ({ attribute_name_index := name_index,
             attribute_length := longValue h len junk,
             info := pre ++ Junk.take (afterLongs h 1 junk) (len - pre.length) ++ [0] } :: atts,
        { data := [], junk := Junk.drop (afterLongs h 1 junk) (len - pre.length) }) := by
  have hl32 : len < 2 ^ 32 := by omega
  have hdata : (fread 1 len { data := pre, junk := afterLongs h 1 junk }).2 =
      { data := [], junk := Junk.drop (afterLongs h 1 junk) (len - pre.length) } := by
    simp only [fread, Nat.div_one, Nat.mul_one, Nat.one_mul, Nat.min_eq_right hpre,
      List.drop_eq_nil_of_le hpre]
  have hval := fread_take { data := pre, junk := afterLongs h 1 junk } len
  simp only [List.take_of_length_le hpre] at hval
  have hlong := readLong_long32 h len hl32 (pre ++ []) junk
  rw [List.append_nil] at hlong
  simp only [readAttributeInfo, readWord_word16 h _ hn, hlong,
    longValue_mod h (not_bigLong hgood) _ hl32, if_pos hl, readByteArray, hval, hdata]

theorem readClassFile_cut (h : Host) (hgood : ¬ h.bigLong) (c : ClassSpec)
    (hwf : c.WellFormed) (name_index len : Nat) (hn : name_index < 2 ^ 16)
    (hl : len + 1 < 2 ^ 31) (pre : List Nat) (hpre : pre.length ≤ len) (junk : Junk)
    (filename : CStr) :
    readClassFile h
        { data := long32 c.magic ++ word16 c.minor_version ++ word16 c.major_version ++
            word16 (1 + poolSlots c.pool) ++ encodePool c.pool ++
            word16 c.access_flags ++ word16 c.this_class ++ word16 c.super_class ++
            word16 c.interfaces.length ++ (c.interfaces.map word16).flatten ++
            encodeMembers c.fields ++ encodeMembers c.methods ++
            (word16 1 ++ (word16 name_index ++ (long32 len ++ pre))),
          junk := junk } filename =
      .ok { constant_pool_count := 1 + poolSlots c.pool,
            constant_pool := none :: poolLayout c.pool,
            attributes :=
              { attribute_name_index := name_index,
                attribute_length :=
                  longValue h len (afterLongs h (1 + poolLongs c.pool +
                    ((c.fields.map MemberSpec.attributes).flatten ++
                      (c.methods.map MemberSpec.attributes).flatten).length) junk),
                info := pre ++ Junk.take (afterLongs h (1 + poolLongs c.pool +
                    ((c.fields.map MemberSpec.attributes).flatten ++
                      (c.methods.map MemberSpec.attributes).flatten).length + 1) junk)
                    (len - pre.length) ++ [0] } ::
              (parsedAttributes h (afterLongs h (1 + poolLongs c.pool) junk)
                ((c.fields.map MemberSpec.attributes).flatten ++
                  (c.methods.map MemberSpec.attributes).flatten)).reverse } := by
  simp only [readClassFile, encodeMembers, 
    List.append_assoc, readLong_long32_file, readWord_word16_file,
    readWord_word16 h _ hwf.poolCount, readConstantPool_encode h c.pool _ _ filename hwf.pool,
    bind, Except.bind, readWord_word16 h _ hwf.interfaces, skipWordArray_encode,
    readWord_word16 h _ hwf.fieldCount, readFields_encode h hgood _ c.fields [] _ hwf.fields,
    readWord_word16 h _ hwf.methodCount,
    readMethods_encode h hgood _ c.methods _ _ hwf.methods,
    readWord_word16 h 1 (by decide), readAttributes,
    readAttributeInfo_cut h hgood name_index len hn hl pre hpre, pure, Except.pure]
  simp [parsedAttributes_append, afterLongs_afterLongs, Nat.add_assoc]

theorem taggedClass_wellFormed : (taggedClass [litAnnot]).WellFormed := by
  refine ⟨?_, by decide, by decide, by decide, ?_, by decide, ?_, by decide, ?_⟩
  · intro e he
    simp only [taggedClass, plainClass, taggedPool, List.mem_cons, List.mem_singleton,
      List.not_mem_nil, or_false] at he
    rcases he with rfl | rfl | rfl | rfl | rfl | rfl | rfl | rfl | rfl <;>
      simp [CpEntry.WellFormed, bytesOf]
  · intro m hm
    simp [taggedClass, plainClass] at hm
  · intro m hm
    simp [taggedClass, plainClass] at hm
  · intro a ha
    simp only [taggedClass, plainClass, List.mem_singleton] at ha
    subst ha
    exact ⟨by decide, by decide⟩

theorem readClassFile_cutFile (h : Host) (hgood : ¬ h.bigLong) (junk : Junk)
    (filename : CStr) :
    readClassFile h { data := cutFile, junk := junk } filename =
      .ok { taggedCf [litAnnot] with
            attributes :=
              [{ attribute_name_index := 3,
                 attribute_length := longValue h 11 (afterLongs h 1 junk),
                 info := [0, 1, 0, 4, 0, 1, 0] ++ Junk.take (afterLongs h 2 junk) 4 ++ [0] }] } := by
  have hcut := readClassFile_cut h hgood (taggedClass [litAnnot]) taggedClass_wellFormed 3 11
    (by decide) (by decide) [0, 1, 0, 4, 0, 1, 0] (by decide) junk filename
  have hdata : cutFile = long32 (taggedClass [litAnnot]).magic ++
      word16 (taggedClass [litAnnot]).minor_version ++
      word16 (taggedClass [litAnnot]).major_version ++
      word16 (1 + poolSlots (taggedClass [litAnnot]).pool) ++
      encodePool (taggedClass [litAnnot]).pool ++
      word16 (taggedClass [litAnnot]).access_flags ++
      word16 (taggedClass [litAnnot]).this_class ++
      word16 (taggedClass [litAnnot]).super_class ++
      word16 (taggedClass [litAnnot]).interfaces.length ++
      ((taggedClass [litAnnot]).interfaces.map word16).flatten ++
      encodeMembers (taggedClass [litAnnot]).fields ++
      encodeMembers (taggedClass [litAnnot]).methods ++
      (word16 1 ++ (word16 3 ++ (long32 11 ++ [0, 1, 0, 4, 0, 1, 0]))) := by rfl
  rw [hdata, hcut]
  rfl

/-- C16, what fails: a read that asks for more bytes than remain returns a value all the
same, whatever the indeterminate bytes are (here two bytes are asked for and one
remains), and the class file `cutFile`, which ends inside the payload of its attribute,
7 of the 11 bytes that are declared being there, is parsed to a class: the payload is
completed by 4 indeterminate bytes. -/
theorem readClassFile_truncated_counterexample :
    cutFile.length + 4 = (taggedClass [litAnnot]).encode.length ∧
    (∀ junk : Junk,
      readWord { littleEndian := true, long64 := true } { data := [0xCA], junk := junk } =
        (256 * junk 0 + junk 1, { data := [], junk := Junk.drop junk 2 })) ∧
    (∀ junk : Junk,
      readByteArray { data := [0x41], junk := junk } 3 =
        ([0x41, junk 0, junk 1, 0], { data := [], junk := Junk.drop junk 2 })) ∧
    (∀ junk : Junk,
      readClassFile { littleEndian := true, long64 := false }
          { data := cutFile, junk := junk } (bytesOf "com/foo/Tagged.class") =
        .ok { taggedCf [litAnnot] with
              attributes := [{ attribute_name_index := 3, attribute_length := 11,
                               info := [0, 1, 0, 4, 0, 1, 0, junk 0, junk 1, junk 2, junk 3,
                                 0] }] }) ∧
    (∀ junk : Junk,
      (readClassFile { littleEndian := true, long64 := true }
          { data := cutFile, junk := junk } (bytesOf "com/foo/Tagged.class")).map
          (fun cf => cf.attributes.map attribute_info.content) =
        .ok [(3, [0, 1, 0, 4, 0, 1, 0, junk 8, junk 9, junk 10, junk 11, 0])]) := by
  refine ⟨by rfl, fun junk => ?_, fun junk => ?_, fun junk => ?_, fun junk => ?_⟩
  · exact readWord_short _ _ (by simp)
  · have hval := fread_take { data := [0x41], junk := junk } 3
    have hfile : (fread 1 3 { data := [0x41], junk := junk }).2 =
        { data := [], junk := Junk.drop junk 2 } := by
      simp [fread]
    simp only [readByteArray, hval, hfile]
    rfl
  · rw [readClassFile_cutFile _ (by simp [Host.bigLong]) junk]
    rfl
  · rw [readClassFile_cutFile _ (by simp [Host.bigLong]) junk]
    rfl

/-- C16, amended: no read fails on a short file.  Each of `readByte`, `readWord`,
`readLong` and `readByteArray` returns a value and leaves the file 1, 2, 4 and `n` bytes
further, at its end when fewer remain.  A byte, a number of 2 bytes or a number of 4
bytes that is not there in full is made of indeterminate bytes: the read returns what it
would return on those; of a byte array the bytes that remain are read and the rest of
the buffer stays indeterminate.  An attribute whose payload ends early is read with the
payload completed in this way, and `readClassFile` stops only for a tag that is no
constant pool tag or for a fault of the memory, not because the file ends. -/
theorem readClassFile_short (h : Host) (fyle : FILE) (filename : CStr) (n : Nat) :
    (readByte fyle).2.data = fyle.data.drop 1 ∧
    (readWord h fyle).2.data = fyle.data.drop 2 ∧
    (readLong h fyle).2.data = fyle.data.drop 4 ∧
    (readByteArray fyle n).2.data = fyle.data.drop n ∧
    (fyle.data.length < 1 →
      readByte fyle = (fyle.junk 0, { data := [], junk := Junk.drop fyle.junk 1 })) ∧
    (fyle.data.length < 2 →
      readWord h fyle =
        (256 * fyle.junk 0 + fyle.junk 1, { data := [], junk := Junk.drop fyle.junk 2 })) ∧
    (fyle.data.length < 4 →
      readLong h fyle =
        readLong h { data := Junk.take fyle.junk 4, junk := Junk.drop fyle.junk 4 }) ∧
    (readByteArray fyle n).1 =
      fyle.data.take n ++ Junk.take fyle.junk (n - fyle.data.length) ++ [0] ∧
    (¬ h.bigLong → ∀ name_index len pre atts, name_index < 2 ^ 16 → len + 1 < 2 ^ 31 →
      pre.length ≤ len →
      readAttributeInfo h
          { data := word16 name_index ++ (long32 len ++ pre), junk := fyle.junk } atts =
        .ok ({ attribute_name_index := name_index,
               attribute_length := longValue h len fyle.junk,
               info := pre ++ Junk.take (afterLongs h 1 fyle.junk) (len - pre.length) ++
                 [0] } :: atts,
          { data := [], junk := Junk.drop (afterLongs h 1 fyle.junk) (len - pre.length) })) ∧
    (∀ e, readClassFile h fyle filename = .error e →
      e = .outOfBounds ∨ ∃ t, e = .invalidConstantTag t filename) := by
  refine ⟨?_, ?_, ?_, ?_, ?_, readWord_short h fyle, readLong_short h fyle, ?_, ?_,
    readClassFile_fault h fyle filename⟩
  · simp only [readByte, fread_data, Nat.mul_one]
  · simp only [readWord, fread_data, Nat.mul_one]
  · simp only [readLong, fread_data, Nat.mul_one]
  · simp only [readByteArray, fread_data, Nat.one_mul]
  · intro hshort
    simp only [readByte, fread_short 1 fyle hshort]
    rfl
  · simp only [readByteArray, fread_take]
  · intro hgood name_index len pre atts hn hl hpre
    exact readAttributeInfo_cut h hgood name_index len hn hl pre hpre fyle.junk atts

/-! ## Empty slots of the constant pool -/

/-- C22: for an index in range whose slot is empty, `getClassName` returns no name, but
`getString` reads the tag through the `NULL` pointer of the slot: it ends in the null
dereference, and so do `getClassName` on a `Class` slot whose name index is that index,
the pool scan of such a `Class` slot, and the scan of an attribute whose name index is
that index. -/
theorem getString_empty_slot (cf : classFile) (i : Nat)
    (hslot : cf.constant_pool[i]? = some none) :
    getClassName cf i = .ok none ∧
    getString cf i = .error .nullDereference ∧
    (∀ j, cf.constant_pool[j]? = some (some (.constant_class_info i)) →
      getClassName cf j = .error .nullDereference) ∧
    (∀ findDeps g target j deps,
      cf.constant_pool[j]? = some (some (.constant_class_info i)) →
      scanPoolSlot findDeps g target cf j deps = .error .nullDereference) ∧
    (∀ g att deps, att.attribute_name_index = i →
      scanAttribute g cf att deps = .error .nullDereference) := by
  have hget : getString cf i = .error .nullDereference := by
    simp only [getString, poolAt, hslot, deref, bind, Except.bind]
  have hclass : ∀ j, cf.constant_pool[j]? = some (some (.constant_class_info i)) →
      getClassName cf j = .error .nullDereference := by
    intro j hj
    rw [getClassName_class hj, hget]
  refine ⟨?_, hget, hclass, ?_, ?_⟩
  · simp only [getClassName, poolAt, hslot, bind, Except.bind, pure, Except.pure]
  · intro findDeps g target j deps hj
    simp only [scanPoolSlot, poolAt, hj, hclass j hj, bind, Except.bind]
  · intro g att deps hatt
    simp only [scanAttribute, hatt, hget, bind, Except.bind]

theorem getString_empty_slot_witness :
    readClassFile { littleEndian := true, long64 := true } { data := hollowClass.encode, junk := zeros }
      (bytesOf "com/foo/Hollow.class") = .ok hollowCf ∧
    hollowCf.constant_pool[2]? = some none ∧
    getClassName hollowCf 2 = .ok none ∧
    getString hollowCf 2 = .error .nullDereference ∧
    getClassName hollowCf 1 = .error .nullDereference ∧
    findDeps hollowEnv 1 (bytesOf "com/foo/Hollow") [] = .error .nullDereference :=
  ⟨by rfl, by rfl, (getString_empty_slot hollowCf 2 (by rfl)).1,
    (getString_empty_slot hollowCf 2 (by rfl)).2.1,
    (getString_empty_slot hollowCf 2 (by rfl)).2.2.1 1 (by rfl), by rfl⟩

/-! ## The header of a class file -/

theorem readClassFile_any_header (h : Host) (hd : List Nat) (b8 b9 : Nat)
    (more : List Nat) (junk : Junk) (filename : CStr) (hlen : hd.length = 8)
    (h8 : b8 < 256) (h9 : b9 < 256) :
    readClassFile h { data := hd ++ b8 :: b9 :: more, junk := junk } filename =
      readClassFile h { data := classHeader 0 0 0 (256 * b8 + b9) ++ more, junk := junk }
        filename := by
  have hskip : ∀ x : List Nat, x.length = 8 →
      (readWord h (readWord h (readLong h
        { data := x ++ b8 :: b9 :: more, junk := junk }).2).2).2 =
        { data := b8 :: b9 :: more, junk := afterLongs h 1 junk } := by
    intro x hx
    have h4 : (fread 4 1 { data := x ++ b8 :: b9 :: more, junk := junk }).2 =
        { data := (x ++ b8 :: b9 :: more).drop 4, junk := junk } := by
      rw [fread_whole 4 1 _ (by decide) (by simp [hx]; omega)]
    have hword : ∀ f : FILE, 2 ≤ f.data.length →
        (readWord h f).2 = { data := f.data.drop 2, junk := f.junk } := by
      intro f hf
      simp only [readWord, fread_whole 2 1 f (by decide) (by simpa using hf)]
    have s1 : (readLong h { data := x ++ b8 :: b9 :: more, junk := junk }).2 =
        { data := (x ++ b8 :: b9 :: more).drop 4, junk := afterLongs h 1 junk } := by
      simp only [readLong, h4, afterLongs, longPad, Nat.one_mul]
    have s2 : (readWord h (readLong h { data := x ++ b8 :: b9 :: more, junk := junk }).2).2 =
        { data := ((x ++ b8 :: b9 :: more).drop 4).drop 2, junk := afterLongs h 1 junk } := by
      rw [s1]
      exact hword _ (by simp [hx]; omega)
    rw [s2, hword _ (by simp [hx]; omega)]
    simp only [List.drop_drop, List.drop_left' hx]
  have e1 : (256 * b8 + b9) / 256 % 256 = b8 := by omega
  have e2 : (256 * b8 + b9) % 256 = b9 := by omega
  have hzero : classHeader 0 0 0 (256 * b8 + b9) ++ more =
      (long32 0 ++ word16 0 ++ word16 0) ++ b8 :: b9 :: more := by
    simp only [classHeader, word16, e1, e2, List.append_assoc, List.cons_append,
      List.nil_append]
  rw [hzero]
  simp only [readClassFile, hskip hd hlen, hskip (long32 0 ++ word16 0 ++ word16 0) rfl]

/-- C23, what fails: in the class file `versionClass` bytes 4 and 5 are 0 and 3, the
minor version, and bytes 8 and 9 are 0 and 1; the parse returns the pool count 1, not 3,
and byte 6, which is 0 and no tag, is not read as a tag. -/
theorem readClassFile_header_counterexample :
    versionClass.encode =
      [0xCA, 0xFE, 0xBA, 0xBE, 0, 3, 0, 49, 0, 1, 0, 33, 0, 0, 0, 0, 0, 0, 0, 0, 0, 0, 0, 0] ∧
    versionClass.encode[4]? = some 0 ∧ versionClass.encode[5]? = some 3 ∧
    versionClass.encode[6]? = some 0 ∧ 0 ∉ validTags ∧
    versionClass.encode[8]? = some 0 ∧ versionClass.encode[9]? = some 1 ∧
    readClassFile { littleEndian := true, long64 := true } { data := versionClass.encode, junk := zeros }
        (bytesOf "Version.class") =
      .ok { constant_pool_count := 1, constant_pool := [none], attributes := [] } := by
  refine ⟨by rfl, by rfl, by rfl, by rfl, by decide, by rfl, by rfl, by rfl⟩

/-- C23, amended: `readClassFile` skips a header of 8 bytes, whose values never affect
the result, and takes the pool count from the big-endian word in bytes 8 and 9: the
class it returns has that count, its pool is what `readConstantPool` reads with that
count from byte 10 on, a failure of that reading is the failure of the parse, and with a
count of at least 2 byte 10 is read as the first tag. -/
theorem readClassFile_header_skip (h : Host) (hd hd' : List Nat) (b8 b9 : Nat)
    (more : List Nat) (junk : Junk) (filename : CStr) (hlen : hd.length = 8)
    (hlen' : hd'.length = 8) (h8 : b8 < 256) (h9 : b9 < 256) :
    readClassFile h { data := hd ++ b8 :: b9 :: more, junk := junk } filename =
      readClassFile h { data := hd' ++ b8 :: b9 :: more, junk := junk } filename ∧
    (∀ cf, readClassFile h { data := hd ++ b8 :: b9 :: more, junk := junk } filename = .ok cf →
      cf.constant_pool_count = 256 * b8 + b9 ∧
      ∃ f, readConstantPool h { data := more, junk := afterLongs h 1 junk } filename
          (256 * b8 + b9) =
        .ok (cf.constant_pool, f)) ∧
    (∀ e, readConstantPool h { data := more, junk := afterLongs h 1 junk } filename
        (256 * b8 + b9) = .error e →
      readClassFile h { data := hd ++ b8 :: b9 :: more, junk := junk } filename = .error e) ∧
    (∀ t rest, more = t :: rest → t ∉ validTags → 2 ≤ 256 * b8 + b9 →
      readClassFile h { data := hd ++ b8 :: b9 :: more, junk := junk } filename =
        .error (.invalidConstantTag t filename)) := by
  have hcount : 256 * b8 + b9 < 2 ^ 16 := by omega
  have hform := (readClassFile_any_header h hd b8 b9 more junk filename hlen h8 h9).trans
    (readClassFile_header h 0 0 0 (256 * b8 + b9) hcount more junk filename)
  have hfail : ∀ e, readConstantPool h { data := more, junk := afterLongs h 1 junk } filename
      (256 * b8 + b9) = .error e →
      readClassFile h { data := hd ++ b8 :: b9 :: more, junk := junk } filename =
        .error e := by
    intro e he
    rw [hform, he]
    rfl
  refine ⟨?_, ?_, hfail, ?_⟩
  · rw [readClassFile_any_header h hd b8 b9 more junk filename hlen h8 h9,
      readClassFile_any_header h hd' b8 b9 more junk filename hlen' h8 h9]
  · intro cf hcf
    rw [hform] at hcf
    obtain ⟨p, hp, hcf⟩ := bind_ok_iff.1 hcf
    obtain ⟨a1, -, hcf⟩ := bind_ok_iff.1 hcf
    obtain ⟨a2, -, hcf⟩ := bind_ok_iff.1 hcf
    obtain ⟨a3, -, hcf⟩ := bind_ok_iff.1 hcf
    rw [pure_ok_iff] at hcf
    subst hcf
    exact ⟨rfl, p.2, hp⟩
  · intro t rest hmore ht hc
    subst hmore
    exact hfail _ (readConstantPool_bad_tag h filename _ t ht rest _ [] (by simp)
      (by simpa [poolSlots] using hc))

theorem readClassFile_header_skip_witness :
    readClassFile { littleEndian := true, long64 := true }
        { data := [0xCA, 0xFE, 0xBA, 0xBE, 0, 3, 0, 49] ++ 0 :: 1 :: [0, 33], junk := zeros }
        (bytesOf "Version.class") =
      readClassFile { littleEndian := true, long64 := true }
        { data := [0, 0, 0, 0, 0, 7, 1, 2] ++ 0 :: 1 :: [0, 33], junk := zeros }
        (bytesOf "Version.class") ∧
    readClassFile { littleEndian := true, long64 := true }
        { data := [0xCA, 0xFE, 0xBA, 0xBE, 0, 3, 0, 49] ++ 0 :: 2 :: [13, 0], junk := zeros }
        (bytesOf "Version.class") =
      .error (.invalidConstantTag 13 (bytesOf "Version.class")) :=
  ⟨(readClassFile_header_skip { littleEndian := true, long64 := true } [0xCA, 0xFE, 0xBA, 0xBE, 0, 3, 0, 49]
      [0, 0, 0, 0, 0, 7, 1, 2] 0 1 [0, 33] 0 (bytesOf "Version.class") rfl rfl (by decide)
      (by decide)).1,
    (readClassFile_header_skip { littleEndian := true, long64 := true } [0xCA, 0xFE, 0xBA, 0xBE, 0, 3, 0, 49]
      [0, 0, 0, 0, 0, 7, 1, 2] 0 2 [13, 0] 0 (bytesOf "Version.class") rfl rfl (by decide)
      (by decide)).2.2.2 13 [0] rfl (by decide) (by decide)⟩


end Jdep
